import Mathlib

/-!
# Galaxy: checkpointing and initial conditions

A shallow embedding of `utils.cpp` (`encode`, `decode`), `configs.cpp`
(`save_config`, `restore_config`, `extract_particle`,
`zero_centre_mass_and_linear_momentum`, `createPlummerDistribution` and the
samplers it calls, `get_max_digits_config`) and the octree of `treecode.h`,
followed by the properties proved about them.

Conventions of the embedding.

* A `std::string` is a `List Char`; a file is the list of its characters.
* Where only the bit identity of a `double` matters (checkpointing) a `double`
  is its IEEE-754 binary64 bit pattern, a natural number below `2^64`
  (`uint64_t`).  Where arithmetic matters (centering, sampling) a `double` is an
  element of an ordered field: the exact-arithmetic reading of the code.
* A C++ exception is an `Except.error`; a function that can loop for ever takes
  a fuel argument and returns `none` when the fuel runs out.
* The functions of `<cmath>` are the fields of a `Libm`; `real_libm` has the real
  functions, for the properties stated in real arithmetic.
* The functions of `treecode.cpp`, which is not among the sources, are modelled from
  the specification and from the declarations of `treecode.h`.
-/

namespace Galaxy

/-! ## Strings and the C library -/

/-- The line terminator used by `getline` and written by `save_config`. -/
def newline : Char := Char.ofNat 10

/-- The exceptions `std::stoull` raises. -/
inductive Exn where
  | invalid_argument
  | out_of_range
  deriving DecidableEq, Repr

/-- The C function `isspace` in the "C" locale: space, `\t`, `\n`, `\v`, `\f`, `\r`. -/
def isspace (c : Char) : Bool :=
  c.toNat = 32 || (9 ≤ c.toNat && c.toNat ≤ 13)

/-- The C function `isdigit`. -/
def isdigit (c : Char) : Bool :=
  48 ≤ c.toNat && c.toNat ≤ 57

/-- Value of a decimal digit character. -/
def digitVal (c : Char) : Nat := c.toNat - 48

/-- Value of a run of decimal digits, most significant first. -/
def digitsValue (ds : List Char) : Nat :=
  ds.foldl (fun a c => 10 * a + digitVal c) 0

/-- Sign prefix accepted by `strtoull` and `strtol`: an optional `+` or `-`.
Returns whether the sign is `-` and the rest of the string. -/
def takeSign (s : List Char) : Bool × List Char :=
  match s with
  | c :: r => if c = '-' then (true, r) else if c = '+' then (false, r) else (false, s)
  | [] => (false, s)

/-- The library call `std::stoull(str)` (base 10), i.e. `strtoull` on `str.c_str()` with the
two exceptions of `std::stoull`: leading white space is skipped, one sign is
accepted, the longest run of digits is converted and whatever follows it is
ignored.  No digit at all raises `invalid_argument`; a magnitude above
`ULLONG_MAX` raises `out_of_range`; a `-` sign negates in `uint64_t`. -/
def stoull (str : List Char) : Except Exn Nat :=
  let s := takeSign (str.dropWhile isspace)
  let ds := s.2.takeWhile isdigit
  if ds = [] then .error .invalid_argument
  else if 2 ^ 64 ≤ digitsValue ds then .error .out_of_range
  else .ok (if s.1 then (2 ^ 64 - digitsValue ds) % 2 ^ 64 else digitsValue ds)

/-- The stream insertion `stream << n` for an unsigned integer: its decimal numeral. -/
def showNat (n : Nat) : List Char := Nat.toDigits 10 n

/-! ## utils.cpp -/

/-- The function `encode(small)`: the decimal numeral of the `uint64_t` that shares the
bit pattern of `small` (`*(uint64_t*)&small`).  The argument is that bit pattern. -/
def encode (small : Nat) : List Char := showNat small

/-- The function `decode(str)`: `std::stoull(str)` reinterpreted as a `double`; the result is the
bit pattern of that `double`. -/
def decode (str : List Char) : Except Exn Nat := stoull str

/-! ## The C library, continued -/

/-- The stream insertion `stream << i` for an `int`: a `-` before the numeral of a negative. -/
def showInt : Int → List Char
  | Int.ofNat n => showNat n
  | Int.negSucc n => '-' :: showNat (n + 1)

/-- The C function `strtol` (base 10) without its `errno`: white space, one sign, the
longest digit run (value 0 when there is none), saturated to the range of `long`. -/
def strtol (s : List Char) : Int :=
  let t := takeSign (s.dropWhile isspace)
  let v : Int := (digitsValue (t.2.takeWhile isdigit) : Nat)
  let r : Int := if t.1 then -v else v
  max (-(2 ^ 63)) (min r (2 ^ 63 - 1))

/-- Conversion of a `long` to `int`: reduction modulo `2^32` into `[-2^31, 2^31)`. -/
def toInt32 (v : Int) : Int := (v + 2 ^ 31) % 2 ^ 32 - 2 ^ 31

/-- The C function `atoi`, which is `(int) strtol(s, NULL, 10)`. -/
def atoi (s : List Char) : Int := toInt32 (strtol s)

/-- The call `line.find(c)` for a one-character pattern: the index of the first `c`,
`none` for `npos`. -/
def find_char (c : Char) : List Char → Option Nat
  | [] => none
  | a :: r => if a = c then some 0 else (find_char c r).map (· + 1)

/-- The lines the loop `while (!f.eof()) getline(f, line)` delivers for a file with the
given content: every line that ends in a newline, and then the rest of the file, which
is delivered once, empty or not, and sets `eof`. -/
def getlines : List Char → List (List Char)
  | [] => [[]]
  | c :: cs =>
    if c = newline then [] :: getlines cs
    else match getlines cs with
      | l :: ls => (c :: l) :: ls
      | [] => [[c]]

/-! ## configs.cpp: data -/

/-- The class `Particle` (particle.h): constructed as `Particle(x,y,z,vx,vy,vz,m)`. -/
structure Particle (α : Type) where
  x : α
  y : α
  z : α
  vx : α
  vy : α
  vz : α
  m : α
  deriving DecidableEq, Repr

/-- The members of `Configuration` (configs.h) that the functions below read or write. -/
structure Configuration (α : Type) where
  theta : α
  G : α
  dt : α
  mass : α
  ini_radius : α
  numbodies : Int
  needToZero : Int
  max_iter : Int
  img_iter : Int
  deriving DecidableEq, Repr

/-! ## configs.cpp: save_config -/

/-- The text `"Version="`. -/
def str_Version : List Char := ['V', 'e', 'r', 's', 'i', 'o', 'n', '=']
/-- The text `"iteration="`. -/
def str_iteration : List Char := ['i', 't', 'e', 'r', 'a', 't', 'i', 'o', 'n', '=']
/-- The text `"theta="`. -/
def str_theta : List Char := ['t', 'h', 'e', 't', 'a', '=']
/-- The text `"G="`. -/
def str_G : List Char := ['G', '=']
/-- The text `"dt="`. -/
def str_dt : List Char := ['d', 't', '=']
/-- The text `"End"`. -/
def str_End : List Char := ['E', 'n', 'd']

/-- The record `save_config` writes for `bodies[i]`, without its newline:
`i,px,py,pz,m,vx,vy,vz`, the index in decimal and the doubles through `encode`. -/
def body_record (i : Nat) (b : Particle Nat) : List Char :=
  showNat i ++ ',' :: encode b.x ++ ',' :: encode b.y ++ ',' :: encode b.z ++ ',' :: encode b.m
    ++ ',' :: encode b.vx ++ ',' :: encode b.vy ++ ',' :: encode b.vz

/-- The loop `for (unsigned i=...; i<bodies.size(); ++i)` of `save_config`, from index `i` on;
the counter `i` is read as a natural number (a list of fewer than `2^32` bodies). -/
def save_bodies : Nat → List (Particle Nat) → List Char
  | _, [] => []
  | i, b :: rest => body_record i b ++ newline :: save_bodies (i + 1) rest

/-- The function `Configuration::save_config(bodies, iter)`: the content of the file it
writes, once the file is open for writing.
`config_version` is the constant of configs.h. -/
def save_config (config_version : List Char) (cfg : Configuration Nat)
    (bodies : List (Particle Nat)) (iter : Int) : List Char :=
  str_Version ++ config_version ++ newline ::
  (str_iteration ++ showInt iter ++ newline ::
  (str_theta ++ encode cfg.theta ++ newline ::
  (str_G ++ encode cfg.G ++ newline ::
  (str_dt ++ encode cfg.dt ++ newline ::
  (save_bodies 0 bodies ++ (str_End ++ [newline]))))))

/-! ## configs.cpp: extract_particle -/

/-- The states of `extract_particle`. -/
inductive FieldState where
  | expect_i | expect_x | expect_y | expect_z | expect_m | expect_vx | expect_vy | expect_vz
  | end_line
  deriving DecidableEq, Repr

/-- The local variables of `extract_particle`.  The doubles are not initialised in the
source (here 0); each is assigned before the loop ends. -/
structure Scan where
  state : FieldState
  line : List Char
  px : Nat
  py : Nat
  pz : Nat
  m : Nat
  vx : Nat
  vy : Nat
  vz : Nat
  deriving DecidableEq, Repr

/-- The first three statements of the loop body: `pos = line.find(",")`,
`token = pos>=0 ? line.substr(0,pos) : line`, `line = line.substr(pos+1)`.  Without a
comma `pos` is -1, so the token is the whole line and the line stays as it is.
(`int pos` holds the index exactly for a line of fewer than `2^31` characters.) -/
def next_token (line : List Char) : List Char × List Char :=
  match find_char ',' line with
  | some pos => (line.take pos, line.drop (pos + 1))
  | none => (line, line)

/-- One iteration of the loop of `extract_particle`: take a token, then the `switch`. -/
def extract_step (s : Scan) : Except Exn Scan :=
  let token := (next_token s.line).1
  let line := (next_token s.line).2
  match s.state with
  | .expect_i => .ok { s with line := line, state := .expect_x }
  | .expect_x => (decode token).map fun v => { s with line := line, state := .expect_y, px := v }
  | .expect_y => (decode token).map fun v => { s with line := line, state := .expect_z, py := v }
  | .expect_z => (decode token).map fun v => { s with line := line, state := .expect_m, pz := v }
  | .expect_m => (decode token).map fun v => { s with line := line, state := .expect_vx, m := v }
  | .expect_vx => (decode token).map fun v => { s with line := line, state := .expect_vy, vx := v }
  | .expect_vy => (decode token).map fun v => { s with line := line, state := .expect_vz, vy := v }
  | .expect_vz => (decode token).map fun v => { s with line := line, state := .end_line, vz := v }
  | .end_line => .ok { s with line := line }

/-- The loop `while (state!=end_line)` run for at most `fuel` iterations. -/
def extract_loop : Nat → Scan → Except Exn Scan
  | 0, s => .ok s
  | fuel + 1, s =>
    if s.state = .end_line then .ok s
    else match extract_step s with
      | .ok s1 => extract_loop fuel s1
      | .error e => .error e

/-- The function `Configuration::extract_particle(line)`.  Eight iterations bring the loop from
`expect_i` to `end_line` (`extract_loop_end_line`), unless `decode` throws. -/
def extract_particle (line : List Char) : Except Exn (Particle Nat) :=
  (extract_loop 8 ⟨.expect_i, line, 0, 0, 0, 0, 0, 0, 0⟩).map fun s =>
    ⟨s.px, s.py, s.pz, s.vx, s.vy, s.vz, s.m⟩

/-- The line `extract_particle` still holds after `k` iterations of its loop. -/
def line_after : Nat → List Char → List Char
  | 0, l => l
  | k + 1, l => line_after k (next_token l).2

/-- The token iteration `k` (from 0) of the loop of `extract_particle` takes from `line`. -/
def field_token (k : Nat) (line : List Char) : List Char :=
  (next_token (line_after k line)).1

/-! ## configs.cpp: restore_config -/

/-- The states of `restore_config`. -/
inductive State where
  | expect_version | expect_iteration | expect_theta | expect_g | expect_dt | expect_body
  | expect_eof
  deriving DecidableEq, Repr

/-- How a call of `restore_config` ends: with `return b`, or with an exception that
leaves the function (nothing in it catches one). -/
inductive Outcome where
  | returned (b : Bool)
  | threw (e : Exn)
  deriving DecidableEq, Repr

/-- What `restore_config` works on: its local `state`, the two reference parameters
`particles` and `iter`, and the configuration whose `theta`, `G`, `dt` it assigns. -/
structure Loader where
  state : State
  particles : List (Particle Nat)
  iter : Int
  cfg : Configuration Nat
  deriving DecidableEq, Repr

/-- The token `line.substr(1+line.find("="))`: what follows the first `=`; the whole
line when there is none (`1+npos` is 0). -/
def token_after_eq (line : List Char) : List Char :=
  match find_char '=' line with
  | some pos => line.drop (pos + 1)
  | none => line

/-- The test `line.find("End")==0`: the line starts with `End`. -/
def starts_with_End (line : List Char) : Bool := str_End.isPrefixOf line

/-- The body of the loop of `restore_config` for one line (the `switch`): the new
variables, or the way the function is left. -/
def restore_line (s : Loader) (line : List Char) : Except Outcome Loader :=
  match s.state with
  | .expect_version => .ok { s with state := .expect_iteration }
  | .expect_iteration =>
    .ok { s with iter := atoi (token_after_eq line), state := .expect_theta }
  | .expect_theta =>
    match decode (token_after_eq line) with
    | .ok v => .ok { s with cfg := { s.cfg with theta := v }, state := .expect_g }
    | .error e => .error (.threw e)
  | .expect_g =>
    match decode (token_after_eq line) with
    | .ok v => .ok { s with cfg := { s.cfg with G := v }, state := .expect_dt }
    | .error e => .error (.threw e)
  | .expect_dt =>
    match decode (token_after_eq line) with
    | .ok v => .ok { s with cfg := { s.cfg with dt := v }, state := .expect_body }
    | .error e => .error (.threw e)
  | .expect_body =>
    if starts_with_End line then .ok { s with state := .expect_eof }
    else match extract_particle line with
      | .ok p => .ok { s with particles := s.particles ++ [p] }
      | .error e => .error (.threw e)
  | .expect_eof =>
    if line.length > 0 then .error (.returned false) else .ok s

/-- The loop of `restore_config` over the lines still to come, and the test after it. -/
def restore_loop : List (List Char) → Loader → Outcome × Loader
  | [], s => (.returned (decide (s.state = .expect_eof)), s)
  | line :: rest, s =>
    match restore_line s line with
    | .ok s1 => restore_loop rest s1
    | .error o => (o, s)

/-- The function `Configuration::restore_config(particles, iter)`.  `file` is the content of the
checkpoint file, `none` when it cannot be opened.  The result is how the call ends
and the variables as the caller finds them. -/
def restore_config (cfg : Configuration Nat) (file : Option (List Char))
    (particles : List (Particle Nat)) (iter : Int) : Outcome × Loader :=
  match file with
  | none => (.returned false, ⟨.expect_version, particles, iter, cfg⟩)
  | some text => restore_loop (getlines text) ⟨.expect_version, particles, iter, cfg⟩

/-- The number of header lines `restore_config` still reads in a state before the first
particle line: five at the start, none in `expect_body`. -/
def header_left : State → Nat
  | .expect_version => 5
  | .expect_iteration => 4
  | .expect_theta => 3
  | .expect_g => 2
  | .expect_dt => 1
  | .expect_body => 0
  | .expect_eof => 0

/-- The particle lines of a file: the lines after the five header lines, up to the first
one that starts with `End`. -/
def particle_lines (lines : List (List Char)) : List (List Char) :=
  (lines.drop 5).takeWhile fun line => !starts_with_End line

/-! ## The checkpoint format, as the specification words it -/

/-- A particle whose seven doubles are 64-bit patterns. -/
def Particle.is64 (b : Particle Nat) : Prop :=
  b.x < 2 ^ 64 ∧ b.y < 2 ^ 64 ∧ b.z < 2 ^ 64 ∧ b.vx < 2 ^ 64 ∧ b.vy < 2 ^ 64 ∧ b.vz < 2 ^ 64 ∧
    b.m < 2 ^ 64

instance (b : Particle Nat) : Decidable b.is64 := by
  unfold Particle.is64
  infer_instance

/-- The eight fields of the record of body `k`, in the order of the format
`<i>,<x>,<y>,<z>,<m>,<vx>,<vy>,<vz>`. -/
def record_fields (k : Nat) (b : Particle Nat) : List (List Char) :=
  [showNat k, encode b.x, encode b.y, encode b.z, encode b.m, encode b.vx, encode b.vy,
    encode b.vz]

/-- The lines of a checkpoint in the order of the format: the five header lines, one
record a body with the fields separated by commas and the index counted from 0, and `End`. -/
def checkpoint_lines (config_version : List Char) (cfg : Configuration Nat)
    (bodies : List (Particle Nat)) (iter : Int) : List (List Char) :=
  [str_Version ++ config_version, str_iteration ++ showInt iter, str_theta ++ encode cfg.theta,
    str_G ++ encode cfg.G, str_dt ++ encode cfg.dt] ++
  (bodies.enumFrom 0).map (fun kb => List.intercalate [','] (record_fields kb.1 kb.2)) ++
  [str_End]

/-- The text of a file made of the given lines, each ended by a newline. -/
def unlines (lines : List (List Char)) : List Char :=
  (lines.map (· ++ [newline])).flatten

/-! ## Sample data: scenario 3 of the specification -/

/-- A configuration with `theta = 0.5`, `G = 1.0`, `dt = 0.001` as bit patterns (the other
members play no part in checkpointing). -/
def sample_cfg : Configuration Nat :=
  ⟨4602678819172646912, 4607182418800017408, 4562254508917369340, 4607182418800017408,
    4607182418800017408, 1, 2, 100, 10⟩

/-- The particle `(1.0, 2.0, 3.0, -0.5, 0.25, 0, 1)` as bit patterns. -/
def sample_particle : Particle Nat :=
  ⟨4607182418800017408, 4611686018427387904, 4613937818241073152, 13826050856027422720,
    4598175219545276416, 0, 4607182418800017408⟩

/-- A version string. -/
def sample_version : List Char := ['1', '.', '0']

/-- A checkpoint with one particle line, the `End` line and a line of text after it. -/
def sample_trailing : List Char :=
  "Version=1.0\niteration=42\ntheta=1\nG=1\ndt=1\n0,1,2,3,4,5,6,7\nEnd\njunk\n".toList

/-! ## Numeric fields, as the specification and `std::stoull` see them -/

/-- A plain unsigned decimal numeral: at least one character, digits only. -/
def is_plain_numeral (t : List Char) : Prop := t ≠ [] ∧ ∀ c ∈ t, isdigit c = true

instance (t : List Char) : Decidable (is_plain_numeral t) := by
  unfold is_plain_numeral
  infer_instance

/-- The digits `std::stoull` converts: the digit run after leading white space and one
optional sign. -/
def digit_run (t : List Char) : List Char :=
  (takeSign (t.dropWhile isspace)).2.takeWhile isdigit

/-- The tokens `std::stoull` has no value for: no digit where the number should start, or
a digit run whose value does not fit 64 bits. -/
def stoull_rejects (t : List Char) : Prop :=
  digit_run t = [] ∨ 2 ^ 64 ≤ digitsValue (digit_run t)

instance (t : List Char) : Decidable (stoull_rejects t) := by
  unfold stoull_rejects
  infer_instance

/-- The lines of a checkpoint in which a numeric field satisfies `bad`: the value of
`theta`, `G` or `dt` (what follows `=` on line 2, 3 or 4, counted from 0), or one of the
seven fields `x, y, z, m, vx, vy, vz` of a particle line, which is a line from line 5 on
with no line that starts with `End` before it or at it. -/
def has_field (bad : List Char → Prop) (lines : List (List Char)) : Prop :=
  (∃ l, lines[2]? = some l ∧ bad (token_after_eq l)) ∨
  (∃ l, lines[3]? = some l ∧ bad (token_after_eq l)) ∨
  (∃ l, lines[4]? = some l ∧ bad (token_after_eq l)) ∨
  (∃ k l, lines[5 + k]? = some l ∧
    (∀ j l1, j ≤ k → lines[5 + j]? = some l1 → starts_with_End l1 = false) ∧
    ∃ i, 1 ≤ i ∧ i ≤ 7 ∧ bad (field_token i l))

/-- A checkpoint whose `theta` has letters after its digits, whose `G` has a space and a
sign before them and whose `dt` is negative. -/
def sample_lenient : List Char :=
  "Version=1.0\niteration=42\ntheta=12abc\nG= +3\ndt=-1\n0,1,2,3,4,5,6,7\nEnd\n".toList

/-- A checkpoint whose particle line has the text `x` where the `z` field should be. -/
def sample_nonnumeric : List Char :=
  "Version=1.0\niteration=42\ntheta=1\nG=1\ndt=1\n0,1,2,x,4,5,6,7\nEnd\n".toList

/-! ## configs.cpp: centering -/

section Centering

variable {α : Type} [Field α]

/-- Modelled from the spec: `get_centre_of_mass` is declared in physics.h, which is not
among the sources.  The specification defines the centre of mass as
`(x₀,y₀,z₀) = Σ mᵢ·rᵢ / Σ mᵢ`. -/
def get_centre_of_mass (particles : List (Particle α)) : α × α × α :=
  ((particles.map fun p => p.m * p.x).sum / (particles.map fun p => p.m).sum,
   (particles.map fun p => p.m * p.y).sum / (particles.map fun p => p.m).sum,
   (particles.map fun p => p.m * p.z).sum / (particles.map fun p => p.m).sum)

/-- Modelled from the spec: `get_momentum` is declared in physics.h, which is not among
the sources.  The specification defines the total linear momentum as
`(px₀,py₀,pz₀) = Σ mᵢ·vᵢ`. -/
def get_momentum (particles : List (Particle α)) : α × α × α :=
  ((particles.map fun p => p.m * p.vx).sum,
   (particles.map fun p => p.m * p.vy).sum,
   (particles.map fun p => p.m * p.vz).sum)

/-- The function `Configuration::zero_centre_mass_and_linear_momentum(particles, iter)`: the particles as
the call leaves them.  The two guards return at once; otherwise the first loop moves every
position by the centre of mass and adds up `total_mass`, and the second loop moves every
velocity by the momentum, taken after the first loop, over `total_mass`.  The divisions
are those of exact arithmetic: the positions and velocities of the third branch stand for
those of the code where the masses do not sum to zero (where they do, the code divides by
`0.0`). -/
def zero_centre_mass_and_linear_momentum (cfg : Configuration α)
    (particles : List (Particle α)) (iter : Int) : List (Particle α) :=
  if cfg.needToZero = 0 then particles
  else if cfg.needToZero = 1 ∧ iter > 0 then particles
  else
    let c := get_centre_of_mass particles
    let moved := particles.map fun p => { p with x := p.x - c.1, y := p.y - c.2.1, z := p.z - c.2.2 }
    let total_mass := particles.foldl (fun acc p => acc + p.m) 0
    let p0 := get_momentum moved
    moved.map fun p =>
      { p with vx := p.vx - p0.1 / total_mass, vy := p.vy - p0.2.1 / total_mass,
               vz := p.vz - p0.2.2 / total_mass }

end Centering

/-! ## configs.cpp: the Plummer sampler -/

/-- The functions of `<cmath>` the sampler calls, in exact arithmetic. -/
structure Libm (α : Type) where
  sqrt : α → α
  pow : α → α → α
  sin : α → α
  cos : α → α
  acos : α → α
  atan : α → α

section Sampler

variable {α : Type} [LinearOrderedField α]

/-- Modelled from the spec: `sqr` is declared in physics.h, which is not among the
sources.  The specification writes its uses as squares: `x²`, `1 + r²`. -/
def sqr (x : α) : α := x * x

/-- The constant `pi=4*atan(1)`. -/
def pi (L : Libm α) : α := 4 * L.atan 1

/-- A draw `std::uniform_real_distribution<double>(a,b)(generator)`.  The random stream is
the sequence `rng` of the canonical values in `[0,1)` the generator yields, the state of
the generator is the position `g` in it; the draw is `a + (b - a) * rng g` and moves the
generator on by one. -/
def uniform (a b : α) (rng : Nat → α) (g : Nat) : α × Nat :=
  (a + (b - a) * rng g, g + 1)

/-- The function `Configuration::randomize_theta_phi(r, x, y, z)`: the vector `(x, y, z)` and the
generator after the two draws, `uniform_distribution_theta` on `(-1,1)` and
`uniform_distribution_phi` on `(0,pi)`. -/
def randomize_theta_phi (L : Libm α) (rng : Nat → α) (r : α) (g : Nat) : (α × α × α) × Nat :=
  let acos_theta := (uniform (-1) 1 rng g).1
  let theta := L.acos acos_theta
  let phi := (uniform 0 (pi L) rng (g + 1)).1
  ((r * L.sin theta * L.cos phi, r * L.sin theta * L.sin phi, r * acos_theta), g + 2)

/-- The loop `while (y > sqr(x)*std::pow(1.0-sqr(x),3.5))` of `sample_velocity`, run for at
most `fuel + 1` tests: each iteration draws `x` from `(0,1)` and `y` from `(0,0.1)`.  The
result is the accepted `x` and the generator, `none` when the fuel runs out. -/
def rejection_loop (L : Libm α) (rng : Nat → α) : Nat → α → α → Nat → Option (α × Nat)
  | 0, x, y, g => if y > sqr x * L.pow (1 - sqr x) (7 / 2) then none else some (x, g)
  | fuel + 1, x, y, g =>
    if y > sqr x * L.pow (1 - sqr x) (7 / 2) then
      rejection_loop L rng fuel (uniform 0 1 rng g).1 (uniform 0 (1 / 10) rng (g + 1)).1 (g + 2)
    else some (x, g)

/-- The function `Configuration::sample_velocity(radius)`, from `x=0`, `y=0.1`: the speed and the
generator after the loop. -/
def sample_velocity (L : Libm α) (rng : Nat → α) (fuel : Nat) (radius : α) (g : Nat) :
    Option (α × Nat) :=
  (rejection_loop L rng fuel 0 (1 / 10) g).map fun r =>
    (r.1 * L.sqrt 2 * L.pow (1 + sqr radius) (-(1 / 4)), r.2)

/-- The loop `for (int i=0;i<numbodies;i++)` of `createPlummerDistribution` with `n`
iterations still to run: the bodies pushed onto `product`, in order. -/
def plummer_loop (L : Libm α) (rng : Nat → α) (fuel : Nat) (cfg : Configuration α) :
    Nat → Nat → Option (List (Particle α))
  | 0, _ => some []
  | n + 1, g =>
    let radius := cfg.ini_radius / L.sqrt (L.pow (uniform (2 / 100) 1 rng g).1 (-2 / 3))
    let pos := randomize_theta_phi L rng radius (g + 1)
    match sample_velocity L rng fuel radius pos.2 with
    | none => none
    | some v =>
      let vel := randomize_theta_phi L rng v.1 v.2
      match plummer_loop L rng fuel cfg n vel.2 with
      | none => none
      | some rest =>
        some (⟨pos.1.1, pos.1.2.1, pos.1.2.2, vel.1.1, vel.1.2.1, vel.1.2.2,
          cfg.mass / (cfg.numbodies : α)⟩ :: rest)

/-- The function `Configuration::createPlummerDistribution()`: the product after the centering call
`zero_centre_mass_and_linear_momentum(product,0)`; `none` when a rejection loop does not
end within `fuel`.  `numbodies` is an `int` and `mass` a `double`, as the table of
configuration parameters has them. -/
def createPlummerDistribution (L : Libm α) (rng : Nat → α) (fuel : Nat) (cfg : Configuration α)
    (g : Nat) : Option (List (Particle α)) :=
  (plummer_loop L rng fuel cfg cfg.numbodies.toNat g).map fun product =>
    zero_centre_mass_and_linear_momentum cfg product 0

end Sampler

/-! ## Centering, as the specification words it -/

/-- The total mass `Σ mᵢ`. -/
def total_mass {α : Type} [Field α] (particles : List (Particle α)) : α :=
  (particles.map fun p => p.m).sum

/-- The centering procedure of the specification: every position moved by minus the centre
of mass, every velocity by minus the momentum over the total mass, the masses kept. -/
def centred {α : Type} [Field α] (particles : List (Particle α)) : List (Particle α) :=
  particles.map fun p =>
    ⟨p.x - (get_centre_of_mass particles).1, p.y - (get_centre_of_mass particles).2.1,
     p.z - (get_centre_of_mass particles).2.2,
     p.vx - (get_momentum particles).1 / total_mass particles,
     p.vy - (get_momentum particles).2.1 / total_mass particles,
     p.vz - (get_momentum particles).2.2 / total_mass particles, p.m⟩

/-- Three bodies of masses 1, 2, 3 in exact arithmetic. -/
def sample_bodies : List (Particle ℚ) :=
  [⟨1, 0, 0, 0, 1, 0, 1⟩, ⟨0, 2, 0, 0, 0, 1, 2⟩, ⟨0, 0, 3, 1, 0, 0, 3⟩]

/-- A configuration in exact arithmetic with the centering policy `needToZero`. -/
def sample_policy (needToZero : Int) : Configuration ℚ :=
  ⟨1 / 2, 1, 1 / 1000, 1, 1, 3, needToZero, 100, 10⟩

/-- A stream of canonical values on which no rejection test of `sample_velocity` passes
from an odd position on: every `x` drawn is 0 and every `y` drawn is 0.05. -/
def stuck_stream (n : Nat) : ℚ := if n % 2 = 1 then 0 else 1 / 2

/-- A stream of canonical values that are all 0: the first pair drawn is accepted. -/
def zero_stream (_ : Nat) : ℚ := 0

/-- Stand-ins over the rationals for the functions of `<cmath>`, exact at the arguments
where the rational value is known (`sqrt 1`, `x^0`, `sin 0`, `cos 0`, `acos 1`, `atan 0`). -/
def sample_libm : Libm ℚ :=
  ⟨fun _ => 1, fun _ _ => 1, fun _ => 0, fun _ => 1, fun _ => 0, fun _ => 0⟩

/-- The local `radius` of the loop body of `createPlummerDistribution`,
`ini_radius/(std::sqrt(std::pow(u,-2.0/3.0)))`, for the value `u` drawn from
`uniform_distribution_radius`. -/
def plummer_radius {α : Type} [LinearOrderedField α] (L : Libm α) (ini_radius u : α) : α :=
  ini_radius / L.sqrt (L.pow u (-2 / 3))

/-- The function `Configuration::get_max_digits_config()` in exact arithmetic: `max_imgs` is
the ceiling of the quotient of the two `int`s taken as `double`s, the result the larger
of `max_digits_config = 5` and the ceiling of `std::log10(max_imgs)`.  `log10` is the
function of `<cmath>`. -/
def get_max_digits_config {α : Type} [LinearOrderedField α] [FloorRing α] (log10 : α → α)
    (cfg : Configuration α) : Int :=
  let max_digits_config : Int := 5
  let max_imgs : Int := ⌈(cfg.max_iter : α) / (cfg.img_iter : α)⌉
  max ⌈log10 (max_imgs : α)⌉ max_digits_config

/-! ## treecode.h: the octree -/

/-- The enumerator `N_Children=8`: the number of child slots of a node. -/
def N_Children : Int := 8

/-- The function `Node::_get_child_index(i,j,k)`, which maps a triple to an octet. -/
def _get_child_index (i j k : Int) : Int := 4 * i + 2 * j + k

/-- The bounding box of a node: the six arguments of the constructor
`Node(xmin,xmax,ymin,ymax,zmin,zmax)`. -/
structure Box (α : Type) where
  xmin : α
  xmax : α
  ymin : α
  ymax : α
  zmin : α
  zmax : α

section Octree

variable {α : Type} [LinearOrderedField α]

/-- Modelled from the spec: the constructor of `Node` is defined in treecode.cpp, which is
not among the sources; the header declares the members `_xmean`, `_ymean`, `_zmean`.  The
specification has them as the midpoint of the box, the common corner of the eight child
octants.  This is the midpoint of one axis. -/
def mean (lo hi : α) : α := (lo + hi) / 2

/-- Modelled from the spec: `Node::_get_child_index(Particle*)` is defined in treecode.cpp,
which is not among the sources.  The specification selects the child with
`cx = (x ≥ xmean)`, `cy = (y ≥ ymean)`, `cz = (z ≥ zmean)` mapped to `{0,1}` and the key
`4·cx + 2·cy + cz`. -/
def particle_child_index (box : Box α) (p : Particle α) : Int :=
  _get_child_index (if p.x ≥ mean box.xmin box.xmax then 1 else 0)
    (if p.y ≥ mean box.ymin box.ymax then 1 else 0)
    (if p.z ≥ mean box.zmin box.zmax then 1 else 0)

/-- The slot of the array `_child[N_Children]` a key stands for. -/
def slot (key : Int) : Fin 8 := Fin.ofNat key.toNat

/-- Modelled from the spec: the boxes of the children are set in `Node::_split_node`,
defined in treecode.cpp, which is not among the sources.  The specification makes the box
of a child one of the eight equal octants of its parent: the low or the high half on each
axis, as the bits `i`, `j`, `k` of the key `4·i + 2·j + k` say. -/
def octant (box : Box α) (s : Fin 8) : Box α :=
  ⟨if s.val / 4 = 0 then box.xmin else mean box.xmin box.xmax,
   if s.val / 4 = 0 then mean box.xmin box.xmax else box.xmax,
   if s.val / 2 % 2 = 0 then box.ymin else mean box.ymin box.ymax,
   if s.val / 2 % 2 = 0 then mean box.ymin box.ymax else box.ymax,
   if s.val % 2 = 0 then box.zmin else mean box.zmin box.zmax,
   if s.val % 2 = 0 then mean box.zmin box.zmax else box.zmax⟩

end Octree

/-- What a pointer `Node *` of treecode.h holds: nothing (`null`, an empty slot of
`_child`), or an object of the class `Node`, by the value of `_particle_index`: `Unused`
(-1), the index of the particle of an External node, or `Internal` (-2), which alone has
the descendants `_child`. -/
inductive Node (α : Type) where
  | null
  | Unused (box : Box α)
  | External (box : Box α) (particle_index : Nat)
  | Internal (box : Box α) (child : Fin 8 → Node α)

/-- The test for an empty child slot. -/
def empty_slot {α : Type} : Node α → Bool
  | .null => true
  | _ => false

section OctreeBuild

variable {α : Type} [LinearOrderedField α]

/-- The live nodes of a tree: the node and the live nodes below it; none for an empty
slot. -/
def count_nodes : Node α → Int
  | .null => 0
  | .Unused _ => 1
  | .External _ _ => 1
  | .Internal _ child =>
    1 + count_nodes (child 0) + count_nodes (child 1) + count_nodes (child 2) +
      count_nodes (child 3) + count_nodes (child 4) + count_nodes (child 5) +
      count_nodes (child 6) + count_nodes (child 7)

/-- Modelled from the spec: part of `Node::get_limits`, defined in treecode.cpp, which is
not among the sources.  The smallest of the coordinates in a list, 0 for no coordinate. -/
def axis_min : List α → α
  | [] => 0
  | x :: r => r.foldl min x

/-- Modelled from the spec: part of `Node::get_limits`, defined in treecode.cpp, which is
not among the sources.  The largest of the coordinates in a list, 0 for no coordinate. -/
def axis_max : List α → α
  | [] => 0
  | x :: r => r.foldl max x

/-- Modelled from the spec: `Node::get_limits` is defined in treecode.cpp, which is not
among the sources.  The specification takes the minimum and maximum over all particles
on each axis, expands them by `epsilon` on each side and enlarges the shorter axes so
that the box is a cube of side `max range + 2 epsilon`; here the shorter axes grow about
their centres. -/
def get_limits (particles : List (Particle α)) (epsilon : α) : Box α :=
  let xlo := axis_min (particles.map fun p => p.x)
  let xhi := axis_max (particles.map fun p => p.x)
  let ylo := axis_min (particles.map fun p => p.y)
  let yhi := axis_max (particles.map fun p => p.y)
  let zlo := axis_min (particles.map fun p => p.z)
  let zhi := axis_max (particles.map fun p => p.z)
  let half := max (xhi - xlo) (max (yhi - ylo) (zhi - zlo)) / 2 + epsilon
  ⟨mean xlo xhi - half, mean xlo xhi + half, mean ylo yhi - half, mean ylo yhi + half,
   mean zlo zhi - half, mean zlo zhi + half⟩

/-- The particle `particles[i]`. -/
def particle_at (particles : List (Particle α)) (i : Nat) : Particle α :=
  particles.getD i ⟨0, 0, 0, 0, 0, 0, 0⟩

/-- Modelled from the spec: `Node::_split_node` is defined in treecode.cpp, which is not
among the sources; the header has it convert an External node into an Internal one and
determine the bounding boxes of the children.  The table of the specification (4.2) has
the split allocate only the child slots the two particles go to, so that the node starts
with eight empty slots.  Scenario 1 of the specification has the slots of the split level
instantiated, for the nine live nodes the reference counts, and calls this
implementation-dependent.  The parameter `instantiate` stands for that choice: false is
the table; with true the eight children are made as Unused nodes, which adds 8 to
`_count`.  The result is the node and `Node::_count` after the split. -/
def split_node (instantiate : Bool) (box : Box α) (count : Int) : Node α × Int :=
  if instantiate then (.Internal box fun s => .Unused (octant box s), count + 8)
  else (.Internal box fun _ => .null, count)

/-- Modelled from the spec: `Node::insert`, `_pass_down` and `_insert_or_propagate` are
defined in treecode.cpp, which is not among the sources.  This is the state machine of
the specification (4.2) on the status of the node.  An Unused node becomes External and
holds the particle.  An External node is split (`split_node`), and the incumbent and the
new particle are inserted into the node it has become; when both go to the same child
this repeats in the child, until the two separate.  An Internal node selects the child
slot of the octant of the particle: an empty slot gets a new External node that holds the
particle, over the octant, which adds 1 to `_count`; a child gets the particle to insert.
The result is the node and `Node::_count` after the call, `none` when the recursion is
deeper than `fuel`; there is no call on an empty slot. -/
def insert (particles : List (Particle α)) (instantiate : Bool) :
    Nat → Nat → Node α → Int → Option (Node α × Int)
  | 0, _, _, _ => none
  | _ + 1, _, .null, _ => none
  | _ + 1, i, .Unused box, count => some (.External box i, count)
  | fuel + 1, i, .External box j, count =>
    match insert particles instantiate fuel j (split_node instantiate box count).1
        (split_node instantiate box count).2 with
    | none => none
    | some r => insert particles instantiate fuel i r.1 r.2
  | fuel + 1, i, .Internal box child, count =>
    if empty_slot (child (slot (particle_child_index box (particle_at particles i)))) then
      some (.Internal box
        (Function.update child (slot (particle_child_index box (particle_at particles i)))
          (.External (octant box (slot (particle_child_index box (particle_at particles i))))
            i)),
        count + 1)
    else
      match insert particles instantiate fuel i
          (child (slot (particle_child_index box (particle_at particles i)))) count with
      | none => none
      | some r =>
        some (.Internal box
          (Function.update child (slot (particle_child_index box (particle_at particles i)))
            r.1),
          r.2)

/-- Modelled from the spec: the insertion phase of `Node::create`, defined in treecode.cpp,
which is not among the sources.  The particles of the given indices are inserted in
order. -/
def insert_all (particles : List (Particle α)) (instantiate : Bool) (fuel : Nat) :
    List Nat → Node α × Int → Option (Node α × Int)
  | [], r => some r
  | i :: rest, r =>
    match insert particles instantiate fuel i r.1 r.2 with
    | none => none
    | some r1 => insert_all particles instantiate fuel rest r1

/-- Modelled from the spec: `Node::create` is defined in treecode.cpp, which is not among
the sources.  The specification builds the tree in phases: the bounding box, with
`epsilon = 0.0001`; the root, made as an Unused node, which adds 1 to `_count`; the
insertion of every particle index in order.  The aggregation of mass and centre of mass
that follows makes no node and is left out.  The result is the root and `Node::_count`
after the call, from the `_count` before it. -/
def create (instantiate : Bool) (fuel : Nat) (particles : List (Particle α)) (count : Int) :
    Option (Node α × Int) :=
  insert_all particles instantiate fuel (List.range particles.length)
    (.Unused (get_limits particles (1 / 10000)), count + 1)

/-- Modelled from the spec: the destructor `Node::~Node` is defined in treecode.cpp, which
is not among the sources.  The header has it destroy the node and its descendants, and
the specification has every destruction take 1 from the counter of live nodes; `delete`
of an empty slot does nothing.  The result is `Node::_count` after `delete` of the
node. -/
def destroy : Node α → Int → Int
  | .null, count => count
  | .Unused _, count => count - 1
  | .External _ _, count => count - 1
  | .Internal _ child, count =>
    destroy (child 7) (destroy (child 6) (destroy (child 5) (destroy (child 4)
      (destroy (child 3) (destroy (child 2) (destroy (child 1) (destroy (child 0)
        (count - 1))))))))

/-- Two particles are at the same position. -/
def same_position (p q : Particle α) : Prop := p.x = q.x ∧ p.y = q.y ∧ p.z = q.z

/-- The coordinates of a particle lie in the half-open box (invariant 3 of the
specification). -/
def inside (box : Box α) (p : Particle α) : Prop :=
  (box.xmin ≤ p.x ∧ p.x < box.xmax) ∧ (box.ymin ≤ p.y ∧ p.y < box.ymax) ∧
    (box.zmin ≤ p.z ∧ p.z < box.zmax)

/-- No side of the box is longer than `w`. -/
def width_le (box : Box α) (w : α) : Prop :=
  box.xmax - box.xmin ≤ w ∧ box.ymax - box.ymin ≤ w ∧ box.zmax - box.zmin ≤ w

/-- The largest of the distances of two particles along the three axes. -/
def spread (p q : Particle α) : α := max |p.x - q.x| (max |p.y - q.y| |p.z - q.z|)

/-- The pointer holds a node over the box `box`. -/
def has_box (box : Box α) : Node α → Prop
  | .null => False
  | .Unused b => b = box
  | .External b _ => b = box
  | .Internal b _ => b = box

/-- The invariants of the specification on a tree that holds particles of index below
`m`: the particle of an External node has an index below `m` and lies in the box of the
node; every child of an Internal node is over the octant of its slot. -/
def well_formed (particles : List (Particle α)) (m : Nat) : Node α → Prop
  | .null => True
  | .Unused _ => True
  | .External box j => j < m ∧ inside box (particle_at particles j)
  | .Internal box child =>
    ∀ s, child s = .null ∨
      (has_box (octant box s) (child s) ∧ well_formed particles m (child s))

/-- A root split once, with the particles of index below `m` in it: an Internal node over
`box` whose slots are as the split left them, but for the slots of these particles, each
of which holds an External child with the particle, over the octant. -/
def split_once (particles : List (Particle α)) (instantiate : Bool) (box : Box α) (m : Nat)
    (t : Node α) : Prop :=
  ∃ child, t = .Internal box child ∧
    ∀ s, child s = (if instantiate then .Unused (octant box s) else .null) ∨
      ∃ j, j < m ∧ slot (particle_child_index box (particle_at particles j)) = s ∧
        child s = .External (octant box s) j

end OctreeBuild

/-- The two particles of the test "Trivial Tree Insert". -/
def test_two : List (Particle ℚ) :=
  [⟨-1, -1, -1, 0, 0, 0, 0⟩, ⟨-1, -1, 1, 0, 0, 0, 0⟩]

/-- The eight particles of the test "Larger Tree Insert". -/
def test_eight : List (Particle ℚ) :=
  [⟨-1, -1, -1, 0, 0, 0, 1⟩, ⟨-1, -1, 1, 0, 0, 0, 1⟩, ⟨-1, 1, -1, 0, 0, 0, 1⟩,
   ⟨1, -1, -1, 0, 0, 0, 1⟩, ⟨-1, 1, 1, 0, 0, 0, 1⟩, ⟨1, -1, 1, 0, 0, 0, 1⟩,
   ⟨1, 1, -1, 0, 0, 0, 1⟩, ⟨1, 1, 1, 0, 0, 0, 1⟩]

/-! ## Real arithmetic -/

/-- The functions of `<cmath>` over the real numbers: `sqrt`, `pow`, `sin`, `cos`, `acos`,
`atan` read as the real functions they compute in exact arithmetic. -/
noncomputable def real_libm : Libm ℝ :=
  ⟨Real.sqrt, fun x y => x ^ y, Real.sin, Real.cos, Real.arccos, Real.arctan⟩

/-- The local escape speed of the specification, `v_esc(r) = √2 · (1 + r²)^(−1/4)`. -/
noncomputable def escape_speed (r : ℝ) : ℝ := Real.sqrt 2 * (1 + r ^ 2) ^ (-(1 / 4) : ℝ)

/-- A stream of real canonical values that are all 0. -/
def real_zero_stream (_ : Nat) : ℝ := 0

/-- A configuration in real arithmetic with scale radius 1 and three bodies. -/
noncomputable def sample_real_cfg : Configuration ℝ :=
  ⟨1 / 2, 1, 1 / 1000, 1, 1, 3, 2, 100, 10⟩

/-- A particle line with four fields only. -/
def sample_short_line : List Char := "0,1,2,3".toList

/-- Two particles at the same position. -/
def sample_coincident : List (Particle ℚ) :=
  [⟨0, 0, 0, 0, 0, 0, 1⟩, ⟨0, 0, 0, 0, 0, 0, 1⟩]

/-! ## Lemmas on numerals -/

theorem digitVal_digitChar (k : Nat) (h : k < 10) : digitVal (Nat.digitChar k) = k := by
  interval_cases k <;> rfl

theorem isdigit_digitChar (k : Nat) (h : k < 10) : isdigit (Nat.digitChar k) = true := by
  interval_cases k <;> rfl

theorem digitsValue_append (l : List Char) (c : Char) :
    digitsValue (l ++ [c]) = 10 * digitsValue l + digitVal c := by
  simp [digitsValue, List.foldl_append]

theorem toDigitsCore_append (fuel : Nat) : ∀ (n : Nat) (acc : List Char),
    Nat.toDigitsCore 10 fuel n acc = Nat.toDigitsCore 10 fuel n [] ++ acc := by
  induction fuel with
  | zero => intro n acc; simp [Nat.toDigitsCore]
  | succ f ih =>
    intro n acc
    simp only [Nat.toDigitsCore]
    by_cases h : n / 10 = 0
    · simp [h]
    · simp only [h, if_false]
      rw [ih (n / 10) (Nat.digitChar (n % 10) :: acc), ih (n / 10) [Nat.digitChar (n % 10)]]
      simp

theorem toDigitsCore_snoc (fuel n : Nat) (h : n < fuel) :
    ∃ l, Nat.toDigitsCore 10 fuel n [] = l ++ [Nat.digitChar (n % 10)] ∧
      (∀ c ∈ l, isdigit c = true) ∧ digitsValue l = n / 10 := by
  induction fuel generalizing n with
  | zero => omega
  | succ f ih =>
    simp only [Nat.toDigitsCore]
    by_cases h0 : n / 10 = 0
    · refine ⟨[], ?_, ?_, ?_⟩
      · simp [h0]
      · simp
      · simp [h0, digitsValue]
    · have hlt : n / 10 < f := by omega
      obtain ⟨l, hl, hd, hv⟩ := ih (n / 10) hlt
      refine ⟨l ++ [Nat.digitChar (n / 10 % 10)], ?_, ?_, ?_⟩
      · simp only [h0, if_false]
        rw [toDigitsCore_append, hl]
      · intro c hc
        rcases List.mem_append.1 hc with hc | hc
        · exact hd c hc
        · rw [List.mem_singleton.1 hc]
          exact isdigit_digitChar _ (Nat.mod_lt _ (by decide))
      · rw [digitsValue_append, hv, digitVal_digitChar _ (Nat.mod_lt _ (by decide))]
        omega

/-- The numeral of `n` is a non-empty run of digits whose value is `n`. -/
theorem showNat_spec (n : Nat) :
    showNat n ≠ [] ∧ (∀ c ∈ showNat n, isdigit c = true) ∧ digitsValue (showNat n) = n := by
  obtain ⟨l, hl, hd, hv⟩ := toDigitsCore_snoc (n + 1) n (Nat.lt_succ_self n)
  have hs : showNat n = l ++ [Nat.digitChar (n % 10)] := hl
  refine ⟨by simp [hs], ?_, ?_⟩
  · intro c hc
    rw [hs] at hc
    rcases List.mem_append.1 hc with hc | hc
    · exact hd c hc
    · rw [List.mem_singleton.1 hc]
      exact isdigit_digitChar _ (Nat.mod_lt _ (by decide))
  · rw [hs, digitsValue_append, hv, digitVal_digitChar _ (Nat.mod_lt _ (by decide))]
    omega

theorem isdigit_not_isspace (c : Char) (h : isdigit c = true) : isspace c = false := by
  simp only [isdigit, isspace, Bool.and_eq_true, decide_eq_true_eq] at *
  simp only [Bool.or_eq_false_iff, Bool.and_eq_false_iff, decide_eq_false_iff_not]
  omega

theorem takeWhile_all {α : Type} (p : α → Bool) (l : List α) (h : ∀ c ∈ l, p c = true) :
    l.takeWhile p = l := by
  induction l with
  | nil => rfl
  | cons a t ih =>
    simp only [List.takeWhile, h a (List.mem_cons_self a t)]
    rw [ih (fun c hc => h c (List.mem_cons_of_mem a hc))]

theorem takeWhile_append_stop {α : Type} (p : α → Bool) (l rest : List α)
    (h : ∀ c ∈ l, p c = true) (hrest : ∀ c, rest.head? = some c → p c = false) :
    (l ++ rest).takeWhile p = l := by
  induction l with
  | nil =>
    cases rest with
    | nil => rfl
    | cons b r => simp [List.takeWhile, hrest b rfl]
  | cons a t ih =>
    have ht := ih (fun c hc => h c (List.mem_cons_of_mem a hc))
    simp [List.takeWhile, h a (List.mem_cons_self a t), ht]

theorem takeSign_digit (c : Char) (r : List Char) (h : isdigit c = true) :
    takeSign (c :: r) = (false, c :: r) := by
  have h1 : c ≠ '-' := by rintro rfl; revert h; decide
  have h2 : c ≠ '+' := by rintro rfl; revert h; decide
  simp [takeSign, h1, h2]

/-- A token that starts with a digit is converted by `stoull` from its digit run. -/
theorem stoull_digits (ds rest : List Char) (hne : ds ≠ []) (hd : ∀ c ∈ ds, isdigit c = true)
    (hrest : ∀ c, rest.head? = some c → isdigit c = false) (hv : digitsValue ds < 2 ^ 64) :
    stoull (ds ++ rest) = .ok (digitsValue ds) := by
  obtain ⟨a, t, rfl⟩ := List.exists_cons_of_ne_nil hne
  have ha : isdigit a = true := hd a (List.mem_cons_self a t)
  have h1 : ((a :: t) ++ rest).dropWhile isspace = (a :: t) ++ rest := by
    simp [List.dropWhile, isdigit_not_isspace a ha]
  have h2 : takeSign ((a :: t) ++ rest) = (false, (a :: t) ++ rest) := takeSign_digit a _ ha
  have h3 : ((a :: t) ++ rest).takeWhile isdigit = a :: t := takeWhile_append_stop _ _ _ hd hrest
  unfold stoull
  simp only [h1, h2, h3]
  rw [if_neg (List.cons_ne_nil a t), if_neg (Nat.not_le.2 hv)]
  rfl

theorem decode_encode (x : Nat) (h : x < 2 ^ 64) : decode (encode x) = .ok x := by
  obtain ⟨hne, hd, hv⟩ := showNat_spec x
  have := stoull_digits (showNat x) [] hne hd (by simp) (by rw [hv]; exact h)
  simpa [decode, encode, hv] using this

/-! ## Lemmas on lines and tokens -/

theorem getlines_ne_nil (t : List Char) : getlines t ≠ [] := by
  induction t with
  | nil => simp [getlines]
  | cons c cs ih =>
    simp only [getlines]
    split
    · simp
    · split <;> simp

theorem getlines_cons_of_ne (c : Char) (cs : List Char) (h : c ≠ newline) :
    getlines (c :: cs) = (c :: (getlines cs).headD []) :: (getlines cs).tail := by
  simp only [getlines, h, if_false]
  cases hg : getlines cs with
  | nil => exact absurd hg (getlines_ne_nil cs)
  | cons l ls => simp

/-- A line without a newline, followed by a newline, is the first line delivered. -/
theorem getlines_append (l rest : List Char) (h : newline ∉ l) :
    getlines (l ++ newline :: rest) = l :: getlines rest := by
  induction l with
  | nil => simp [getlines]
  | cons c cs ih =>
    have hc : c ≠ newline := fun e => h (e ▸ List.mem_cons_self c cs)
    have hcs : newline ∉ cs := fun e => h (List.mem_cons_of_mem c e)
    rw [List.cons_append, getlines_cons_of_ne c _ hc, ih hcs]
    simp

theorem find_char_append (c : Char) (l rest : List Char) (h : c ∉ l) :
    find_char c (l ++ c :: rest) = some l.length := by
  induction l with
  | nil => simp [find_char]
  | cons a t ih =>
    have ha : a ≠ c := fun e => h (e ▸ List.mem_cons_self a t)
    have ht : c ∉ t := fun e => h (List.mem_cons_of_mem a e)
    simp [find_char, ha, ih ht]

theorem find_char_none (c : Char) (l : List Char) (h : c ∉ l) : find_char c l = none := by
  induction l with
  | nil => rfl
  | cons a t ih =>
    have ha : a ≠ c := fun e => h (e ▸ List.mem_cons_self a t)
    have ht : c ∉ t := fun e => h (List.mem_cons_of_mem a e)
    simp [find_char, ha, ih ht]

theorem next_token_append (l rest : List Char) (h : ',' ∉ l) :
    next_token (l ++ ',' :: rest) = (l, rest) := by
  simp [next_token, find_char_append ',' l rest h]

theorem next_token_last (l : List Char) (h : ',' ∉ l) : next_token l = (l, l) := by
  simp [next_token, find_char_none ',' l h]

theorem token_after_eq_append (l rest : List Char) (h : '=' ∉ l) :
    token_after_eq (l ++ '=' :: rest) = rest := by
  simp [token_after_eq, find_char_append '=' l rest h]

theorem not_mem_of_digits (c : Char) (hc : isdigit c = false) (l : List Char)
    (h : ∀ d ∈ l, isdigit d = true) : c ∉ l := by
  intro hm
  rw [h c hm] at hc
  exact Bool.noConfusion hc

theorem comma_not_mem_showNat (n : Nat) : ',' ∉ showNat n :=
  not_mem_of_digits ',' (by decide) _ (showNat_spec n).2.1

theorem newline_not_mem_showNat (n : Nat) : newline ∉ showNat n :=
  not_mem_of_digits newline (by decide) _ (showNat_spec n).2.1

theorem newline_not_mem_encode (n : Nat) : newline ∉ encode n :=
  newline_not_mem_showNat n

theorem comma_not_mem_encode (n : Nat) : ',' ∉ encode n :=
  comma_not_mem_showNat n

theorem newline_not_mem_showInt (i : Int) : newline ∉ showInt i := by
  cases i with
  | ofNat n => exact newline_not_mem_showNat n
  | negSucc n =>
    simp only [showInt, List.mem_cons, not_or]
    exact ⟨by decide, newline_not_mem_showNat _⟩

theorem digits_lead (ds : List Char) (hne : ds ≠ []) (hd : ∀ c ∈ ds, isdigit c = true) :
    ds.dropWhile isspace = ds ∧ takeSign ds = (false, ds) ∧ ds.takeWhile isdigit = ds := by
  obtain ⟨a, t, rfl⟩ := List.exists_cons_of_ne_nil hne
  have ha : isdigit a = true := hd a (List.mem_cons_self a t)
  refine ⟨?_, takeSign_digit a t ha, takeWhile_all _ _ hd⟩
  simp [List.dropWhile, isdigit_not_isspace a ha]

theorem toInt32_id (v : Int) (h1 : -(2 ^ 31) ≤ v) (h2 : v < 2 ^ 31) : toInt32 v = v := by
  unfold toInt32
  omega

theorem strtol_showInt (i : Int) (h1 : -(2 ^ 31) ≤ i) (h2 : i < 2 ^ 31) :
    strtol (showInt i) = i := by
  cases i with
  | ofNat n =>
    obtain ⟨hne, hd, hv⟩ := showNat_spec n
    obtain ⟨e1, e2, e3⟩ := digits_lead (showNat n) hne hd
    simp only [strtol, showInt, e1, e2, e3, hv]
    simp only [Bool.false_eq_true, if_false, Int.ofNat_eq_coe] at *
    omega
  | negSucc n =>
    obtain ⟨hne, hd, hv⟩ := showNat_spec (n + 1)
    have e1 : ('-' :: showNat (n + 1)).dropWhile isspace = '-' :: showNat (n + 1) := by
      have : isspace '-' = false := by decide
      simp [List.dropWhile, this]
    have e2 : takeSign ('-' :: showNat (n + 1)) = (true, showNat (n + 1)) := by
      simp [takeSign]
    have e3 := takeWhile_all isdigit _ hd
    simp only [strtol, showInt, e1, e2, e3, hv]
    simp only [if_true, Int.negSucc_eq] at *
    omega

/-- The numeral `save_config` writes for `iter` is read back by `atoi`. -/
theorem atoi_showInt (i : Int) (h1 : -(2 ^ 31) ≤ i) (h2 : i < 2 ^ 31) :
    atoi (showInt i) = i := by
  rw [atoi, strtol_showInt i h1 h2, toInt32_id i h1 h2]

theorem decode_showNat (x : Nat) (h : x < 2 ^ 64) : decode (showNat x) = .ok x :=
  decode_encode x h

theorem except_map_bind {ε α β γ : Type} (x : Except ε α) (f : α → Except ε β) (g : β → γ) :
    Except.map g (x.bind f) = x.bind fun v => Except.map g (f v) := by
  cases x <;> rfl

theorem extract_loop_i (f : Nat) (l : List Char) (px py pz m vx vy vz : Nat) :
    extract_loop (f + 1) ⟨.expect_i, l, px, py, pz, m, vx, vy, vz⟩ =
      extract_loop f ⟨.expect_x, (next_token l).2, px, py, pz, m, vx, vy, vz⟩ := rfl

theorem extract_loop_x (f : Nat) (l : List Char) (px py pz m vx vy vz : Nat) :
    extract_loop (f + 1) ⟨.expect_x, l, px, py, pz, m, vx, vy, vz⟩ =
      (decode (next_token l).1).bind fun v =>
        extract_loop f ⟨.expect_y, (next_token l).2, v, py, pz, m, vx, vy, vz⟩ := by
  simp only [extract_loop, extract_step]
  cases decode (next_token l).1 <;> rfl

theorem extract_loop_y (f : Nat) (l : List Char) (px py pz m vx vy vz : Nat) :
    extract_loop (f + 1) ⟨.expect_y, l, px, py, pz, m, vx, vy, vz⟩ =
      (decode (next_token l).1).bind fun v =>
        extract_loop f ⟨.expect_z, (next_token l).2, px, v, pz, m, vx, vy, vz⟩ := by
  simp only [extract_loop, extract_step]
  cases decode (next_token l).1 <;> rfl

theorem extract_loop_z (f : Nat) (l : List Char) (px py pz m vx vy vz : Nat) :
    extract_loop (f + 1) ⟨.expect_z, l, px, py, pz, m, vx, vy, vz⟩ =
      (decode (next_token l).1).bind fun v =>
        extract_loop f ⟨.expect_m, (next_token l).2, px, py, v, m, vx, vy, vz⟩ := by
  simp only [extract_loop, extract_step]
  cases decode (next_token l).1 <;> rfl

theorem extract_loop_m (f : Nat) (l : List Char) (px py pz m vx vy vz : Nat) :
    extract_loop (f + 1) ⟨.expect_m, l, px, py, pz, m, vx, vy, vz⟩ =
      (decode (next_token l).1).bind fun v =>
        extract_loop f ⟨.expect_vx, (next_token l).2, px, py, pz, v, vx, vy, vz⟩ := by
  simp only [extract_loop, extract_step]
  cases decode (next_token l).1 <;> rfl

theorem extract_loop_vx (f : Nat) (l : List Char) (px py pz m vx vy vz : Nat) :
    extract_loop (f + 1) ⟨.expect_vx, l, px, py, pz, m, vx, vy, vz⟩ =
      (decode (next_token l).1).bind fun v =>
        extract_loop f ⟨.expect_vy, (next_token l).2, px, py, pz, m, v, vy, vz⟩ := by
  simp only [extract_loop, extract_step]
  cases decode (next_token l).1 <;> rfl

theorem extract_loop_vy (f : Nat) (l : List Char) (px py pz m vx vy vz : Nat) :
    extract_loop (f + 1) ⟨.expect_vy, l, px, py, pz, m, vx, vy, vz⟩ =
      (decode (next_token l).1).bind fun v =>
        extract_loop f ⟨.expect_vz, (next_token l).2, px, py, pz, m, vx, v, vz⟩ := by
  simp only [extract_loop, extract_step]
  cases decode (next_token l).1 <;> rfl

theorem extract_loop_vz (f : Nat) (l : List Char) (px py pz m vx vy vz : Nat) :
    extract_loop (f + 1) ⟨.expect_vz, l, px, py, pz, m, vx, vy, vz⟩ =
      (decode (next_token l).1).bind fun v =>
        extract_loop f ⟨.end_line, (next_token l).2, px, py, pz, m, vx, vy, v⟩ := by
  simp only [extract_loop, extract_step]
  cases decode (next_token l).1 <;> rfl

/-- The loop of `extract_particle` unrolled: the token of iteration 0 is dropped, those of
iterations 1 to 7 are decoded in turn into `px, py, pz, m, vx, vy, vz`. -/
theorem extract_particle_eq (line : List Char) :
    extract_particle line =
      (decode (field_token 1 line)).bind fun px =>
      (decode (field_token 2 line)).bind fun py =>
      (decode (field_token 3 line)).bind fun pz =>
      (decode (field_token 4 line)).bind fun m =>
      (decode (field_token 5 line)).bind fun vx =>
      (decode (field_token 6 line)).bind fun vy =>
      (decode (field_token 7 line)).bind fun vz =>
        .ok ⟨px, py, pz, vx, vy, vz, m⟩ := by
  simp only [extract_particle, extract_loop_i, extract_loop_x, extract_loop_y, extract_loop_z,
    extract_loop_m, extract_loop_vx, extract_loop_vy, extract_loop_vz, except_map_bind,
    field_token, line_after]
  rfl

theorem bind_ok {α β : Type} (x : Except Exn α) (f : α → Except Exn β) (b : β)
    (h : x.bind f = .ok b) : ∃ v, x = .ok v ∧ f v = .ok b := by
  cases x with
  | error e => cases h
  | ok v => exact ⟨v, rfl, h⟩

/-- Once the state is `end_line` the loop of `extract_particle` is over. -/
theorem extract_loop_end (f : Nat) (s : Scan) (h : s.state = .end_line) :
    extract_loop f s = .ok s := by
  cases f with
  | zero => rfl
  | succ k => simp [extract_loop, h]

/-- The bound of eight iterations in `extract_particle` is never what ends its loop: when
the loop returns, the state is `end_line`. -/
theorem extract_loop_end_line (line : List Char) (s : Scan)
    (h : extract_loop 8 ⟨.expect_i, line, 0, 0, 0, 0, 0, 0, 0⟩ = .ok s) :
    s.state = .end_line := by
  simp only [extract_loop_i, extract_loop_x, extract_loop_y, extract_loop_z, extract_loop_m,
    extract_loop_vx, extract_loop_vy, extract_loop_vz] at h
  obtain ⟨v1, -, h⟩ := bind_ok _ _ _ h
  obtain ⟨v2, -, h⟩ := bind_ok _ _ _ h
  obtain ⟨v3, -, h⟩ := bind_ok _ _ _ h
  obtain ⟨v4, -, h⟩ := bind_ok _ _ _ h
  obtain ⟨v5, -, h⟩ := bind_ok _ _ _ h
  obtain ⟨v6, -, h⟩ := bind_ok _ _ _ h
  obtain ⟨v7, -, h⟩ := bind_ok _ _ _ h
  simp only [extract_loop, Except.ok.injEq] at h
  rw [← h]

/-- More than eight iterations change nothing in `extract_particle`. -/
theorem extract_loop_fuel (line : List Char) (f : Nat) :
    extract_loop (f + 8) ⟨.expect_i, line, 0, 0, 0, 0, 0, 0, 0⟩ =
      extract_loop 8 ⟨.expect_i, line, 0, 0, 0, 0, 0, 0, 0⟩ := by
  simp only [extract_loop_i, extract_loop_x, extract_loop_y, extract_loop_z, extract_loop_m,
    extract_loop_vx, extract_loop_vy, extract_loop_vz, extract_loop_end]

/-- The record written for a body is read back by `extract_particle`. -/
theorem extract_particle_body_record (i : Nat) (b : Particle Nat) (hb : b.is64) :
    extract_particle (body_record i b) = .ok b := by
  obtain ⟨hx, hy, hz, hvx, hvy, hvz, hm⟩ := hb
  rw [extract_particle_eq]
  simp only [field_token, line_after, body_record, encode,
    List.append_assoc, List.cons_append, List.nil_append,
    next_token_append _ _ (comma_not_mem_showNat _), next_token_last _ (comma_not_mem_showNat _),
    decode_showNat _ hx, decode_showNat _ hy, decode_showNat _ hz, decode_showNat _ hvx,
    decode_showNat _ hvy, decode_showNat _ hvz, decode_showNat _ hm]
  rfl

theorem newline_not_mem_body_record (i : Nat) (b : Particle Nat) :
    newline ∉ body_record i b := by
  have hc : newline ≠ ',' := by decide
  simp [body_record, encode, newline_not_mem_showNat, hc]

theorem starts_with_End_digits (l rest : List Char) (hne : l ≠ [])
    (hd : ∀ c ∈ l, isdigit c = true) : starts_with_End (l ++ rest) = false := by
  obtain ⟨a, t, rfl⟩ := List.exists_cons_of_ne_nil hne
  have ha : isdigit a = true := hd a (List.mem_cons_self a t)
  have h1 : a ≠ 'E' := by rintro rfl; revert ha; decide
  simp [starts_with_End, str_End, List.isPrefixOf, Ne.symm h1]

theorem starts_with_End_body_record (i : Nat) (b : Particle Nat) :
    starts_with_End (body_record i b) = false := by
  obtain ⟨hne, hd, -⟩ := showNat_spec i
  unfold body_record
  simp only [List.append_assoc]
  exact starts_with_End_digits (showNat i) _ hne hd

/-- The loop of `restore_config`, in the state `expect_body`, reads the records written by
the loop of `save_config` back into the bodies they were written from. -/
theorem restore_loop_save_bodies (bodies : List (Particle Nat)) (hb : ∀ b ∈ bodies, b.is64) :
    ∀ (i : Nat) (tail : List Char) (ps : List (Particle Nat)) (iter : Int)
      (cfg : Configuration Nat),
      restore_loop (getlines (save_bodies i bodies ++ tail)) ⟨.expect_body, ps, iter, cfg⟩ =
        restore_loop (getlines tail) ⟨.expect_body, ps ++ bodies, iter, cfg⟩ := by
  induction bodies with
  | nil => intro i tail ps iter cfg; simp [save_bodies]
  | cons b r ih =>
    intro i tail ps iter cfg
    have hb1 : b.is64 := hb b (List.mem_cons_self b r)
    have hr : ∀ b ∈ r, b.is64 := fun c hc => hb c (List.mem_cons_of_mem b hc)
    have e : save_bodies i (b :: r) ++ tail =
        body_record i b ++ newline :: (save_bodies (i + 1) r ++ tail) := by
      simp [save_bodies]
    rw [e, getlines_append _ _ (newline_not_mem_body_record i b)]
    simp only [restore_loop, restore_line, starts_with_End_body_record,
      extract_particle_body_record i b hb1, Bool.false_eq_true, if_false]
    rw [ih hr]
    simp

theorem token_after_eq_iteration (x : List Char) : token_after_eq (str_iteration ++ x) = x :=
  token_after_eq_append ['i', 't', 'e', 'r', 'a', 't', 'i', 'o', 'n'] x (by decide)

theorem token_after_eq_theta (x : List Char) : token_after_eq (str_theta ++ x) = x :=
  token_after_eq_append ['t', 'h', 'e', 't', 'a'] x (by decide)

theorem token_after_eq_G (x : List Char) : token_after_eq (str_G ++ x) = x :=
  token_after_eq_append ['G'] x (by decide)

theorem token_after_eq_dt (x : List Char) : token_after_eq (str_dt ++ x) = x :=
  token_after_eq_append ['d', 't'] x (by decide)

theorem newline_not_mem_append (pre x : List Char) (hp : newline ∉ pre) (hx : newline ∉ x) :
    newline ∉ pre ++ x := by
  simp [hp, hx]

/-- The lines `restore_config` reads from the file `save_config` writes: the five header
lines, then what the body loop and the `End` line give. -/
theorem getlines_save_config (v : List Char) (cfg : Configuration Nat)
    (bodies : List (Particle Nat)) (iter : Int) (hv : newline ∉ v) :
    getlines (save_config v cfg bodies iter) =
      (str_Version ++ v) :: (str_iteration ++ showInt iter) :: (str_theta ++ encode cfg.theta) ::
        (str_G ++ encode cfg.G) :: (str_dt ++ encode cfg.dt) ::
          getlines (save_bodies 0 bodies ++ (str_End ++ [newline])) := by
  unfold save_config
  rw [getlines_append _ _ (newline_not_mem_append _ _ (by decide) hv),
    getlines_append _ _ (newline_not_mem_append _ _ (by decide) (newline_not_mem_showInt iter)),
    getlines_append _ _ (newline_not_mem_append _ _ (by decide) (newline_not_mem_encode _)),
    getlines_append _ _ (newline_not_mem_append _ _ (by decide) (newline_not_mem_encode _)),
    getlines_append _ _ (newline_not_mem_append _ _ (by decide) (newline_not_mem_encode _))]

theorem restore_save (v : List Char) (cfg cfg0 : Configuration Nat)
    (bodies : List (Particle Nat)) (iter iter0 : Int) (hv : newline ∉ v)
    (hlo : -(2 ^ 31) ≤ iter) (hhi : iter < 2 ^ 31)
    (htheta : cfg.theta < 2 ^ 64) (hG : cfg.G < 2 ^ 64) (hdt : cfg.dt < 2 ^ 64)
    (hb : ∀ b ∈ bodies, b.is64) :
    restore_config cfg0 (some (save_config v cfg bodies iter)) [] iter0 =
      (.returned true, ⟨.expect_eof, bodies, iter,
        { cfg0 with theta := cfg.theta, G := cfg.G, dt := cfg.dt }⟩) := by
  simp only [restore_config, getlines_save_config v cfg bodies iter hv, restore_loop,
    restore_line, token_after_eq_iteration, token_after_eq_theta, token_after_eq_G,
    token_after_eq_dt, atoi_showInt iter hlo hhi, decode_encode _ htheta, decode_encode _ hG,
    decode_encode _ hdt]
  rw [restore_loop_save_bodies bodies hb]
  have e : getlines (str_End ++ [newline]) = [str_End, []] := by decide
  rw [e]
  rfl

/-! ## The layout of the file `save_config` writes -/

theorem body_record_eq (i : Nat) (b : Particle Nat) :
    body_record i b = List.intercalate [','] (record_fields i b) := by
  simp [body_record, record_fields, List.intercalate, List.intersperse]

theorem save_bodies_eq (bodies : List (Particle Nat)) : ∀ i : Nat,
    save_bodies i bodies =
      unlines ((bodies.enumFrom i).map fun kb => List.intercalate [','] (record_fields kb.1 kb.2)) := by
  induction bodies with
  | nil => intro i; rfl
  | cons b r ih =>
    intro i
    simp only [save_bodies, List.enumFrom, List.map, unlines, List.flatten, body_record_eq]
    rw [ih (i + 1)]
    simp [unlines]

theorem save_config_eq (v : List Char) (cfg : Configuration Nat)
    (bodies : List (Particle Nat)) (iter : Int) :
    save_config v cfg bodies iter = unlines (checkpoint_lines v cfg bodies iter) := by
  simp only [save_config, checkpoint_lines, save_bodies_eq]
  simp [unlines]

theorem record_fields_spec (k : Nat) (b : Particle Nat) :
    ∀ f ∈ record_fields k b, ',' ∉ f ∧ newline ∉ f := by
  intro f hf
  simp only [record_fields, List.mem_cons, List.mem_singleton, List.not_mem_nil, or_false] at hf
  rcases hf with h | h | h | h | h | h | h | h <;> subst h <;>
    exact ⟨comma_not_mem_showNat _, newline_not_mem_showNat _⟩

theorem checkpoint_lines_length (v : List Char) (cfg : Configuration Nat)
    (bodies : List (Particle Nat)) (iter : Int) :
    (checkpoint_lines v cfg bodies iter).length = bodies.length + 6 := by
  simp [checkpoint_lines]

theorem checkpoint_lines_record (v : List Char) (cfg : Configuration Nat)
    (bodies : List (Particle Nat)) (iter : Int) (k : Nat) (b : Particle Nat)
    (hk : bodies[k]? = some b) :
    (checkpoint_lines v cfg bodies iter)[5 + k]? =
      some (List.intercalate [','] (record_fields k b)) := by
  have hlen : k < bodies.length := by
    rcases Nat.lt_or_ge k bodies.length with h | h
    · exact h
    · rw [List.getElem?_eq_none h] at hk
      cases hk
  simp only [checkpoint_lines, List.append_assoc]
  rw [List.getElem?_append_right (by simp)]
  simp only [List.length_cons, List.length_nil, Nat.zero_add, Nat.reduceAdd,
    Nat.add_sub_cancel_left]
  rw [List.getElem?_append_left (by simpa using hlen)]
  simp [List.getElem?_map, List.getElem?_enumFrom, hk]

theorem checkpoint_lines_no_newline (v : List Char) (cfg : Configuration Nat)
    (bodies : List (Particle Nat)) (iter : Int) (hv : newline ∉ v) :
    ∀ l ∈ checkpoint_lines v cfg bodies iter, newline ∉ l := by
  intro l hl
  simp only [checkpoint_lines, List.mem_append, List.mem_cons, List.mem_singleton,
    List.not_mem_nil, or_false, List.mem_map] at hl
  rcases hl with (hl | hl) | hl
  · rcases hl with h | h | h | h | h
    · subst h; exact newline_not_mem_append _ _ (by decide) hv
    · subst h; exact newline_not_mem_append _ _ (by decide) (newline_not_mem_showInt iter)
    · subst h; exact newline_not_mem_append _ _ (by decide) (newline_not_mem_encode _)
    · subst h; exact newline_not_mem_append _ _ (by decide) (newline_not_mem_encode _)
    · subst h; exact newline_not_mem_append _ _ (by decide) (newline_not_mem_encode _)
  · obtain ⟨kb, -, h⟩ := hl
    subst h
    rw [← body_record_eq]
    exact newline_not_mem_body_record _ _
  · subst hl; decide

/-! ## The loop of `restore_config` on arbitrary lines -/

theorem getlines_append_newline (t e : List Char) :
    getlines (t ++ newline :: e) = getlines t ++ getlines e := by
  induction t with
  | nil => simp [getlines]
  | cons c cs ih =>
    by_cases hc : c = newline
    · subst hc
      simp [getlines, ih]
    · rw [List.cons_append, getlines_cons_of_ne c _ hc, getlines_cons_of_ne c _ hc, ih]
      cases hg : getlines cs with
      | nil => exact absurd hg (getlines_ne_nil cs)
      | cons l ls => simp

theorem restore_line_ne_true (s : Loader) (line : List Char) :
    restore_line s line ≠ .error (.returned true) := by
  unfold restore_line
  intro h
  split at h
  · cases h
  · cases h
  · split at h <;> cases h
  · split at h <;> cases h
  · split at h <;> cases h
  · split at h
    · cases h
    · split at h <;> cases h
  · split at h <;> cases h

/-- After the `End` line a line that is not empty makes the loop return false. -/
theorem restore_loop_eof (m : List (List Char)) (s : Loader) (hs : s.state = .expect_eof)
    (hm : ∃ l ∈ m, l ≠ []) : restore_loop m s = (.returned false, s) := by
  induction m with
  | nil => obtain ⟨l, hl, -⟩ := hm; cases hl
  | cons a r ih =>
    obtain ⟨ps, st, it, cfg⟩ := s
    simp only at hs
    subst hs
    cases a with
    | nil =>
      have hr : ∃ l ∈ r, l ≠ [] := by
        obtain ⟨l, hl, hne⟩ := hm
        rcases List.mem_cons.1 hl with h | h
        · exact absurd h hne
        · exact ⟨l, h, hne⟩
      simp only [restore_loop, restore_line, List.length_nil, gt_iff_lt, lt_self_iff_false,
        if_false]
      exact ih hr
    | cons c cs => simp [restore_loop, restore_line]

/-- When the loop accepts the lines `l`, on `l ++ m` it reaches the same variables at the
end of `l` and goes on from there with `m`. -/
theorem restore_loop_append (l m : List (List Char)) : ∀ (s s1 : Loader),
    restore_loop l s = (.returned true, s1) →
      s1.state = .expect_eof ∧ restore_loop (l ++ m) s = restore_loop m s1 := by
  induction l with
  | nil =>
    intro s s1 h
    simp only [restore_loop, Prod.mk.injEq, Outcome.returned.injEq, decide_eq_true_eq] at h
    obtain ⟨h1, h2⟩ := h
    subst h2
    exact ⟨h1, rfl⟩
  | cons a r ih =>
    intro s s1 h
    simp only [restore_loop, List.cons_append] at h ⊢
    cases hl : restore_line s a with
    | ok s2 =>
      rw [hl] at h
      exact ih s2 s1 h
    | error o =>
      rw [hl] at h
      simp only [Prod.mk.injEq] at h
      rw [h.1] at hl
      exact absurd hl (restore_line_ne_true s a)

/-- After the `End` line the loop adds no particle. -/
theorem restore_loop_eof_particles (l : List (List Char)) : ∀ s : Loader,
    s.state = .expect_eof → (restore_loop l s).2.particles = s.particles := by
  induction l with
  | nil => intro s _; rfl
  | cons a r ih =>
    intro s hs
    obtain ⟨st, ps, it, cfg⟩ := s
    simp only at hs
    subst hs
    simp only [restore_loop, restore_line]
    split_ifs
    · rfl
    · exact ih _ rfl

/-- When the loop returns (no exception leaves it), the particles it leaves are those it
started with followed by one particle for each particle line still to come, in order:
the particle `extract_particle` makes from the line. -/
theorem restore_loop_returned (l : List (List Char)) : ∀ (s s1 : Loader) (b : Bool),
    s.state ≠ .expect_eof → restore_loop l s = (.returned b, s1) →
    ∃ added, s1.particles = s.particles ++ added ∧
      List.Forall₂ (fun line p => extract_particle line = .ok p)
        ((l.drop (header_left s.state)).takeWhile fun line => !starts_with_End line)
        added := by
  induction l with
  | nil =>
    intro s s1 b _ h
    simp only [restore_loop, Prod.mk.injEq] at h
    refine ⟨[], by rw [← h.2]; simp, by simp⟩
  | cons a r ih =>
    intro s s1 b hs h
    obtain ⟨st, ps, it, cfg⟩ := s
    cases st with
    | expect_version =>
      simp only [restore_loop, restore_line] at h
      exact ih _ s1 b (by simp) h
    | expect_iteration =>
      simp only [restore_loop, restore_line] at h
      exact ih _ s1 b (by simp) h
    | expect_theta =>
      simp only [restore_loop, restore_line] at h
      cases hd : decode (token_after_eq a) with
      | error e => rw [hd] at h; simp at h
      | ok v => rw [hd] at h; exact ih _ s1 b (by simp) h
    | expect_g =>
      simp only [restore_loop, restore_line] at h
      cases hd : decode (token_after_eq a) with
      | error e => rw [hd] at h; simp at h
      | ok v => rw [hd] at h; exact ih _ s1 b (by simp) h
    | expect_dt =>
      simp only [restore_loop, restore_line] at h
      cases hd : decode (token_after_eq a) with
      | error e => rw [hd] at h; simp at h
      | ok v => rw [hd] at h; exact ih _ s1 b (by simp) h
    | expect_body =>
      simp only [restore_loop, restore_line] at h
      by_cases he : starts_with_End a = true
      · rw [if_pos he] at h
        have hp := restore_loop_eof_particles r ⟨.expect_eof, ps, it, cfg⟩ rfl
        simp only at h
        rw [h] at hp
        refine ⟨[], by simpa using hp, ?_⟩
        simp [header_left, List.takeWhile, he]
      · rw [if_neg he] at h
        cases hx : extract_particle a with
        | error e => rw [hx] at h; simp at h
        | ok q =>
          rw [hx] at h
          obtain ⟨added, h1, h2⟩ := ih _ s1 b (by simp) h
          refine ⟨q :: added, by simpa using h1, ?_⟩
          simp only [header_left, List.drop_zero] at h2 ⊢
          simp only [Bool.not_eq_true] at he
          simp only [List.takeWhile, he, Bool.not_false]
          exact List.Forall₂.cons hx h2
    | expect_eof => exact absurd rfl hs

/-! ## Checkpointing: the properties -/

set_option maxRecDepth 20000

/-- C1: for every 64-bit pattern `x` (every binary64 value, whatever its class), `decode`
applied to `encode x` returns without an exception and gives back the pattern `x`. -/
theorem decode_encode_same_bits (x : Nat) (hx : x < 2 ^ 64) : decode (encode x) = .ok x :=
  decode_encode x hx

/-- C1 at a NaN with payload 1 (`0x7FF0000000000001`). -/
theorem decode_encode_same_bits_witness :
    decode (encode 9218868437227405313) = .ok 9218868437227405313 :=
  decode_encode_same_bits 9218868437227405313 (by decide)

/-- C2: checkpoint round trip.  For every list of bodies, every `int` iteration number and
all scalars `theta`, `G`, `dt` (64-bit patterns throughout), with a version constant that
holds no newline, `restore_config` started on an empty particle list with the text
`save_config` wrote returns true, and leaves `iter` equal to the saved iteration, `theta`,
`G`, `dt` equal to the saved patterns, and the saved bodies in the saved order. -/
theorem restore_config_save_config (v : List Char) (cfg cfg0 : Configuration Nat)
    (bodies : List (Particle Nat)) (iter iter0 : Int) (hv : newline ∉ v)
    (hlo : -(2 ^ 31) ≤ iter) (hhi : iter < 2 ^ 31)
    (htheta : cfg.theta < 2 ^ 64) (hG : cfg.G < 2 ^ 64) (hdt : cfg.dt < 2 ^ 64)
    (hb : ∀ b ∈ bodies, b.is64) :
    restore_config cfg0 (some (save_config v cfg bodies iter)) [] iter0 =
      (.returned true, ⟨.expect_eof, bodies, iter,
        { cfg0 with theta := cfg.theta, G := cfg.G, dt := cfg.dt }⟩) :=
  restore_save v cfg cfg0 bodies iter iter0 hv hlo hhi htheta hG hdt hb

/-- C2 at scenario 3 of the specification: one particle, `iter = 42`. -/
theorem restore_config_save_config_witness :
    restore_config ⟨0, 0, 0, 0, 0, 0, 0, 0, 0⟩
        (some (save_config sample_version sample_cfg [sample_particle] 42)) [] 0 =
      (.returned true, ⟨.expect_eof, [sample_particle], 42,
        ⟨sample_cfg.theta, sample_cfg.G, sample_cfg.dt, 0, 0, 0, 0, 0, 0⟩⟩) :=
  restore_config_save_config sample_version sample_cfg ⟨0, 0, 0, 0, 0, 0, 0, 0, 0⟩
    [sample_particle] 42 0 (by decide) (by decide) (by decide) (by decide) (by decide)
    (by decide) (by decide)

/-- C3: for `N` bodies and a version constant without a newline, `save_config` writes the
`N + 6` lines of `checkpoint_lines`, each ended by a newline and none holding one: the
`Version=`, `iteration=`, `theta=`, `G=`, `dt=` lines, `N` records, `End`.  Record `k`
(from 0) is the line `5 + k`; it is the eight fields `k, x, y, z, m, vx, vy, vz` of body
`k` joined by commas, no field holds a comma, and the first is the numeral of `k`. -/
theorem save_config_layout (v : List Char) (cfg : Configuration Nat)
    (bodies : List (Particle Nat)) (iter : Int) (hv : newline ∉ v) :
    save_config v cfg bodies iter = unlines (checkpoint_lines v cfg bodies iter) ∧
    (checkpoint_lines v cfg bodies iter).length = bodies.length + 6 ∧
    (∀ l ∈ checkpoint_lines v cfg bodies iter, newline ∉ l) ∧
    (∀ (k : Nat) (b : Particle Nat), bodies[k]? = some b →
      (checkpoint_lines v cfg bodies iter)[5 + k]? =
          some (List.intercalate [','] (record_fields k b)) ∧
        (record_fields k b).length = 8 ∧ (record_fields k b).head? = some (showNat k) ∧
        ∀ f ∈ record_fields k b, ',' ∉ f) := by
  refine ⟨save_config_eq v cfg bodies iter, checkpoint_lines_length v cfg bodies iter,
    checkpoint_lines_no_newline v cfg bodies iter hv, ?_⟩
  intro k b hk
  exact ⟨checkpoint_lines_record v cfg bodies iter k b hk, rfl, rfl,
    fun f hf => (record_fields_spec k b f hf).1⟩

/-- C3 at scenario 3 of the specification: one particle gives a file of exactly 7 lines. -/
theorem save_config_layout_witness :
    (checkpoint_lines sample_version sample_cfg [sample_particle] 42).length = 7 :=
  (save_config_layout sample_version sample_cfg [sample_particle] 42 (by decide)).2.1

/-- C4, as stated, fails: on a checkpoint with one particle line and text after `End`,
`restore_config` started on an empty list returns false and leaves the list holding the
particle it had read. -/
theorem restore_config_false_keeps_particles :
    (restore_config sample_cfg (some sample_trailing) [] 0).1 = .returned false ∧
    (restore_config sample_cfg (some sample_trailing) [] 0).2.particles =
      [⟨1, 2, 3, 5, 6, 7, 4⟩] := by
  decide

/-- C4, amended: whenever `restore_config` returns false, the particle list the caller
finds is the list it passed followed by exactly one particle for every particle line of
the file (the lines after the five header lines, up to the first that starts with `End`),
in the order of the lines: the particle `extract_particle` makes from that line.  The
particles read are all kept, none is discarded; the list is the caller's own when the
file cannot be opened, or has no particle line. -/
theorem restore_config_false_particles (cfg : Configuration Nat) (file : Option (List Char))
    (ps : List (Particle Nat)) (iter : Int)
    (h : (restore_config cfg file ps iter).1 = .returned false) :
    ∃ added, (restore_config cfg file ps iter).2.particles = ps ++ added ∧
      List.Forall₂ (fun line p => extract_particle line = .ok p)
        (particle_lines ((file.map getlines).getD [])) added := by
  cases file with
  | none => exact ⟨[], by simp [restore_config], by simp [particle_lines]⟩
  | some text =>
    have e : restore_loop (getlines text) ⟨.expect_version, ps, iter, cfg⟩ =
        (.returned false, (restore_config cfg (some text) ps iter).2) := by
      rw [← h]; rfl
    exact restore_loop_returned (getlines text) _ _ false (by simp) e

/-- C4 amended, at a checkpoint with one particle line and text after `End`, and a
caller's list of one particle: the call returns false and the list is the caller's
particle followed by the particle of the line. -/
theorem restore_config_false_particles_witness :
    (restore_config sample_cfg (some sample_trailing) [sample_particle] 0).1 =
      .returned false ∧
    (particle_lines (((some sample_trailing).map getlines).getD [])).length = 1 ∧
    ∃ added, (restore_config sample_cfg (some sample_trailing) [sample_particle] 0).2.particles =
        [sample_particle] ++ added ∧
      List.Forall₂ (fun line p => extract_particle line = .ok p)
        (particle_lines (((some sample_trailing).map getlines).getD [])) added :=
  ⟨by decide, by decide,
    restore_config_false_particles sample_cfg (some sample_trailing) [sample_particle] 0
      (by decide)⟩

/-- C5: when the lines of the file are the lines `l` of a checkpoint the loop accepts on
their own (up to and with the `End` line), followed by lines `m` of which one is not
empty, `restore_config` returns false. -/
theorem restore_config_trailing_text (cfg : Configuration Nat) (text : List Char)
    (l m : List (List Char)) (ps : List (Particle Nat)) (iter : Int)
    (hl : getlines text = l ++ m)
    (hacc : (restore_loop l ⟨.expect_version, ps, iter, cfg⟩).1 = .returned true)
    (hm : ∃ line ∈ m, line ≠ []) :
    (restore_config cfg (some text) ps iter).1 = .returned false := by
  have e : restore_loop l ⟨.expect_version, ps, iter, cfg⟩ =
      (.returned true, (restore_loop l ⟨.expect_version, ps, iter, cfg⟩).2) := by
    rw [← hacc]
  obtain ⟨hs, happ⟩ := restore_loop_append l m _ _ e
  simp only [restore_config, hl]
  rw [happ, restore_loop_eof m _ hs hm]

/-- C5 at the checkpoint of scenario 3 followed by one line of text. -/
theorem restore_config_trailing_text_witness :
    (restore_config sample_cfg
      (some (save_config sample_version sample_cfg [sample_particle] 42 ++
        ['j', 'u', 'n', 'k', newline])) [] 0).1 = .returned false :=
  restore_config_trailing_text sample_cfg _
    (checkpoint_lines sample_version sample_cfg [sample_particle] 42) [['j', 'u', 'n', 'k'], []]
    [] 0 (by decide) (by decide) ⟨['j', 'u', 'n', 'k'], by decide, by decide⟩

/-! ## Fields `std::stoull` rejects -/

theorem decode_of_rejects (t : List Char) (h : stoull_rejects t) : ∃ e, decode t = .error e := by
  unfold decode stoull
  unfold stoull_rejects digit_run at h
  rcases h with h | h
  · exact ⟨.invalid_argument, by simp [h]⟩
  · by_cases h0 : (takeSign (t.dropWhile isspace)).2.takeWhile isdigit = []
    · exact ⟨.invalid_argument, by simp [h0]⟩
    · exact ⟨.out_of_range, by rw [if_neg h0, if_pos h]⟩

theorem bind_error {α β : Type} (x : Except Exn α) (f : α → Except Exn β)
    (h : ∀ v, ∃ e, f v = .error e) : ∃ e, x.bind f = .error e := by
  cases x with
  | error e => exact ⟨e, rfl⟩
  | ok v => exact h v

theorem bind_error_left {α β : Type} (x : Except Exn α) (f : α → Except Exn β)
    (h : ∃ e, x = .error e) : ∃ e, x.bind f = .error e := by
  obtain ⟨e, rfl⟩ := h
  exact ⟨e, rfl⟩

/-- A particle line one of whose seven decoded fields `std::stoull` rejects makes
`extract_particle` throw. -/
theorem extract_particle_of_rejects (line : List Char) (i : Nat) (h1 : 1 ≤ i) (h7 : i ≤ 7)
    (h : stoull_rejects (field_token i line)) : ∃ e, extract_particle line = .error e := by
  rw [extract_particle_eq]
  have hd := decode_of_rejects _ h
  interval_cases i
  · exact bind_error_left _ _ hd
  · exact bind_error _ _ fun _ => bind_error_left _ _ hd
  · exact bind_error _ _ fun _ => bind_error _ _ fun _ => bind_error_left _ _ hd
  · exact bind_error _ _ fun _ => bind_error _ _ fun _ => bind_error _ _ fun _ =>
      bind_error_left _ _ hd
  · exact bind_error _ _ fun _ => bind_error _ _ fun _ => bind_error _ _ fun _ =>
      bind_error _ _ fun _ => bind_error_left _ _ hd
  · exact bind_error _ _ fun _ => bind_error _ _ fun _ => bind_error _ _ fun _ =>
      bind_error _ _ fun _ => bind_error _ _ fun _ => bind_error_left _ _ hd
  · exact bind_error _ _ fun _ => bind_error _ _ fun _ => bind_error _ _ fun _ =>
      bind_error _ _ fun _ => bind_error _ _ fun _ => bind_error _ _ fun _ =>
      bind_error_left _ _ hd

/-- In the state `expect_body`, a particle line with a rejected field that comes before
any `End` line makes the loop end with an exception. -/
theorem restore_loop_body_throws (k : Nat) : ∀ (body : List (List Char)) (l : List Char)
    (ps : List (Particle Nat)) (iter : Int) (cfg : Configuration Nat),
    body[k]? = some l →
    (∀ j l1, j ≤ k → body[j]? = some l1 → starts_with_End l1 = false) →
    (∃ e, extract_particle l = .error e) →
    ∃ e, (restore_loop body ⟨.expect_body, ps, iter, cfg⟩).1 = .threw e := by
  induction k with
  | zero =>
    intro body l ps iter cfg hk hend hbad
    cases body with
    | nil => cases hk
    | cons a r =>
      simp only [List.getElem?_cons_zero, Option.some.injEq] at hk
      subst hk
      obtain ⟨e, he⟩ := hbad
      have h0 := hend 0 a (Nat.le_refl 0) (by simp)
      exact ⟨e, by simp [restore_loop, restore_line, h0, he]⟩
  | succ n ih =>
    intro body l ps iter cfg hk hend hbad
    cases body with
    | nil => cases hk
    | cons a r =>
      have h0 := hend 0 a (Nat.zero_le _) (by simp)
      have hk1 : r[n]? = some l := by simpa using hk
      have hend1 : ∀ j l1, j ≤ n → r[j]? = some l1 → starts_with_End l1 = false := by
        intro j l1 hj hl
        exact hend (j + 1) l1 (Nat.succ_le_succ hj) (by simpa using hl)
      cases hp : extract_particle a with
      | error e => exact ⟨e, by simp [restore_loop, restore_line, h0, hp]⟩
      | ok p =>
        obtain ⟨e, he⟩ := ih r l (ps ++ [p]) iter cfg hk1 hend1 hbad
        exact ⟨e, by simpa [restore_loop, restore_line, h0, hp] using he⟩

/-- A checkpoint with a numeric field `std::stoull` rejects makes the loop of
`restore_config` end with an exception. -/
theorem restore_loop_throws (lines : List (List Char)) (h : has_field stoull_rejects lines)
    (ps : List (Particle Nat)) (iter : Int) (cfg : Configuration Nat) :
    ∃ e, (restore_loop lines ⟨.expect_version, ps, iter, cfg⟩).1 = .threw e := by
  rcases h with ⟨l, hl, hb⟩ | ⟨l, hl, hb⟩ | ⟨l, hl, hb⟩ | ⟨k, l, hl, hend, i, h1, h7, hb⟩
  · rcases lines with _ | ⟨l0, _ | ⟨l1, _ | ⟨l2, rest⟩⟩⟩
    · simp at hl
    · simp at hl
    · simp at hl
    · simp only [List.getElem?_cons_succ, List.getElem?_cons_zero, Option.some.injEq] at hl
      subst hl
      obtain ⟨e, he⟩ := decode_of_rejects _ hb
      exact ⟨e, by simp [restore_loop, restore_line, he]⟩
  · rcases lines with _ | ⟨l0, _ | ⟨l1, _ | ⟨l2, _ | ⟨l3, rest⟩⟩⟩⟩
    · simp at hl
    · simp at hl
    · simp at hl
    · simp at hl
    · simp only [List.getElem?_cons_succ, List.getElem?_cons_zero, Option.some.injEq] at hl
      subst hl
      obtain ⟨e, he⟩ := decode_of_rejects _ hb
      cases h2 : decode (token_after_eq l2) with
      | error e2 => exact ⟨e2, by simp [restore_loop, restore_line, h2]⟩
      | ok v2 => exact ⟨e, by simp [restore_loop, restore_line, h2, he]⟩
  · rcases lines with _ | ⟨l0, _ | ⟨l1, _ | ⟨l2, _ | ⟨l3, _ | ⟨l4, rest⟩⟩⟩⟩⟩
    · simp at hl
    · simp at hl
    · simp at hl
    · simp at hl
    · simp at hl
    · simp only [List.getElem?_cons_succ, List.getElem?_cons_zero, Option.some.injEq] at hl
      subst hl
      obtain ⟨e, he⟩ := decode_of_rejects _ hb
      cases h2 : decode (token_after_eq l2) with
      | error e2 => exact ⟨e2, by simp [restore_loop, restore_line, h2]⟩
      | ok v2 =>
        cases h3 : decode (token_after_eq l3) with
        | error e3 => exact ⟨e3, by simp [restore_loop, restore_line, h2, h3]⟩
        | ok v3 => exact ⟨e, by simp [restore_loop, restore_line, h2, h3, he]⟩
  · rw [Nat.add_comm] at hl
    rcases lines with _ | ⟨l0, _ | ⟨l1, _ | ⟨l2, _ | ⟨l3, _ | ⟨l4, body⟩⟩⟩⟩⟩
    · simp at hl
    · simp at hl
    · simp at hl
    · simp at hl
    · simp at hl
    · have hk : body[k]? = some l := by simpa using hl
      have hend1 : ∀ j l1, j ≤ k → body[j]? = some l1 → starts_with_End l1 = false := by
        intro j l1 hj hj1
        refine hend j l1 hj ?_
        rw [Nat.add_comm]
        simpa using hj1
      have hx := extract_particle_of_rejects l i h1 h7 hb
      cases h2 : decode (token_after_eq l2) with
      | error e2 => exact ⟨e2, by simp [restore_loop, restore_line, h2]⟩
      | ok v2 =>
        cases h3 : decode (token_after_eq l3) with
        | error e3 => exact ⟨e3, by simp [restore_loop, restore_line, h2, h3]⟩
        | ok v3 =>
          cases h4 : decode (token_after_eq l4) with
          | error e4 => exact ⟨e4, by simp [restore_loop, restore_line, h2, h3, h4]⟩
          | ok v4 =>
            obtain ⟨e, he⟩ := restore_loop_body_throws k body l ps (atoi (token_after_eq l1))
              { cfg with theta := v2, G := v3, dt := v4 } hk hend1 hx
            exact ⟨e, by simpa [restore_loop, restore_line, h2, h3, h4] using he⟩

theorem getlines_unlines (ls : List (List Char)) (h : ∀ l ∈ ls, newline ∉ l) :
    getlines (unlines ls) = ls ++ [[]] := by
  induction ls with
  | nil => rfl
  | cons a r ih =>
    have e : unlines (a :: r) = a ++ newline :: unlines r := by simp [unlines]
    rw [e, getlines_append a _ (h a (List.mem_cons_self a r)),
      ih fun l hl => h l (List.mem_cons_of_mem a hl)]
    rfl

theorem unlines_take_drop (ls : List (List Char)) (k : Nat) :
    unlines (ls.take k) ++ unlines (ls.drop k) = unlines ls := by
  have e : ∀ a b : List (List Char), unlines (a ++ b) = unlines a ++ unlines b := by
    intro a b
    simp [unlines]
  rw [← e, List.take_append_drop]

/-- The lines read from a checkpoint cut after `k` of its lines, `2 ≤ k ≤ N + 5`: the empty
line that `getline` delivers at the end of the file stands where a number is expected. -/
theorem truncated_has_field (v : List Char) (cfg : Configuration Nat)
    (bodies : List (Particle Nat)) (iter : Int) (k : Nat) (h2 : 2 ≤ k)
    (hk : k ≤ bodies.length + 5) :
    has_field stoull_rejects ((checkpoint_lines v cfg bodies iter).take k ++ [[]]) := by
  have hlen : ((checkpoint_lines v cfg bodies iter).take k).length = k := by
    rw [List.length_take, checkpoint_lines_length]
    omega
  have hlast : ((checkpoint_lines v cfg bodies iter).take k ++ [[]])[k]? = some [] := by
    rw [List.getElem?_append_right (by omega)]
    simp [hlen]
  have hrej : stoull_rejects (token_after_eq []) := by decide
  rcases Nat.lt_or_ge k 5 with h5 | h5
  · have hcases : k = 2 ∨ k = 3 ∨ k = 4 := by omega
    rcases hcases with rfl | rfl | rfl
    · exact Or.inl ⟨[], hlast, hrej⟩
    · exact Or.inr (Or.inl ⟨[], hlast, hrej⟩)
    · exact Or.inr (Or.inr (Or.inl ⟨[], hlast, hrej⟩))
  · refine Or.inr (Or.inr (Or.inr ⟨k - 5, [], ?_, ?_, 1, Nat.le_refl 1, by decide, by decide⟩))
    · rw [show 5 + (k - 5) = k by omega]
      exact hlast
    · intro j l1 hj hl1
      rcases Nat.lt_or_ge (5 + j) k with hlt | hge
      · rw [List.getElem?_append_left (by omega), List.getElem?_take_of_lt hlt] at hl1
        have hjb : j < bodies.length := by omega
        have hb : bodies[j]? = some bodies[j] := List.getElem?_eq_getElem hjb
        rw [checkpoint_lines_record v cfg bodies iter j _ hb] at hl1
        cases hl1
        rw [← body_record_eq]
        exact starts_with_End_body_record j _
      · have e : 5 + j = k := by omega
        rw [e, hlast] at hl1
        cases hl1
        decide

/-- C7 fails on the code.  For every checkpoint `save_config` writes and every cut of it
after `k` whole lines with `2 ≤ k ≤ N + 5` (so before the `End` line), `restore_config`
does not return false: the empty line delivered at the end of the file is handed to
`decode`, and the exception of `std::stoull` leaves `restore_config`. -/
theorem restore_config_truncated_throws (v : List Char) (cfg cfg0 : Configuration Nat)
    (bodies ps : List (Particle Nat)) (iter iter0 : Int) (k : Nat) (hv : newline ∉ v)
    (h2 : 2 ≤ k) (hk : k ≤ bodies.length + 5) :
    unlines ((checkpoint_lines v cfg bodies iter).take k) ++
        unlines ((checkpoint_lines v cfg bodies iter).drop k) = save_config v cfg bodies iter ∧
    ∃ e, (restore_config cfg0 (some (unlines ((checkpoint_lines v cfg bodies iter).take k)))
      ps iter0).1 = .threw e := by
  refine ⟨by rw [unlines_take_drop, save_config_eq], ?_⟩
  have hnl : ∀ l ∈ (checkpoint_lines v cfg bodies iter).take k, newline ∉ l := fun l hl =>
    checkpoint_lines_no_newline v cfg bodies iter hv l (List.mem_of_mem_take hl)
  simp only [restore_config, getlines_unlines _ hnl]
  exact restore_loop_throws _ (truncated_has_field v cfg bodies iter k h2 hk) ps iter0 cfg0

/-- C7 at the first two lines of the checkpoint of scenario 3: the file
`Version=1.0`, `iteration=42` makes `restore_config` throw, and what it throws is
`std::invalid_argument`. -/
theorem restore_config_truncated_throws_witness :
    (∃ e, (restore_config sample_cfg
      (some (unlines ((checkpoint_lines sample_version sample_cfg [sample_particle] 42).take 2)))
      [] 0).1 = .threw e) ∧
    (restore_config sample_cfg
      (some ("Version=1.0\niteration=42\n".toList)) [] 0).1 = .threw .invalid_argument :=
  ⟨(restore_config_truncated_throws sample_version sample_cfg sample_cfg
    [sample_particle] [] 42 0 2 (by decide) (by decide) (by decide)).2, by decide⟩

/-! ## Centering -/

section CenteringLemmas

variable {α : Type} [Field α]

theorem foldl_mass (particles : List (Particle α)) (a : α) :
    particles.foldl (fun acc p => acc + p.m) a = a + total_mass particles := by
  induction particles generalizing a with
  | nil => simp [total_mass]
  | cons p r ih =>
    simp only [List.foldl_cons, ih, total_mass, List.map_cons, List.sum_cons]
    ring

theorem sum_mul_sub (particles : List (Particle α)) (f : Particle α → α) (c : α) :
    (particles.map fun p => p.m * (f p - c)).sum =
      (particles.map fun p => p.m * f p).sum - c * total_mass particles := by
  induction particles with
  | nil => simp [total_mass]
  | cons p r ih =>
    simp only [List.map_cons, List.sum_cons, ih, total_mass]
    ring

/-- Past its two guards, `zero_centre_mass_and_linear_momentum` is the centering procedure
of the specification. -/
theorem zero_centre_eq_centred (cfg : Configuration α) (particles : List (Particle α))
    (iter : Int) (h0 : cfg.needToZero ≠ 0) (h1 : ¬ (cfg.needToZero = 1 ∧ iter > 0)) :
    zero_centre_mass_and_linear_momentum cfg particles iter = centred particles := by
  have hm : get_momentum (particles.map fun p =>
      ({ p with x := p.x - (get_centre_of_mass particles).1,
                y := p.y - (get_centre_of_mass particles).2.1,
                z := p.z - (get_centre_of_mass particles).2.2 } : Particle α)) =
      get_momentum particles := by
    simp [get_momentum, List.map_map, Function.comp_def]
  simp only [zero_centre_mass_and_linear_momentum, if_neg h0, if_neg h1, hm, foldl_mass,
    zero_add, List.map_map, centred]
  rfl

theorem centred_mass (particles : List (Particle α)) :
    (centred particles).map (fun p => p.m) = particles.map fun p => p.m := by
  simp [centred, List.map_map, Function.comp_def]

theorem centred_total_mass (particles : List (Particle α)) :
    total_mass (centred particles) = total_mass particles := by
  simp [total_mass, centred_mass]

/-- After the centering procedure the sums `Σ mᵢ·rᵢ` and `Σ mᵢ·vᵢ` are zero. -/
theorem centred_sums (particles : List (Particle α)) (hM : total_mass particles ≠ 0) :
    ((centred particles).map fun p => p.m * p.x).sum = 0 ∧
    ((centred particles).map fun p => p.m * p.y).sum = 0 ∧
    ((centred particles).map fun p => p.m * p.z).sum = 0 ∧
    ((centred particles).map fun p => p.m * p.vx).sum = 0 ∧
    ((centred particles).map fun p => p.m * p.vy).sum = 0 ∧
    ((centred particles).map fun p => p.m * p.vz).sum = 0 := by
  simp only [centred, List.map_map, Function.comp_def]
  refine ⟨?_, ?_, ?_, ?_, ?_, ?_⟩
  · rw [sum_mul_sub particles (fun p => p.x)]
    simp only [get_centre_of_mass]
    rw [← total_mass, div_mul_cancel₀ _ hM, sub_self]
  · rw [sum_mul_sub particles (fun p => p.y)]
    simp only [get_centre_of_mass]
    rw [← total_mass, div_mul_cancel₀ _ hM, sub_self]
  · rw [sum_mul_sub particles (fun p => p.z)]
    simp only [get_centre_of_mass]
    rw [← total_mass, div_mul_cancel₀ _ hM, sub_self]
  · rw [sum_mul_sub particles (fun p => p.vx)]
    simp only [get_momentum]
    rw [div_mul_cancel₀ _ hM, sub_self]
  · rw [sum_mul_sub particles (fun p => p.vy)]
    simp only [get_momentum]
    rw [div_mul_cancel₀ _ hM, sub_self]
  · rw [sum_mul_sub particles (fun p => p.vz)]
    simp only [get_momentum]
    rw [div_mul_cancel₀ _ hM, sub_self]

end CenteringLemmas

theorem zero_centre_mass {α : Type} [Field α] (cfg : Configuration α)
    (particles : List (Particle α)) (iter : Int) :
    (zero_centre_mass_and_linear_momentum cfg particles iter).map (fun p => p.m) =
      particles.map fun p => p.m := by
  by_cases h0 : cfg.needToZero = 0
  · simp [zero_centre_mass_and_linear_momentum, h0]
  · by_cases h1 : cfg.needToZero = 1 ∧ iter > 0
    · simp only [zero_centre_mass_and_linear_momentum, if_neg h0, if_pos h1]
    · rw [zero_centre_eq_centred cfg particles iter h0 h1, centred_mass]

/-! ## The Plummer sampler -/

section SamplerLemmas

variable {α : Type} [LinearOrderedField α]

/-- More fuel does not change what an ended rejection loop returns. -/
theorem rejection_loop_mono (L : Libm α) (rng : Nat → α) (f : Nat) :
    ∀ (x y : α) (g : Nat) (r : α × Nat), rejection_loop L rng f x y g = some r →
      ∀ f1, f ≤ f1 → rejection_loop L rng f1 x y g = some r := by
  induction f with
  | zero =>
    intro x y g r h f1 _
    simp only [rejection_loop] at h
    split at h
    · cases h
    · cases f1 with
      | zero => simp only [rejection_loop]; rw [if_neg (by assumption)]; exact h
      | succ k => simp only [rejection_loop]; rw [if_neg (by assumption)]; exact h
  | succ k ih =>
    intro x y g r h f1 hf
    obtain ⟨j, rfl⟩ : ∃ j, f1 = j + 1 := ⟨f1 - 1, by omega⟩
    simp only [rejection_loop] at h ⊢
    split at h
    · rw [if_pos (by assumption)]
      exact ih _ _ _ r h j (by omega)
    · rw [if_neg (by assumption)]
      exact h

/-- On a stream whose rejection loop ends wherever it starts, the body loop of
`createPlummerDistribution` returns, for all fuel from some bound on, as many bodies as it
has iterations, each of mass `mass / numbodies`. -/
theorem plummer_loop_returns (L : Libm α) (rng : Nat → α) (cfg : Configuration α)
    (hrej : ∀ g, ∃ fuel, (rejection_loop L rng fuel 0 (1 / 10) g).isSome = true) (n : Nat) :
    ∀ g, ∃ F, ∀ fuel, F ≤ fuel → ∃ ps, plummer_loop L rng fuel cfg n g = some ps ∧
      ps.length = n ∧ ∀ p ∈ ps, p.m = cfg.mass / (cfg.numbodies : α) := by
  induction n with
  | zero => intro g; exact ⟨0, fun fuel _ => ⟨[], rfl, rfl, by simp⟩⟩
  | succ n ih =>
    intro g
    obtain ⟨f1, hf1⟩ := hrej (g + 1 + 2)
    obtain ⟨r, hr⟩ := Option.isSome_iff_exists.1 hf1
    obtain ⟨F2, hF2⟩ := ih (r.2 + 2)
    refine ⟨max f1 F2, fun fuel hfuel => ?_⟩
    have h1 : rejection_loop L rng fuel 0 (1 / 10) (g + 1 + 2) = some r :=
      rejection_loop_mono L rng f1 _ _ _ r hr fuel (le_trans (le_max_left _ _) hfuel)
    obtain ⟨rest, hrest, hlen, hmass⟩ := hF2 fuel (le_trans (le_max_right _ _) hfuel)
    simp only [plummer_loop, sample_velocity, randomize_theta_phi, h1, Option.map_some', hrest]
    refine ⟨_, rfl, by simp [hlen], ?_⟩
    intro p hp
    rcases List.mem_cons.1 hp with h | h
    · rw [h]
    · exact hmass p h

/-- Whenever the body loop of `createPlummerDistribution` returns, it returns as many
bodies as it has iterations, each of mass `mass / numbodies`. -/
theorem plummer_loop_sound (L : Libm α) (rng : Nat → α) (fuel : Nat) (cfg : Configuration α)
    (n : Nat) : ∀ (g : Nat) (ps : List (Particle α)), plummer_loop L rng fuel cfg n g = some ps →
      ps.length = n ∧ ∀ p ∈ ps, p.m = cfg.mass / (cfg.numbodies : α) := by
  induction n with
  | zero =>
    intro g ps h
    simp only [plummer_loop, Option.some.injEq] at h
    subst h
    exact ⟨rfl, by simp⟩
  | succ n ih =>
    intro g ps h
    simp only [plummer_loop] at h
    split at h
    · cases h
    · split at h
      · cases h
      · rename_i rest hrest
        simp only [Option.some.injEq] at h
        subst h
        obtain ⟨hlen, hmass⟩ := ih _ rest hrest
        refine ⟨by simp [hlen], ?_⟩
        intro p hp
        rcases List.mem_cons.1 hp with h | h
        · rw [h]
        · exact hmass p h

/-- From an odd position of `stuck_stream` the rejection loop never ends, whatever the
power function. -/
theorem rejection_loop_stuck (L : Libm ℚ) (fuel : Nat) :
    ∀ (y : ℚ) (g : Nat), 0 < y → g % 2 = 1 → rejection_loop L stuck_stream fuel 0 y g = none := by
  induction fuel with
  | zero =>
    intro y g hy _
    simp only [rejection_loop, sqr, zero_mul]
    rw [if_pos hy]
  | succ k ih =>
    intro y g hy hg
    simp only [rejection_loop, sqr, zero_mul]
    rw [if_pos hy]
    have hx : (uniform (0 : ℚ) 1 stuck_stream g).1 = 0 := by
      simp [uniform, stuck_stream, hg]
    have hg1 : (g + 1) % 2 ≠ 1 := by omega
    have hy1 : (uniform (0 : ℚ) (1 / 10) stuck_stream (g + 1)).1 = 1 / 20 := by
      simp only [uniform, stuck_stream, if_neg hg1]
      norm_num
    rw [hx, hy1]
    exact ih (1 / 20) (g + 2) (by norm_num) (by omega)

end SamplerLemmas

/-! ## Centering and sampling: the properties -/

/-- C8: in exact arithmetic, for every particle list of non-zero total mass (such a list
is not empty), when the policy triggers (`needToZero ≥ 2`, or `needToZero = 1` with
`iter = 0`), after `zero_centre_mass_and_linear_momentum` the centre of mass
`Σ mᵢ·rᵢ / Σ mᵢ` is `(0,0,0)` and the total linear momentum `Σ mᵢ·vᵢ` is `(0,0,0)`. -/
theorem zero_centre_result {α : Type} [Field α] (cfg : Configuration α)
    (particles : List (Particle α)) (iter : Int) (hM : total_mass particles ≠ 0)
    (hpol : 2 ≤ cfg.needToZero ∨ (cfg.needToZero = 1 ∧ iter = 0)) :
    get_centre_of_mass (zero_centre_mass_and_linear_momentum cfg particles iter) = (0, 0, 0) ∧
    get_momentum (zero_centre_mass_and_linear_momentum cfg particles iter) = (0, 0, 0) := by
  have h0 : cfg.needToZero ≠ 0 := by omega
  have h1 : ¬ (cfg.needToZero = 1 ∧ iter > 0) := by omega
  obtain ⟨hx, hy, hz, hvx, hvy, hvz⟩ := centred_sums particles hM
  rw [zero_centre_eq_centred cfg particles iter h0 h1]
  simp only [get_centre_of_mass, get_momentum, hx, hy, hz, hvx, hvy, hvz, zero_div, and_self]

/-- C8 at three bodies of masses 1, 2, 3 with the policy `needToZero = 2`. -/
theorem zero_centre_result_witness :
    get_centre_of_mass
        (zero_centre_mass_and_linear_momentum (sample_policy 2) sample_bodies 7) = (0, 0, 0) ∧
    get_momentum
        (zero_centre_mass_and_linear_momentum (sample_policy 2) sample_bodies 7) = (0, 0, 0) :=
  zero_centre_result (sample_policy 2) sample_bodies 7
    (by norm_num [total_mass, sample_bodies]) (Or.inl (by decide))

/-- C9: for `needToZero ≥ 0` and `iter ≥ 0`, `zero_centre_mass_and_linear_momentum` applies
the shift of the centering procedure when `needToZero ≥ 2`, or `needToZero = 1` and
`iter = 0`, and only then: in every other case (`needToZero = 0`, or `needToZero = 1` with
`iter > 0`) it returns the particles as they are, positions, velocities and masses,
whatever the particles.  The shift is stated where it is defined in exact arithmetic, for
particles whose masses do not sum to zero. -/
theorem zero_centre_policy {α : Type} [Field α] (cfg : Configuration α)
    (particles : List (Particle α)) (iter : Int) (hn : 0 ≤ cfg.needToZero) (hi : 0 ≤ iter) :
    ((2 ≤ cfg.needToZero ∨ (cfg.needToZero = 1 ∧ iter = 0)) → total_mass particles ≠ 0 →
      zero_centre_mass_and_linear_momentum cfg particles iter = centred particles) ∧
    (¬ (2 ≤ cfg.needToZero ∨ (cfg.needToZero = 1 ∧ iter = 0)) →
      zero_centre_mass_and_linear_momentum cfg particles iter = particles) := by
  refine ⟨fun hpol _ => ?_, fun hpol => ?_⟩
  · exact zero_centre_eq_centred cfg particles iter (by omega) (by omega)
  · by_cases h0 : cfg.needToZero = 0
    · simp only [zero_centre_mass_and_linear_momentum, if_pos h0]
    · have h1 : cfg.needToZero = 1 ∧ iter > 0 := by omega
      simp only [zero_centre_mass_and_linear_momentum, if_neg h0, if_pos h1]

/-- C9 at three bodies of total mass 6: with `needToZero = 1` the particles are left as
they are at iteration 3 and shifted at iteration 0. -/
theorem zero_centre_policy_witness :
    zero_centre_mass_and_linear_momentum (sample_policy 1) sample_bodies 3 = sample_bodies ∧
    zero_centre_mass_and_linear_momentum (sample_policy 1) sample_bodies 0 =
      centred sample_bodies :=
  ⟨(zero_centre_policy (sample_policy 1) sample_bodies 3 (by decide) (by decide)).2
      (by decide),
    (zero_centre_policy (sample_policy 1) sample_bodies 0 (by decide) (by decide)).1
      (Or.inr (by decide)) (by norm_num [total_mass, sample_bodies])⟩

/-- C10, as stated, fails: on `stuck_stream` no rejection test passes, so for no amount of
fuel, and whatever the functions of `<cmath>`, does `createPlummerDistribution` return a
particle list. -/
theorem createPlummerDistribution_stuck :
    ¬ ∃ (L : Libm ℚ) (fuel : Nat),
      (createPlummerDistribution L stuck_stream fuel (sample_policy 2) 0).isSome = true := by
  rintro ⟨L, fuel, h⟩
  have e : (sample_policy 2).numbodies.toNat = 2 + 1 := by decide
  simp only [createPlummerDistribution, e, plummer_loop, sample_velocity, randomize_theta_phi,
    rejection_loop_stuck L fuel (1 / 10) (0 + 1 + 2) (by norm_num) (by decide)] at h
  simp at h

/-- C10, amended: in exact arithmetic, for every `numbodies = N > 0`, total mass, centering
policy and random stream, whenever `createPlummerDistribution` returns it returns exactly
`N` particles, each of mass `mass / N`, so that the masses sum to `mass`; and it does
return (for all fuel from some bound on) on every random stream on which the rejection
loop of `sample_velocity` ends wherever in the stream it starts. -/
theorem createPlummerDistribution_masses {α : Type} [LinearOrderedField α] (L : Libm α)
    (rng : Nat → α) (cfg : Configuration α) (g : Nat) (hN : 0 < cfg.numbodies) :
    (∀ fuel ps, createPlummerDistribution L rng fuel cfg g = some ps →
      (ps.length : Int) = cfg.numbodies ∧ (∀ p ∈ ps, p.m = cfg.mass / (cfg.numbodies : α)) ∧
      total_mass ps = cfg.mass) ∧
    ((∀ g, ∃ fuel, (rejection_loop L rng fuel 0 (1 / 10) g).isSome = true) →
      ∃ F, ∀ fuel, F ≤ fuel → (createPlummerDistribution L rng fuel cfg g).isSome = true) := by
  have hcast : ((cfg.numbodies.toNat : Int)) = cfg.numbodies := Int.toNat_of_nonneg (le_of_lt hN)
  constructor
  · intro fuel ps hps
    simp only [createPlummerDistribution, Option.map_eq_some'] at hps
    obtain ⟨product, hp, rfl⟩ := hps
    obtain ⟨hlen, hmass⟩ := plummer_loop_sound L rng fuel cfg _ g product hp
    have hmap := zero_centre_mass cfg product 0
    have hlen2 : (zero_centre_mass_and_linear_momentum cfg product 0).length = product.length := by
      have := congrArg List.length hmap
      simpa using this
    have hmass2 : ∀ p ∈ zero_centre_mass_and_linear_momentum cfg product 0,
        p.m = cfg.mass / (cfg.numbodies : α) := by
      intro p hp2
      have hin : p.m ∈ (zero_centre_mass_and_linear_momentum cfg product 0).map fun p => p.m :=
        List.mem_map_of_mem _ hp2
      rw [hmap] at hin
      obtain ⟨q, hq, hqm⟩ := List.mem_map.1 hin
      rw [← hqm]
      exact hmass q hq
    refine ⟨by rw [hlen2, hlen, hcast], hmass2, ?_⟩
    have hsum : total_mass (zero_centre_mass_and_linear_momentum cfg product 0) =
        (zero_centre_mass_and_linear_momentum cfg product 0).length •
          (cfg.mass / (cfg.numbodies : α)) := by
      have hs := List.sum_eq_card_nsmul
        ((zero_centre_mass_and_linear_momentum cfg product 0).map fun p => p.m)
        (cfg.mass / (cfg.numbodies : α)) (by
          intro x hx
          obtain ⟨q, hq, hqm⟩ := List.mem_map.1 hx
          rw [← hqm]
          exact hmass2 q hq)
      rw [List.length_map] at hs
      exact hs
    have hne : (cfg.numbodies : α) ≠ 0 := by
      have : (0 : α) < (cfg.numbodies : α) := by exact_mod_cast hN
      exact ne_of_gt this
    have hc : ((cfg.numbodies.toNat : ℕ) : α) = (cfg.numbodies : α) := by
      rw [← Int.cast_natCast, hcast]
    rw [hsum, hlen2, hlen, nsmul_eq_mul, hc, mul_div_cancel₀ _ hne]
  · intro hrej
    obtain ⟨F, hF⟩ := plummer_loop_returns L rng cfg hrej cfg.numbodies.toNat g
    refine ⟨F, fun fuel hfuel => ?_⟩
    obtain ⟨product, hp, -, -⟩ := hF fuel hfuel
    simp only [createPlummerDistribution, hp, Option.map_some', Option.isSome_some]

/-- C10 amended, at three bodies on the all-zero stream, where the first pair drawn is
accepted: the sampler returns from fuel 1 on, and what it returns with fuel 1 is three
bodies of mass 1/3. -/
theorem createPlummerDistribution_masses_witness :
    (∃ F, ∀ fuel, F ≤ fuel →
      (createPlummerDistribution sample_libm zero_stream fuel (sample_policy 2) 0).isSome = true) ∧
    (createPlummerDistribution sample_libm zero_stream 1 (sample_policy 2) 0).isSome = true ∧
    ∀ ps, createPlummerDistribution sample_libm zero_stream 1 (sample_policy 2) 0 = some ps →
      (ps.length : Int) = 3 ∧ (∀ p ∈ ps, p.m = 1 / 3) ∧ total_mass ps = 1 := by
  have h := createPlummerDistribution_masses sample_libm zero_stream (sample_policy 2) 0
    (by decide)
  have hrej : ∀ g, ∃ fuel,
      (rejection_loop sample_libm zero_stream fuel 0 (1 / 10) g).isSome = true :=
    fun g => ⟨1, by simp [rejection_loop, uniform, zero_stream, sqr, sample_libm]⟩
  refine ⟨h.2 hrej, ?_, fun ps hps => ?_⟩
  · simp [createPlummerDistribution, plummer_loop, sample_velocity, rejection_loop, uniform,
      zero_stream, sqr, sample_libm, randomize_theta_phi, sample_policy]
  · have := h.1 1 ps hps
    simpa [sample_policy] using this

/-! ## The rejection loop of `sample_velocity` -/

section RejectionLemmas

variable {α : Type} [LinearOrderedField α]

/-- What an ended rejection loop returns: the pair it started with, when that pair passes
the test at once, or else the last pair drawn, which passes the test. -/
theorem rejection_loop_accept (L : Libm α) (rng : Nat → α) (fuel : Nat) :
    ∀ (x y : α) (g : Nat) (r : α × Nat), rejection_loop L rng fuel x y g = some r →
      (r = (x, g) ∧ ¬ (y > sqr x * L.pow (1 - sqr x) (7 / 2))) ∨
      (∃ n, g ≤ n ∧ r.2 = n + 2 ∧ r.1 = (uniform 0 1 rng n).1 ∧
        ¬ ((uniform 0 (1 / 10) rng (n + 1)).1 > sqr r.1 * L.pow (1 - sqr r.1) (7 / 2))) := by
  induction fuel with
  | zero =>
    intro x y g r h
    simp only [rejection_loop] at h
    split at h
    · cases h
    · rename_i hc
      simp only [Option.some.injEq] at h
      exact Or.inl ⟨h.symm, hc⟩
  | succ k ih =>
    intro x y g r h
    simp only [rejection_loop] at h
    split at h
    · right
      rcases ih _ _ _ r h with ⟨hr, hc⟩ | ⟨n, hn, h2, h1, hc⟩
      · refine ⟨g, le_refl g, ?_, ?_, ?_⟩
        · rw [hr]
        · rw [hr]
        · rw [hr]
          exact hc
      · exact ⟨n, by omega, h2, h1, hc⟩
    · rename_i hc
      simp only [Option.some.injEq] at h
      exact Or.inl ⟨h.symm, hc⟩

/-- The loop of `sample_velocity` starts from `x=0`, `y=0.1`, a pair that fails the test:
what it returns is a pair drawn from the stream. -/
theorem rejection_loop_drawn (L : Libm α) (rng : Nat → α) (fuel g : Nat) (r : α × Nat)
    (h : rejection_loop L rng fuel 0 (1 / 10) g = some r) :
    ∃ n, g ≤ n ∧ r.2 = n + 2 ∧ r.1 = (uniform 0 1 rng n).1 ∧
      ¬ ((uniform 0 (1 / 10) rng (n + 1)).1 > sqr r.1 * L.pow (1 - sqr r.1) (7 / 2)) := by
  rcases rejection_loop_accept L rng fuel _ _ _ r h with ⟨-, hc⟩ | h2
  · exfalso
    apply hc
    simp only [sqr, zero_mul]
    norm_num
  · exact h2

end RejectionLemmas

/-! ## Sampling in real arithmetic -/

theorem escape_speed_nonneg (r : ℝ) : 0 ≤ escape_speed r := by
  unfold escape_speed
  exact mul_nonneg (Real.sqrt_nonneg 2) (Real.rpow_nonneg (by positivity) _)

theorem sample_velocity_value (rng : ℕ → ℝ) (fuel : ℕ) (radius : ℝ) (g : ℕ) (r : ℝ × ℕ)
    (h : rejection_loop real_libm rng fuel 0 (1 / 10) g = some r) :
    sample_velocity real_libm rng fuel radius g = some (r.1 * escape_speed radius, r.2) := by
  unfold sample_velocity
  rw [h]
  simp only [Option.map_some', escape_speed, real_libm, sqr]
  rw [mul_assoc, sq]

/-- C11: for every radius `r` and every random stream of canonical values in `[0,1]` on which
the rejection loop ends, `sample_velocity` returns (for all fuel from some bound on) the
speed `q · √2 · (1 + r²)^(−1/4)` for an accepted pair `q`, `y` drawn from the stream, with
`0 ≤ q ≤ 1` and `y ≤ q²(1 − q²)^(7/2)`; the speed is non-negative and does not exceed the
local escape speed `√2 · (1 + r²)^(−1/4)`. -/
theorem sample_velocity_escape (rng : ℕ → ℝ) (radius : ℝ) (g : ℕ)
    (hrng : ∀ n, 0 ≤ rng n ∧ rng n ≤ 1)
    (hend : ∃ fuel, (rejection_loop real_libm rng fuel 0 (1 / 10) g).isSome = true) :
    ∃ F, ∀ fuel, F ≤ fuel → ∃ (q y : ℝ) (n : ℕ),
      sample_velocity real_libm rng fuel radius g = some (q * escape_speed radius, n + 2) ∧
      g ≤ n ∧ q = (uniform 0 1 rng n).1 ∧ y = (uniform 0 (1 / 10) rng (n + 1)).1 ∧
      0 ≤ q ∧ q ≤ 1 ∧ y ≤ q ^ 2 * (1 - q ^ 2) ^ ((7 : ℝ) / 2) ∧
      0 ≤ q * escape_speed radius ∧ q * escape_speed radius ≤ escape_speed radius := by
  obtain ⟨f0, hf0⟩ := hend
  obtain ⟨r, hr⟩ := Option.isSome_iff_exists.1 hf0
  refine ⟨f0, fun fuel hfuel => ?_⟩
  have h1 := rejection_loop_mono real_libm rng f0 _ _ _ r hr fuel hfuel
  obtain ⟨n, hn, h2, hq, hc⟩ := rejection_loop_drawn real_libm rng fuel g r h1
  have hq0 : 0 ≤ r.1 := by
    rw [hq]
    simp only [uniform, sub_zero, one_mul, zero_add]
    exact (hrng n).1
  have hq1 : r.1 ≤ 1 := by
    rw [hq]
    simp only [uniform, sub_zero, one_mul, zero_add]
    exact (hrng n).2
  refine ⟨r.1, (uniform 0 (1 / 10) rng (n + 1)).1, n, ?_, hn, hq, rfl, hq0, hq1, ?_, ?_, ?_⟩
  · rw [sample_velocity_value rng fuel radius g r h1, h2]
  · have := not_lt.1 hc
    simpa only [sqr, real_libm, ← sq] using this
  · exact mul_nonneg hq0 (escape_speed_nonneg radius)
  · exact mul_le_of_le_one_left (escape_speed_nonneg radius) hq1

/-- C11 on the all-zero stream, radius 1: the pair `q = 0`, `y = 0` is accepted. -/
theorem sample_velocity_escape_witness :
    ∃ F, ∀ fuel, F ≤ fuel → ∃ (q y : ℝ) (n : ℕ),
      sample_velocity real_libm real_zero_stream fuel 1 0 = some (q * escape_speed 1, n + 2) ∧
      0 ≤ n ∧ q = (uniform 0 1 real_zero_stream n).1 ∧
      y = (uniform 0 (1 / 10) real_zero_stream (n + 1)).1 ∧
      0 ≤ q ∧ q ≤ 1 ∧ y ≤ q ^ 2 * (1 - q ^ 2) ^ ((7 : ℝ) / 2) ∧
      0 ≤ q * escape_speed 1 ∧ q * escape_speed 1 ≤ escape_speed 1 :=
  sample_velocity_escape real_zero_stream 1 0
    (fun _ => ⟨le_refl 0, zero_le_one⟩)
    ⟨1, by simp [rejection_loop, uniform, real_zero_stream, sqr, real_libm]⟩

theorem pi_real : pi real_libm = Real.pi := by
  simp only [pi, real_libm, Real.arctan_one]
  ring

/-- The vector `randomize_theta_phi` makes has the length of the scalar it is given, when
the value drawn for `cos θ` lies in `[-1,1]`. -/
theorem real_randomize_norm (rng : ℕ → ℝ) (r : ℝ) (g : ℕ)
    (h1 : -1 ≤ (uniform (-1) 1 rng g).1) (h2 : (uniform (-1) 1 rng g).1 ≤ 1) :
    (randomize_theta_phi real_libm rng r g).1.1 ^ 2 +
      (randomize_theta_phi real_libm rng r g).1.2.1 ^ 2 +
      (randomize_theta_phi real_libm rng r g).1.2.2 ^ 2 = r ^ 2 := by
  simp only [randomize_theta_phi, real_libm, Real.sin_arccos]
  have hs : Real.sqrt (1 - (uniform (-1) 1 rng g).1 ^ 2) ^ 2 = 1 - (uniform (-1) 1 rng g).1 ^ 2 := by
    apply Real.sq_sqrt
    nlinarith
  have ht := Real.sin_sq_add_cos_sq
    (uniform 0 (pi (⟨Real.sqrt, fun x y => x ^ y, Real.sin, Real.cos, Real.arccos,
      Real.arctan⟩ : Libm ℝ)) rng (g + 1)).1
  linear_combination
    (r ^ 2 * Real.sqrt (1 - (uniform (-1) 1 rng g).1 ^ 2) ^ 2) * ht + r ^ 2 * hs

/-- The `y` component `randomize_theta_phi` makes is not negative, when the scalar is not
negative and the value drawn for `φ` lies in `[0,π]`. -/
theorem real_randomize_y_nonneg (rng : ℕ → ℝ) (r : ℝ) (g : ℕ) (hr : 0 ≤ r)
    (h1 : 0 ≤ (uniform 0 (pi real_libm) rng (g + 1)).1)
    (h2 : (uniform 0 (pi real_libm) rng (g + 1)).1 ≤ Real.pi) :
    0 ≤ (randomize_theta_phi real_libm rng r g).1.2.1 := by
  have hsin := Real.sin_nonneg_of_nonneg_of_le_pi h1 h2
  simp only [randomize_theta_phi]
  have e : real_libm.sin = Real.sin := rfl
  have e2 : real_libm.acos = Real.arccos := rfl
  rw [e, e2, Real.sin_arccos]
  exact mul_nonneg (mul_nonneg hr (Real.sqrt_nonneg _)) hsin

/-- In real arithmetic the radius `r₀ / √(u^(−2/3))` is `r₀ · u^(1/3)`, for `u > 0`. -/
theorem real_plummer_radius (r0 u : ℝ) (hu : 0 < u) :
    plummer_radius real_libm r0 u = r0 * u ^ ((1 : ℝ) / 3) := by
  simp only [plummer_radius, real_libm]
  rw [Real.sqrt_eq_rpow, ← Real.rpow_mul hu.le]
  have e : (-2 / 3 : ℝ) * (1 / 2) = -(1 / 3) := by norm_num
  rw [e, Real.rpow_neg hu.le, div_inv_eq_mul]

theorem real_plummer_radius_bounds (r0 u : ℝ) (hr : 0 < r0) (hu : 0 < u) (hu1 : u ≤ 1) :
    0 < plummer_radius real_libm r0 u ∧ plummer_radius real_libm r0 u ≤ r0 := by
  rw [real_plummer_radius r0 u hu]
  have hp : 0 < u ^ ((1 : ℝ) / 3) := Real.rpow_pos_of_pos hu _
  have hle : u ^ ((1 : ℝ) / 3) ≤ 1 := Real.rpow_le_one hu.le hu1 (by norm_num)
  exact ⟨mul_pos hr hp, mul_le_of_le_one_right hr.le hle⟩

/-- The draws of a stream of canonical values in `[0,1]` lie in the ranges of their
distributions. -/
theorem uniform_range (a b : ℝ) (hab : a ≤ b) (rng : ℕ → ℝ) (n : ℕ)
    (h : 0 ≤ rng n ∧ rng n ≤ 1) : a ≤ (uniform a b rng n).1 ∧ (uniform a b rng n).1 ≤ b := by
  simp only [uniform]
  constructor
  · nlinarith [mul_nonneg (sub_nonneg.2 hab) h.1]
  · nlinarith [mul_nonneg (sub_nonneg.2 hab) (sub_nonneg.2 h.2)]

/-- Every body the loop of `createPlummerDistribution` pushes is made, at some position
`g0` of the stream, from the radius drawn there, the direction drawn next, the speed
`sample_velocity` returns and the direction drawn after it. -/
theorem plummer_loop_mem {α : Type} [LinearOrderedField α] (L : Libm α) (rng : Nat → α)
    (fuel : Nat) (cfg : Configuration α) (n : Nat) :
    ∀ (g : Nat) (ps : List (Particle α)), plummer_loop L rng fuel cfg n g = some ps →
      ∀ p ∈ ps, ∃ (g0 : Nat) (v : α × Nat),
        sample_velocity L rng fuel (plummer_radius L cfg.ini_radius (uniform (2 / 100) 1 rng g0).1)
          (g0 + 1 + 2) = some v ∧
        p.x = (randomize_theta_phi L rng
          (plummer_radius L cfg.ini_radius (uniform (2 / 100) 1 rng g0).1) (g0 + 1)).1.1 ∧
        p.y = (randomize_theta_phi L rng
          (plummer_radius L cfg.ini_radius (uniform (2 / 100) 1 rng g0).1) (g0 + 1)).1.2.1 ∧
        p.z = (randomize_theta_phi L rng
          (plummer_radius L cfg.ini_radius (uniform (2 / 100) 1 rng g0).1) (g0 + 1)).1.2.2 ∧
        p.vx = (randomize_theta_phi L rng v.1 v.2).1.1 ∧
        p.vy = (randomize_theta_phi L rng v.1 v.2).1.2.1 ∧
        p.vz = (randomize_theta_phi L rng v.1 v.2).1.2.2 := by
  induction n with
  | zero =>
    intro g ps h p hp
    simp only [plummer_loop, Option.some.injEq] at h
    subst h
    cases hp
  | succ n ih =>
    intro g ps h p hp
    simp only [plummer_loop] at h
    split at h
    · cases h
    · rename_i v hv
      split at h
      · cases h
      · rename_i rest hrest
        simp only [Option.some.injEq] at h
        subst h
        rcases List.mem_cons.1 hp with h1 | h1
        · subst h1
          exact ⟨g, v, hv, rfl, rfl, rfl, rfl, rfl, rfl⟩
        · exact ih _ rest hrest p h1

/-- The speed `sample_velocity` returns on a stream of canonical values in `[0,1]` is not
negative. -/
theorem real_sample_velocity_nonneg (rng : ℕ → ℝ) (fuel : ℕ) (radius : ℝ) (g : ℕ) (v : ℝ × ℕ)
    (hrng : ∀ n, 0 ≤ rng n ∧ rng n ≤ 1)
    (h : sample_velocity real_libm rng fuel radius g = some v) : 0 ≤ v.1 := by
  cases hl : rejection_loop real_libm rng fuel 0 (1 / 10) g with
  | none =>
    unfold sample_velocity at h
    rw [hl] at h
    cases h
  | some r =>
    rw [sample_velocity_value rng fuel radius g r hl] at h
    simp only [Option.some.injEq] at h
    obtain ⟨n, -, -, hq, -⟩ := rejection_loop_drawn real_libm rng fuel g r hl
    have hq0 : 0 ≤ r.1 := by
      rw [hq]
      exact (uniform_range 0 1 zero_le_one rng n (hrng n)).1
    rw [← h]
    exact mul_nonneg hq0 (escape_speed_nonneg radius)

theorem real_phi_range (rng : ℕ → ℝ) (n : ℕ) (h : 0 ≤ rng n ∧ rng n ≤ 1) :
    0 ≤ (uniform 0 (pi real_libm) rng n).1 ∧ (uniform 0 (pi real_libm) rng n).1 ≤ Real.pi := by
  have := uniform_range 0 Real.pi Real.pi_pos.le rng n h
  rw [pi_real]
  exact this

theorem real_zero_stream_range : ∀ n, 0 ≤ real_zero_stream n ∧ real_zero_stream n ≤ 1 :=
  fun _ => ⟨le_refl 0, zero_le_one⟩

/-- On the all-zero stream the loop of `createPlummerDistribution` returns with fuel 1. -/
theorem real_zero_stream_returns (cfg : Configuration ℝ) (n g : ℕ) :
    (plummer_loop real_libm real_zero_stream 1 cfg n g).isSome = true := by
  induction n generalizing g with
  | zero => rfl
  | succ n ih =>
    have hl : ∀ g, rejection_loop real_libm real_zero_stream 1 0 (1 / 10) g = some (0, g + 2) := by
      intro g
      simp [rejection_loop, uniform, real_zero_stream, sqr, real_libm]
    obtain ⟨rest, hrest⟩ := Option.isSome_iff_exists.1 (ih (g + 1 + 2 + 2 + 2))
    simp only [plummer_loop, sample_velocity, hl, Option.map_some', randomize_theta_phi, hrest,
      Option.isSome_some]

/-! ## Sampling in real arithmetic: the properties -/

/-- C15: in real arithmetic, for every scalar `r`, every value `c` in `[-1,1]` drawn for
`cos θ` and every `φ`, the vector `(x,y,z)` that `randomize_theta_phi` makes has the length
of `r`: `x² + y² + z² = r²`. -/
theorem randomize_theta_phi_length (rng : ℕ → ℝ) (r : ℝ) (g : ℕ)
    (h1 : -1 ≤ (uniform (-1) 1 rng g).1) (h2 : (uniform (-1) 1 rng g).1 ≤ 1) :
    (randomize_theta_phi real_libm rng r g).1.1 ^ 2 +
      (randomize_theta_phi real_libm rng r g).1.2.1 ^ 2 +
      (randomize_theta_phi real_libm rng r g).1.2.2 ^ 2 = r ^ 2 :=
  real_randomize_norm rng r g h1 h2

/-- C15 at the scalar 2 on the all-zero stream, where `cos θ = -1`. -/
theorem randomize_theta_phi_length_witness :
    (randomize_theta_phi real_libm real_zero_stream 2 0).1.1 ^ 2 +
      (randomize_theta_phi real_libm real_zero_stream 2 0).1.2.1 ^ 2 +
      (randomize_theta_phi real_libm real_zero_stream 2 0).1.2.2 ^ 2 = (2 : ℝ) ^ 2 :=
  randomize_theta_phi_length real_zero_stream 2 0
    (by simp [uniform, real_zero_stream]) (by simp [uniform, real_zero_stream])

/-- C16: in real arithmetic, for every `u` in `[0.02, 1]` and scale radius `r₀ > 0`, the
radius `r₀ / √(u^(−2/3))` of `createPlummerDistribution` is `r₀ · u^(1/3)`, so that
`0 < radius ≤ r₀`; and on a stream of canonical values in `[0,1]` every body the loop
pushes, that is every body before centering, lies within distance `r₀` of the origin. -/
theorem plummer_radius_cube_root (r0 u : ℝ) (hr : 0 < r0) (hu : 2 / 100 ≤ u) (hu1 : u ≤ 1) :
    (plummer_radius real_libm r0 u = r0 * u ^ ((1 : ℝ) / 3) ∧
      0 < plummer_radius real_libm r0 u ∧ plummer_radius real_libm r0 u ≤ r0) ∧
    ∀ (rng : ℕ → ℝ) (cfg : Configuration ℝ) (fuel n g : ℕ) (ps : List (Particle ℝ)),
      (∀ k, 0 ≤ rng k ∧ rng k ≤ 1) → cfg.ini_radius = r0 →
      plummer_loop real_libm rng fuel cfg n g = some ps →
      ∀ p ∈ ps, 0 < p.x ^ 2 + p.y ^ 2 + p.z ^ 2 ∧ p.x ^ 2 + p.y ^ 2 + p.z ^ 2 ≤ r0 ^ 2 := by
  have hu0 : 0 < u := lt_of_lt_of_le (by norm_num) hu
  refine ⟨⟨real_plummer_radius r0 u hu0, real_plummer_radius_bounds r0 u hr hu0 hu1⟩, ?_⟩
  intro rng cfg fuel n g ps hrng hcfg hps p hp
  obtain ⟨g0, v, -, hx, hy, hz, -, -, -⟩ := plummer_loop_mem real_libm rng fuel cfg n g ps hps p hp
  have hur := uniform_range (2 / 100) 1 (by norm_num) rng g0 (hrng g0)
  have hc := uniform_range (-1) 1 (by norm_num) rng (g0 + 1) (hrng (g0 + 1))
  have hb := real_plummer_radius_bounds r0 _ hr (lt_of_lt_of_le (by norm_num) hur.1) hur.2
  rw [hx, hy, hz, real_randomize_norm rng _ (g0 + 1) hc.1 hc.2, hcfg]
  exact ⟨pow_pos hb.1 2, pow_le_pow_left₀ hb.1.le hb.2 2⟩

/-- C16 at `r₀ = 1`, `u = 1/8`; the loop does return on the all-zero stream. -/
theorem plummer_radius_cube_root_witness :
    ((plummer_radius real_libm 1 (1 / 8) = 1 * (1 / 8 : ℝ) ^ ((1 : ℝ) / 3) ∧
      0 < plummer_radius real_libm 1 (1 / 8) ∧ plummer_radius real_libm 1 (1 / 8) ≤ 1) ∧
    ∀ (rng : ℕ → ℝ) (cfg : Configuration ℝ) (fuel n g : ℕ) (ps : List (Particle ℝ)),
      (∀ k, 0 ≤ rng k ∧ rng k ≤ 1) → cfg.ini_radius = 1 →
      plummer_loop real_libm rng fuel cfg n g = some ps →
      ∀ p ∈ ps, 0 < p.x ^ 2 + p.y ^ 2 + p.z ^ 2 ∧ p.x ^ 2 + p.y ^ 2 + p.z ^ 2 ≤ (1 : ℝ) ^ 2) ∧
    (plummer_loop real_libm real_zero_stream 1 sample_real_cfg 3 0).isSome = true :=
  ⟨plummer_radius_cube_root 1 (1 / 8) (by norm_num) (by norm_num) (by norm_num),
    real_zero_stream_returns sample_real_cfg 3 0⟩

/-- C17: half azimuthal coverage.  In real arithmetic, for every `r ≥ 0`, every value in
`[-1,1]` drawn for `cos θ` and every `φ` drawn in `[0,π]`, the `y` component that
`randomize_theta_phi` makes is not negative; so on a stream of canonical values in `[0,1]`,
with a scale radius that is not negative, every body the loop of
`createPlummerDistribution` pushes, that is every body before centering, has `y ≥ 0` and
`vy ≥ 0`. -/
theorem randomize_theta_phi_half (rng : ℕ → ℝ) (r : ℝ) (g : ℕ) (hr : 0 ≤ r)
    (hc1 : -1 ≤ (uniform (-1) 1 rng g).1) (hc2 : (uniform (-1) 1 rng g).1 ≤ 1)
    (h1 : 0 ≤ (uniform 0 (pi real_libm) rng (g + 1)).1)
    (h2 : (uniform 0 (pi real_libm) rng (g + 1)).1 ≤ Real.pi) :
    0 ≤ (randomize_theta_phi real_libm rng r g).1.2.1 ∧
    ∀ (rng : ℕ → ℝ) (cfg : Configuration ℝ) (fuel n g : ℕ) (ps : List (Particle ℝ)),
      (∀ k, 0 ≤ rng k ∧ rng k ≤ 1) → 0 ≤ cfg.ini_radius →
      plummer_loop real_libm rng fuel cfg n g = some ps →
      ∀ p ∈ ps, 0 ≤ p.y ∧ 0 ≤ p.vy := by
  refine ⟨real_randomize_y_nonneg rng r g hr h1 h2, ?_⟩
  intro rng cfg fuel n g ps hrng hcfg hps p hp
  obtain ⟨g0, v, hv, -, hy, -, -, hvy, -⟩ := plummer_loop_mem real_libm rng fuel cfg n g ps hps p hp
  have hrad : 0 ≤ plummer_radius real_libm cfg.ini_radius (uniform (2 / 100) 1 rng g0).1 := by
    unfold plummer_radius
    exact div_nonneg hcfg (Real.sqrt_nonneg _)
  have hphi := real_phi_range rng (g0 + 1 + 1) (hrng (g0 + 1 + 1))
  have hv0 := real_sample_velocity_nonneg rng fuel _ _ v hrng hv
  have hphi2 := real_phi_range rng (v.2 + 1) (hrng (v.2 + 1))
  rw [hy, hvy]
  exact ⟨real_randomize_y_nonneg rng _ (g0 + 1) hrad hphi.1 hphi.2,
    real_randomize_y_nonneg rng _ v.2 hv0 hphi2.1 hphi2.2⟩

/-- C17 at the scalar 2 on the all-zero stream (`cos θ = -1`, `φ = 0`); the loop does
return on that stream. -/
theorem randomize_theta_phi_half_witness :
    (0 ≤ (randomize_theta_phi real_libm real_zero_stream 2 0).1.2.1 ∧
    ∀ (rng : ℕ → ℝ) (cfg : Configuration ℝ) (fuel n g : ℕ) (ps : List (Particle ℝ)),
      (∀ k, 0 ≤ rng k ∧ rng k ≤ 1) → 0 ≤ cfg.ini_radius →
      plummer_loop real_libm rng fuel cfg n g = some ps →
      ∀ p ∈ ps, 0 ≤ p.y ∧ 0 ≤ p.vy) ∧
    (plummer_loop real_libm real_zero_stream 1 sample_real_cfg 3 0).isSome = true :=
  ⟨randomize_theta_phi_half real_zero_stream 2 0 (by norm_num)
    (by simp [uniform, real_zero_stream]) (by simp [uniform, real_zero_stream])
    (by simp [uniform, real_zero_stream])
    (by simp [uniform, real_zero_stream, Real.pi_pos.le]),
    real_zero_stream_returns sample_real_cfg 3 0⟩

/-! ## The envelope of the rejection test -/

/-- The polynomial bound behind the envelope: `t²(1 − t)⁷ < 1/100` on `[0,1]`. -/
theorem envelope_poly (t : ℝ) (h0 : 0 ≤ t) (h1 : t ≤ 1) : t ^ 2 * (1 - t) ^ 7 < 1 / 100 := by
  have hs : 0 ≤ 1 - t := sub_nonneg.2 h1
  rcases le_total t (9 / 100) with ha | ha
  · have e1 : t ^ 2 ≤ (9 / 100) ^ 2 := pow_le_pow_left₀ h0 ha 2
    have e2 : (1 - t) ^ 7 ≤ 1 := pow_le_one₀ hs (by linarith)
    have e3 : 0 ≤ (1 - t) ^ 7 := pow_nonneg hs 7
    have e4 : 0 ≤ t ^ 2 := pow_nonneg h0 2
    nlinarith
  · rcases le_total t (11 / 100) with hb | hb
    · have e1 : t ^ 2 ≤ (11 / 100) ^ 2 := pow_le_pow_left₀ h0 hb 2
      have e2 : (1 - t) ^ 7 ≤ (91 / 100) ^ 7 := pow_le_pow_left₀ hs (by linarith) 7
      have e3 : 0 ≤ (1 - t) ^ 7 := pow_nonneg hs 7
      have e4 : 0 ≤ t ^ 2 := pow_nonneg h0 2
      have e5 : t ^ 2 * (1 - t) ^ 7 ≤ (11 / 100) ^ 2 * (91 / 100) ^ 7 :=
        mul_le_mul e1 e2 e3 (by positivity)
      have e6 : ((11 : ℝ) / 100) ^ 2 * (91 / 100) ^ 7 < 1 / 100 := by norm_num
      exact lt_of_le_of_lt e5 e6
    · have hq : 27 / 256 - t * (1 - t) ^ 3 = (t - 1 / 4) ^ 2 * ((t - 5 / 4) ^ 2 + 1 / 8) := by
        ring
      have e1 : t * (1 - t) ^ 3 ≤ 27 / 256 := by
        have : 0 ≤ (t - 1 / 4) ^ 2 * ((t - 5 / 4) ^ 2 + 1 / 8) := by positivity
        linarith
      have e0 : 0 ≤ t * (1 - t) ^ 3 := mul_nonneg h0 (pow_nonneg hs 3)
      have e2 : (t * (1 - t) ^ 3) ^ 2 ≤ (27 / 256) ^ 2 := pow_le_pow_left₀ e0 e1 2
      have e3 : 1 - t ≤ 89 / 100 := by linarith
      have e4 : (t * (1 - t) ^ 3) ^ 2 * (1 - t) ≤ (27 / 256) ^ 2 * (89 / 100) :=
        mul_le_mul e2 e3 hs (by positivity)
      have e5 : t ^ 2 * (1 - t) ^ 7 = (t * (1 - t) ^ 3) ^ 2 * (1 - t) := by ring
      have e6 : ((27 : ℝ) / 256) ^ 2 * (89 / 100) < 1 / 100 := by norm_num
      rw [e5]
      exact lt_of_le_of_lt e4 e6

/-- The target density of `sample_velocity` stays below `0.1` on `[0,1]`. -/
theorem envelope_real (x : ℝ) (h0 : 0 ≤ x) (h1 : x ≤ 1) :
    x ^ 2 * (1 - x ^ 2) ^ ((7 : ℝ) / 2) < 1 / 10 := by
  have ht0 : 0 ≤ x ^ 2 := pow_nonneg h0 2
  have ht1 : x ^ 2 ≤ 1 := pow_le_one₀ h0 h1
  have hs : 0 ≤ 1 - x ^ 2 := sub_nonneg.2 ht1
  have ha : 0 ≤ x ^ 2 * (1 - x ^ 2) ^ ((7 : ℝ) / 2) :=
    mul_nonneg ht0 (Real.rpow_nonneg hs _)
  have hsq : ((1 - x ^ 2) ^ ((7 : ℝ) / 2)) ^ 2 = (1 - x ^ 2) ^ 7 := by
    rw [← Real.rpow_natCast, ← Real.rpow_mul hs]
    have e : (7 : ℝ) / 2 * ((2 : ℕ) : ℝ) = ((7 : ℕ) : ℝ) := by norm_num
    rw [e, Real.rpow_natCast]
  have hp := envelope_poly (x ^ 2) ht0 ht1
  have h2 : (x ^ 2 * (1 - x ^ 2) ^ ((7 : ℝ) / 2)) ^ 2 < (1 / 10) ^ 2 := by
    rw [mul_pow, hsq]
    calc (x ^ 2) ^ 2 * (1 - x ^ 2) ^ 7 < 1 / 100 := hp
      _ = (1 / 10) ^ 2 := by norm_num
  exact lt_of_pow_lt_pow_left₀ 2 (by norm_num) h2

/-- C19: the rejection envelope of `sample_velocity` is valid.  For every real `x` in
`[0,1]` the density `x²(1 − x²)^(7/2)` that the loop tests `y` against is at least 0 and
below `0.1`, the upper end of the range `y` is drawn from: with `y = 0.1` the test
`y > sqr(x)*pow(1-sqr(x),3.5)` holds, and every `y` drawn from a canonical value in `[0,1]`
is at most `0.1`. -/
theorem rejection_envelope (x : ℝ) (h0 : 0 ≤ x) (h1 : x ≤ 1) :
    0 ≤ sqr x * real_libm.pow (1 - sqr x) (7 / 2) ∧
    (1 / 10 : ℝ) > sqr x * real_libm.pow (1 - sqr x) (7 / 2) ∧
    ∀ (rng : ℕ → ℝ) (n : ℕ), 0 ≤ rng n ∧ rng n ≤ 1 → (uniform 0 (1 / 10) rng n).1 ≤ 1 / 10 := by
  have e : sqr x * real_libm.pow (1 - sqr x) (7 / 2) = x ^ 2 * (1 - x ^ 2) ^ ((7 : ℝ) / 2) := by
    simp only [sqr, real_libm, ← sq]
  have ht1 : x ^ 2 ≤ 1 := pow_le_one₀ h0 h1
  refine ⟨?_, ?_, fun rng n h => (uniform_range 0 (1 / 10) (by norm_num) rng n h).2⟩
  · rw [e]
    exact mul_nonneg (pow_nonneg h0 2) (Real.rpow_nonneg (sub_nonneg.2 ht1) _)
  · rw [e]
    exact envelope_real x h0 h1

/-- C19 at `x = 1/2`. -/
theorem rejection_envelope_witness :
    0 ≤ sqr (1 / 2 : ℝ) * real_libm.pow (1 - sqr (1 / 2 : ℝ)) (7 / 2) ∧
    (1 / 10 : ℝ) > sqr (1 / 2 : ℝ) * real_libm.pow (1 - sqr (1 / 2 : ℝ)) (7 / 2) ∧
    ∀ (rng : ℕ → ℝ) (n : ℕ), 0 ≤ rng n ∧ rng n ≤ 1 → (uniform 0 (1 / 10) rng n).1 ≤ 1 / 10 :=
  rejection_envelope (1 / 2) (by norm_num) (by norm_num)

/-! ## The width of the snapshot file names -/

/-- C18: for all positive `max_iter` and `img_iter`, in exact arithmetic
`get_max_digits_config` returns `max(5, ⌈log₁₀(⌈max_iter / img_iter⌉)⌉)`, the quotient a real
number and its ceiling at least 1; the result is never below 5. -/
theorem get_max_digits_config_value (cfg : Configuration ℝ) (hm : 0 < cfg.max_iter)
    (hi : 0 < cfg.img_iter) :
    get_max_digits_config (Real.logb 10) cfg =
      max 5 ⌈Real.logb 10 ((⌈(cfg.max_iter : ℝ) / (cfg.img_iter : ℝ)⌉ : ℤ) : ℝ)⌉ ∧
    1 ≤ ⌈(cfg.max_iter : ℝ) / (cfg.img_iter : ℝ)⌉ ∧
    5 ≤ get_max_digits_config (Real.logb 10) cfg := by
  refine ⟨max_comm _ _, ?_, le_max_right _ _⟩
  have hq : (0 : ℝ) < (cfg.max_iter : ℝ) / (cfg.img_iter : ℝ) :=
    div_pos (by exact_mod_cast hm) (by exact_mod_cast hi)
  exact Int.one_le_ceil_iff.2 hq

/-- C18 at `max_iter = 100`, `img_iter = 10`; over the rationals, with `log10` standing at
its exact value 1 for the ten images, the width is 5. -/
theorem get_max_digits_config_value_witness :
    (get_max_digits_config (Real.logb 10) sample_real_cfg =
      max 5 ⌈Real.logb 10 ((⌈(sample_real_cfg.max_iter : ℝ) /
        (sample_real_cfg.img_iter : ℝ)⌉ : ℤ) : ℝ)⌉ ∧
    1 ≤ ⌈(sample_real_cfg.max_iter : ℝ) / (sample_real_cfg.img_iter : ℝ)⌉ ∧
    5 ≤ get_max_digits_config (Real.logb 10) sample_real_cfg) ∧
    get_max_digits_config (fun _ => (1 : ℚ)) (sample_policy 2) = 5 :=
  ⟨get_max_digits_config_value sample_real_cfg (by decide) (by decide), by decide⟩

/-! ## The fields `extract_particle` reads -/

theorem intercalate_cons_cons (f g : List Char) (r : List (List Char)) :
    List.intercalate [','] (f :: g :: r) = f ++ ',' :: List.intercalate [','] (g :: r) := by
  simp [List.intercalate, List.intersperse]

theorem line_after_last (f : List Char) (hf : ',' ∉ f) (k : Nat) : line_after k f = f := by
  induction k with
  | zero => rfl
  | succ k ih => simp only [line_after, next_token_last f hf, ih]

/-- The token iteration `k` of the loop takes from a line of comma-free fields is field `k`,
and the last field once the fields have run out. -/
theorem field_token_intercalate (fs : List (List Char)) (hc : ∀ f ∈ fs, ',' ∉ f) :
    ∀ k, fs ≠ [] →
      field_token k (List.intercalate [','] fs) = fs.getD (min k (fs.length - 1)) [] := by
  induction fs with
  | nil => intro k h; exact absurd rfl h
  | cons f rest ih =>
    intro k _
    have hf : ',' ∉ f := hc f (List.mem_cons_self f rest)
    cases rest with
    | nil =>
      have e : List.intercalate [','] [f] = f := by simp [List.intercalate, List.intersperse]
      simp only [e, field_token, line_after_last f hf k, next_token_last f hf, List.length_cons,
        List.length_nil, Nat.zero_add, Nat.sub_self, Nat.min_zero, List.getD_cons_zero]
    | cons g r =>
      have hrest : ∀ f1 ∈ g :: r, ',' ∉ f1 := fun f1 h1 => hc f1 (List.mem_cons_of_mem f h1)
      rw [intercalate_cons_cons]
      cases k with
      | zero =>
        simp only [field_token, line_after, next_token_append f _ hf, Nat.zero_min,
          List.getD_cons_zero]
      | succ k =>
        have e : field_token (k + 1) (f ++ ',' :: List.intercalate [','] (g :: r)) =
            field_token k (List.intercalate [','] (g :: r)) := by
          simp only [field_token, line_after, next_token_append f _ hf]
        rw [e, ih hrest k (List.cons_ne_nil g r)]
        have hmin : min (k + 1) ((f :: g :: r).length - 1) = min k ((g :: r).length - 1) + 1 := by
          simp only [List.length_cons]
          omega
        rw [hmin, List.getD_cons_succ]

/-- Fewer than eight iterations leave the loop of `extract_particle` short of `end_line`. -/
theorem extract_loop_not_ended (line : List Char) (k : Nat) (hk : k < 8) (s : Scan)
    (h : extract_loop k ⟨.expect_i, line, 0, 0, 0, 0, 0, 0, 0⟩ = .ok s) :
    s.state ≠ .end_line := by
  interval_cases k
  · simp only [extract_loop, Except.ok.injEq] at h
    rw [← h]
    simp
  · simp only [extract_loop_i] at h
    simp only [extract_loop, Except.ok.injEq] at h
    rw [← h]
    simp
  · simp only [extract_loop_i, extract_loop_x] at h
    obtain ⟨v1, -, h⟩ := bind_ok _ _ _ h
    simp only [extract_loop, Except.ok.injEq] at h
    rw [← h]
    simp
  · simp only [extract_loop_i, extract_loop_x, extract_loop_y] at h
    obtain ⟨v1, -, h⟩ := bind_ok _ _ _ h
    obtain ⟨v2, -, h⟩ := bind_ok _ _ _ h
    simp only [extract_loop, Except.ok.injEq] at h
    rw [← h]
    simp
  · simp only [extract_loop_i, extract_loop_x, extract_loop_y, extract_loop_z] at h
    obtain ⟨v1, -, h⟩ := bind_ok _ _ _ h
    obtain ⟨v2, -, h⟩ := bind_ok _ _ _ h
    obtain ⟨v3, -, h⟩ := bind_ok _ _ _ h
    simp only [extract_loop, Except.ok.injEq] at h
    rw [← h]
    simp
  · simp only [extract_loop_i, extract_loop_x, extract_loop_y, extract_loop_z,
      extract_loop_m] at h
    obtain ⟨v1, -, h⟩ := bind_ok _ _ _ h
    obtain ⟨v2, -, h⟩ := bind_ok _ _ _ h
    obtain ⟨v3, -, h⟩ := bind_ok _ _ _ h
    obtain ⟨v4, -, h⟩ := bind_ok _ _ _ h
    simp only [extract_loop, Except.ok.injEq] at h
    rw [← h]
    simp
  · simp only [extract_loop_i, extract_loop_x, extract_loop_y, extract_loop_z,
      extract_loop_m, extract_loop_vx] at h
    obtain ⟨v1, -, h⟩ := bind_ok _ _ _ h
    obtain ⟨v2, -, h⟩ := bind_ok _ _ _ h
    obtain ⟨v3, -, h⟩ := bind_ok _ _ _ h
    obtain ⟨v4, -, h⟩ := bind_ok _ _ _ h
    obtain ⟨v5, -, h⟩ := bind_ok _ _ _ h
    simp only [extract_loop, Except.ok.injEq] at h
    rw [← h]
    simp
  · simp only [extract_loop_i, extract_loop_x, extract_loop_y, extract_loop_z,
      extract_loop_m, extract_loop_vx, extract_loop_vy] at h
    obtain ⟨v1, -, h⟩ := bind_ok _ _ _ h
    obtain ⟨v2, -, h⟩ := bind_ok _ _ _ h
    obtain ⟨v3, -, h⟩ := bind_ok _ _ _ h
    obtain ⟨v4, -, h⟩ := bind_ok _ _ _ h
    obtain ⟨v5, -, h⟩ := bind_ok _ _ _ h
    obtain ⟨v6, -, h⟩ := bind_ok _ _ _ h
    simp only [extract_loop, Except.ok.injEq] at h
    rw [← h]
    simp

/-- The loop of `extract_particle` run on a line all of whose tokens 1 to 7 decode: eight
iterations end it, in the state `end_line`, with the seven values decoded. -/
theorem extract_loop_values (line : List Char) (v : Nat → Nat)
    (hd : ∀ i, 1 ≤ i → i ≤ 7 → decode (field_token i line) = .ok (v i)) :
    extract_loop 8 ⟨.expect_i, line, 0, 0, 0, 0, 0, 0, 0⟩ =
      .ok ⟨.end_line, line_after 8 line, v 1, v 2, v 3, v 4, v 5, v 6, v 7⟩ := by
  have h1 := hd 1 (by decide) (by decide)
  have h2 := hd 2 (by decide) (by decide)
  have h3 := hd 3 (by decide) (by decide)
  have h4 := hd 4 (by decide) (by decide)
  have h5 := hd 5 (by decide) (by decide)
  have h6 := hd 6 (by decide) (by decide)
  have h7 := hd 7 (by decide) (by decide)
  simp only [field_token, line_after] at h1 h2 h3 h4 h5 h6 h7
  simp only [extract_loop_i, extract_loop_x, extract_loop_y, extract_loop_z, extract_loop_m,
    extract_loop_vx, extract_loop_vy, extract_loop_vz, h1, h2, h3, h4, h5, h6, h7, Except.bind,
    line_after]
  rfl

/-- Every line is a list of comma-free fields, at least one, joined by commas. -/
theorem line_fields (line : List Char) :
    ∃ fs : List (List Char), fs ≠ [] ∧ (∀ f ∈ fs, ',' ∉ f) ∧
      line = List.intercalate [','] fs := by
  induction line with
  | nil => exact ⟨[[]], by simp, by simp, by simp [List.intercalate, List.intersperse]⟩
  | cons c cs ih =>
    obtain ⟨fs, hne, hc, he⟩ := ih
    obtain ⟨f, r, rfl⟩ := List.exists_cons_of_ne_nil hne
    by_cases hcomma : c = ','
    · subst hcomma
      refine ⟨[] :: f :: r, by simp, ?_, ?_⟩
      · intro f1 h1
        rcases List.mem_cons.1 h1 with h | h
        · subst h; simp
        · exact hc f1 h
      · rw [intercalate_cons_cons, he]
        rfl
    · refine ⟨(c :: f) :: r, by simp, ?_, ?_⟩
      · intro f1 h1
        rcases List.mem_cons.1 h1 with h | h
        · subst h
          have hf := hc f (List.mem_cons_self f r)
          simp only [List.mem_cons, not_or]
          exact ⟨fun e => hcomma e.symm, hf⟩
        · exact hc f1 (List.mem_cons_of_mem f h)
      · rw [he]
        cases r with
        | nil => simp [List.intercalate, List.intersperse]
        | cons g r2 => rw [intercalate_cons_cons, intercalate_cons_cons]; rfl

/-- C20: for every input line whose tokens 1 to 7 decode, the loop of `extract_particle`
ends after exactly eight iterations (eight reach `end_line`, fewer do not) and returns the
particle of the seven decoded values.  The line is a list of comma-free fields; token `i`
is field `i`, or the last field when the line has no field `i`: so field 0 and the fields
after the eighth are never decoded, and a line of fewer than eight fields does not fail
but gives its last field for each missing value. -/
theorem extract_particle_eight_steps (line : List Char) (v : Nat → Nat)
    (hd : ∀ i, 1 ≤ i → i ≤ 7 → decode (field_token i line) = .ok (v i)) :
    extract_loop 8 ⟨.expect_i, line, 0, 0, 0, 0, 0, 0, 0⟩ =
      .ok ⟨.end_line, line_after 8 line, v 1, v 2, v 3, v 4, v 5, v 6, v 7⟩ ∧
    (∀ k, k < 8 → ∀ s, extract_loop k ⟨.expect_i, line, 0, 0, 0, 0, 0, 0, 0⟩ = .ok s →
      s.state ≠ .end_line) ∧
    extract_particle line = .ok ⟨v 1, v 2, v 3, v 5, v 6, v 7, v 4⟩ ∧
    (∃ fs : List (List Char), fs ≠ [] ∧ (∀ f ∈ fs, ',' ∉ f) ∧
      line = List.intercalate [','] fs) ∧
    (∀ fs : List (List Char), fs ≠ [] → (∀ f ∈ fs, ',' ∉ f) →
      line = List.intercalate [','] fs →
      ∀ i, field_token i line = fs.getD (min i (fs.length - 1)) []) := by
  have hl := extract_loop_values line v hd
  refine ⟨hl, fun k hk s hs => extract_loop_not_ended line k hk s hs, ?_, line_fields line, ?_⟩
  · unfold extract_particle
    rw [hl]
    rfl
  · intro fs hne hc he i
    rw [he]
    exact field_token_intercalate fs hc i hne

/-- C20 at the line `0,1,2,3`: the index 0 is dropped, `x`, `y`, `z` are 1, 2, 3 and the
last field 3 stands for `m`, `vx`, `vy`, `vz`. -/
theorem extract_particle_eight_steps_witness :
    extract_particle sample_short_line = .ok ⟨1, 2, 3, 3, 3, 3, 3⟩ ∧
    (∀ i, field_token i sample_short_line =
      ["0".toList, "1".toList, "2".toList, "3".toList].getD (min i 3) []) :=
  ⟨(extract_particle_eight_steps sample_short_line (fun i => min i 3)
      (by intro i h1 h7; interval_cases i <;> rfl)).2.2.1,
    (extract_particle_eight_steps sample_short_line (fun i => min i 3)
      (by intro i h1 h7; interval_cases i <;> rfl)).2.2.2.2
      ["0".toList, "1".toList, "2".toList, "3".toList] (by decide) (by decide) (by decide)⟩

/-! ## The octree: the counter of live nodes -/

/-- Deleting a node takes its live nodes from the counter. -/
theorem destroy_eq {α : Type} (t : Node α) : ∀ c : Int, destroy t c = c - count_nodes t := by
  induction t with
  | null => intro c; simp [destroy, count_nodes]
  | Unused box => intro c; rfl
  | External box j => intro c; rfl
  | Internal box child ih =>
    intro c
    simp only [destroy, count_nodes, ih]
    omega

theorem count_nodes_update {α : Type} (box : Box α) (child : Fin 8 → Node α) (s : Fin 8)
    (node : Node α) :
    count_nodes (.Internal box (Function.update child s node)) =
      count_nodes (.Internal box child) - count_nodes (child s) + count_nodes node := by
  fin_cases s <;> simp [count_nodes, Function.update] <;> omega

theorem count_nodes_of_empty {α : Type} (t : Node α) (h : empty_slot t = true) :
    count_nodes t = 0 := by
  cases t with
  | null => rfl
  | Unused box => cases h
  | External box j => cases h
  | Internal box child => cases h

section OctreeLemmas

variable {α : Type} [LinearOrderedField α]

/-- A split adds to `_count` the nodes it adds to the tree. -/
theorem split_node_count (instantiate : Bool) (box : Box α) (c : Int) :
    (split_node instantiate box c).2 - count_nodes (split_node instantiate box c).1 =
      c - 1 := by
  cases instantiate
  · simp [split_node, count_nodes]
  · simp only [split_node, count_nodes, if_true]
    omega

/-- An insertion adds to `_count` the nodes it adds to the tree. -/
theorem insert_count (particles : List (Particle α)) (instantiate : Bool) (fuel : Nat) :
    ∀ (i : Nat) (t : Node α) (c : Int) (r : Node α × Int),
      insert particles instantiate fuel i t c = some r →
        r.2 - count_nodes r.1 = c - count_nodes t := by
  induction fuel with
  | zero => intro i t c r h; cases h
  | succ f ih =>
    intro i t c r h
    cases t with
    | null => cases h
    | Unused box =>
      simp only [insert, Option.some.injEq] at h
      subst h
      simp [count_nodes]
    | External box j =>
      simp only [insert] at h
      split at h
      · cases h
      · rename_i r1 h1
        have e1 := ih _ _ _ r1 h1
        have e2 := ih _ _ _ r h
        have e3 := split_node_count instantiate box c
        simp only [count_nodes]
        omega
    | Internal box child =>
      simp only [insert] at h
      split at h
      · rename_i he
        simp only [Option.some.injEq] at h
        subst h
        have e0 := count_nodes_of_empty _ he
        simp only [count_nodes_update, e0]
        simp only [count_nodes]
        omega
      · split at h
        · cases h
        · rename_i r1 h1
          simp only [Option.some.injEq] at h
          subst h
          have e1 := ih _ _ _ r1 h1
          simp only [count_nodes_update]
          omega

theorem insert_all_count (particles : List (Particle α)) (instantiate : Bool) (fuel : Nat)
    (l : List Nat) :
    ∀ (r0 r : Node α × Int), insert_all particles instantiate fuel l r0 = some r →
      r.2 - count_nodes r.1 = r0.2 - count_nodes r0.1 := by
  induction l with
  | nil =>
    intro r0 r h
    simp only [insert_all, Option.some.injEq] at h
    rw [h]
  | cons i rest ih =>
    intro r0 r h
    simp only [insert_all] at h
    split at h
    · cases h
    · rename_i r1 h1
      rw [ih r1 r h, insert_count particles instantiate fuel i _ _ r1 h1]

/-- When `create` returns, `_count` has grown by the live nodes of the tree, and `delete` of
the root brings it back. -/
theorem create_count (instantiate : Bool) (fuel : Nat) (particles : List (Particle α))
    (c : Int) (r : Node α × Int) (h : create instantiate fuel particles c = some r) :
    r.2 = c + count_nodes r.1 ∧ destroy r.1 r.2 = c := by
  have e := insert_all_count particles instantiate fuel _ _ r h
  simp only [count_nodes] at e
  rw [destroy_eq]
  constructor <;> omega

/-- A deeper bound on the recursion does not change what an insertion returns. -/
theorem insert_succ (particles : List (Particle α)) (instantiate : Bool) (fuel : Nat) :
    ∀ (i : Nat) (t : Node α) (c : Int) (r : Node α × Int),
      insert particles instantiate fuel i t c = some r →
        insert particles instantiate (fuel + 1) i t c = some r := by
  induction fuel with
  | zero => intro i t c r h; cases h
  | succ f ih =>
    intro i t c r h
    cases t with
    | null => cases h
    | Unused box =>
      simp only [insert] at h ⊢
      exact h
    | External box j =>
      simp only [insert] at h
      split at h
      · cases h
      · rename_i r1 h1
        have e1 := ih _ _ _ r1 h1
        have e2 := ih _ _ _ r h
        rw [insert, e1]
        exact e2
    | Internal box child =>
      simp only [insert] at h
      split at h
      · rename_i he
        rw [insert, if_pos he]
        exact h
      · rename_i he
        split at h
        · cases h
        · rename_i r1 h1
          have e1 := ih _ _ _ r1 h1
          rw [insert, if_neg he, e1]
          exact h

theorem insert_mono (particles : List (Particle α)) (instantiate : Bool) (fuel f1 : Nat)
    (hf : fuel ≤ f1) (i : Nat) (t : Node α) (c : Int) (r : Node α × Int)
    (h : insert particles instantiate fuel i t c = some r) :
    insert particles instantiate f1 i t c = some r := by
  induction f1 with
  | zero =>
    have : fuel = 0 := Nat.le_zero.1 hf
    subst this
    exact h
  | succ k ih =>
    rcases Nat.lt_or_ge fuel (k + 1) with hlt | hge
    · exact insert_succ particles instantiate k i t c r (ih (Nat.lt_succ_iff.1 hlt))
    · have : fuel = k + 1 := Nat.le_antisymm hf hge
      subst this
      exact h

theorem insert_all_mono (particles : List (Particle α)) (instantiate : Bool) (fuel f1 : Nat)
    (hf : fuel ≤ f1) (l : List Nat) :
    ∀ (r0 r : Node α × Int), insert_all particles instantiate fuel l r0 = some r →
      insert_all particles instantiate f1 l r0 = some r := by
  induction l with
  | nil => intro r0 r h; exact h
  | cons i rest ih =>
    intro r0 r h
    simp only [insert_all] at h ⊢
    split at h
    · cases h
    · rename_i r1 h1
      rw [insert_mono particles instantiate fuel f1 hf i _ _ r1 h1]
      exact ih r1 r h

/-- A deeper bound on the recursion does not change what `create` returns. -/
theorem create_mono (instantiate : Bool) (fuel f1 : Nat) (hf : fuel ≤ f1)
    (particles : List (Particle α)) (c : Int) (r : Node α × Int)
    (h : create instantiate fuel particles c = some r) :
    create instantiate f1 particles c = some r :=
  insert_all_mono particles instantiate fuel f1 hf _ _ r h

end OctreeLemmas

/-! ## The octree: boxes -/

section OctreeBoxes
variable {α : Type} [LinearOrderedField α]

theorem foldl_min_le (r : List α) : ∀ a : α, r.foldl min a ≤ a ∧ ∀ x ∈ r, r.foldl min a ≤ x := by
  induction r with
  | nil => intro a; exact ⟨le_refl a, by simp⟩
  | cons b r ih =>
    intro a
    obtain ⟨h1, h2⟩ := ih (min a b)
    refine ⟨le_trans h1 (min_le_left a b), fun x hx => ?_⟩
    rcases List.mem_cons.1 hx with rfl | hx
    · exact le_trans h1 (min_le_right a x)
    · exact h2 x hx

theorem le_foldl_max (r : List α) : ∀ a : α, a ≤ r.foldl max a ∧ ∀ x ∈ r, x ≤ r.foldl max a := by
  induction r with
  | nil => intro a; exact ⟨le_refl a, by simp⟩
  | cons b r ih =>
    intro a
    obtain ⟨h1, h2⟩ := ih (max a b)
    refine ⟨le_trans (le_max_left a b) h1, fun x hx => ?_⟩
    rcases List.mem_cons.1 hx with rfl | hx
    · exact le_trans (le_max_right a x) h1
    · exact h2 x hx

theorem axis_min_le (l : List α) (x : α) (hx : x ∈ l) : axis_min l ≤ x := by
  cases l with
  | nil => cases hx
  | cons a r =>
    rcases List.mem_cons.1 hx with rfl | hx
    · exact (foldl_min_le r x).1
    · exact (foldl_min_le r a).2 x hx

theorem le_axis_max (l : List α) (x : α) (hx : x ∈ l) : x ≤ axis_max l := by
  cases l with
  | nil => cases hx
  | cons a r =>
    rcases List.mem_cons.1 hx with rfl | hx
    · exact (le_foldl_max r x).1
    · exact (le_foldl_max r a).2 x hx

/-- Invariant 1 of the specification: the box of the root has every particle inside. -/
theorem get_limits_inside (particles : List (Particle α)) (epsilon : α) (he : 0 < epsilon)
    (p : Particle α) (hp : p ∈ particles) : inside (get_limits particles epsilon) p := by
  have hx1 := axis_min_le (particles.map fun p => p.x) p.x (List.mem_map_of_mem _ hp)
  have hx2 := le_axis_max (particles.map fun p => p.x) p.x (List.mem_map_of_mem _ hp)
  have hy1 := axis_min_le (particles.map fun p => p.y) p.y (List.mem_map_of_mem _ hp)
  have hy2 := le_axis_max (particles.map fun p => p.y) p.y (List.mem_map_of_mem _ hp)
  have hz1 := axis_min_le (particles.map fun p => p.z) p.z (List.mem_map_of_mem _ hp)
  have hz2 := le_axis_max (particles.map fun p => p.z) p.z (List.mem_map_of_mem _ hp)
  have m1 := le_max_left (axis_max (particles.map fun p => p.x) - axis_min (particles.map fun p => p.x))
    (max (axis_max (particles.map fun p => p.y) - axis_min (particles.map fun p => p.y))
      (axis_max (particles.map fun p => p.z) - axis_min (particles.map fun p => p.z)))
  have m23 := le_max_right (axis_max (particles.map fun p => p.x) - axis_min (particles.map fun p => p.x))
    (max (axis_max (particles.map fun p => p.y) - axis_min (particles.map fun p => p.y))
      (axis_max (particles.map fun p => p.z) - axis_min (particles.map fun p => p.z)))
  have m2 := le_trans (le_max_left (axis_max (particles.map fun p => p.y) - axis_min (particles.map fun p => p.y))
      (axis_max (particles.map fun p => p.z) - axis_min (particles.map fun p => p.z))) m23
  have m3 := le_trans (le_max_right (axis_max (particles.map fun p => p.y) - axis_min (particles.map fun p => p.y))
      (axis_max (particles.map fun p => p.z) - axis_min (particles.map fun p => p.z))) m23
  simp only [inside, get_limits, mean]
  refine ⟨⟨?_, ?_⟩, ⟨?_, ?_⟩, ⟨?_, ?_⟩⟩ <;> linarith

theorem width_le_mono (box : Box α) (w w1 : α) (h : width_le box w) (hw : w ≤ w1) :
    width_le box w1 :=
  ⟨le_trans h.1 hw, le_trans h.2.1 hw, le_trans h.2.2 hw⟩

/-- Invariant 2 of the specification: the sides halve at each depth. -/
theorem width_le_octant (box : Box α) (s : Fin 8) (w : α) (h : width_le box w) :
    width_le (octant box s) (w / 2) := by
  obtain ⟨h1, h2, h3⟩ := h
  simp only [width_le, octant, mean]
  refine ⟨?_, ?_, ?_⟩ <;> split_ifs <;> linarith

theorem spread_lt (box : Box α) (p q : Particle α) (w : α) (hp : inside box p)
    (hq : inside box q) (hw : width_le box w) : spread p q < w := by
  obtain ⟨⟨a1, a2⟩, ⟨a3, a4⟩, a5, a6⟩ := hp
  obtain ⟨⟨b1, b2⟩, ⟨b3, b4⟩, b5, b6⟩ := hq
  obtain ⟨w1, w2, w3⟩ := hw
  simp only [spread]
  refine max_lt (abs_lt.2 ⟨by linarith, by linarith⟩)
    (max_lt (abs_lt.2 ⟨by linarith, by linarith⟩) (abs_lt.2 ⟨by linarith, by linarith⟩))

theorem spread_pos (p q : Particle α) (h : ¬ same_position p q) : 0 < spread p q := by
  simp only [same_position, not_and_or] at h
  simp only [spread, lt_max_iff, abs_pos, sub_ne_zero]
  tauto

/-- A particle inside a box is inside the octant of its key. -/
theorem inside_octant (box : Box α) (p : Particle α) (h : inside box p) :
    inside (octant box (slot (particle_child_index box p))) p := by
  obtain ⟨⟨a1, a2⟩, ⟨a3, a4⟩, a5, a6⟩ := h
  unfold particle_child_index _get_child_index
  split_ifs with hx hy hz hz hy hz hz <;>
    norm_num [slot, octant, inside, Fin.ofNat] <;>
    simp only [ge_iff_le, not_le] at * <;>
    refine ⟨⟨?_, ?_⟩, ⟨?_, ?_⟩, ⟨?_, ?_⟩⟩ <;> assumption

end OctreeBoxes

/-! ## The octree: insertion ends -/

section OctreeInsertion
variable {α : Type} [LinearOrderedField α]

theorem insert_null (particles : List (Particle α)) (instantiate : Bool) (fuel i : Nat)
    (c : Int) : insert particles instantiate fuel i .null c = none := by
  cases fuel <;> rfl

/-- Into an Internal node whose slot for the particle is empty, the particle goes as a new
External child. -/
theorem insert_internal_empty (particles : List (Particle α)) (instantiate : Bool) (fuel i : Nat)
    (box : Box α) (child : Fin 8 → Node α) (c : Int)
    (h : child (slot (particle_child_index box (particle_at particles i))) = .null) :
    insert particles instantiate (fuel + 1) i (.Internal box child) c =
      some (.Internal box
        (Function.update child (slot (particle_child_index box (particle_at particles i)))
          (.External (octant box (slot (particle_child_index box (particle_at particles i))))
            i)), c + 1) := by
  simp only [insert, h, empty_slot, if_true]

/-- An Internal node passes the particle to the child of its octant. -/
theorem insert_internal_child (particles : List (Particle α)) (instantiate : Bool)
    (fuel i : Nat) (box : Box α) (child : Fin 8 → Node α) (c : Int) (r : Node α × Int)
    (h : insert particles instantiate fuel i
      (child (slot (particle_child_index box (particle_at particles i)))) c = some r) :
    insert particles instantiate (fuel + 1) i (.Internal box child) c =
      some (.Internal box
        (Function.update child (slot (particle_child_index box (particle_at particles i)))
          r.1), r.2) := by
  have hne : empty_slot (child (slot (particle_child_index box (particle_at particles i)))) =
      false := by
    cases hc : child (slot (particle_child_index box (particle_at particles i))) with
    | null => rw [hc, insert_null] at h; cases h
    | Unused b => rfl
    | External b j => rfl
    | Internal b ch => rfl
  simp only [insert, hne, h, Bool.false_eq_true, if_false]

/-- Into an Internal node whose slot for the particle is empty or holds an Unused node over
the octant, the particle goes as an External child over the octant. -/
theorem insert_internal_leaf (particles : List (Particle α)) (instantiate : Bool)
    (fuel i : Nat) (box : Box α) (child : Fin 8 → Node α) (c : Int)
    (h : child (slot (particle_child_index box (particle_at particles i))) = .null ∨
      child (slot (particle_child_index box (particle_at particles i))) =
        .Unused (octant box (slot (particle_child_index box (particle_at particles i))))) :
    ∃ c1, insert particles instantiate (fuel + 2) i (.Internal box child) c =
      some (.Internal box
        (Function.update child (slot (particle_child_index box (particle_at particles i)))
          (.External (octant box (slot (particle_child_index box (particle_at particles i))))
            i)), c1) := by
  rcases h with h | h
  · exact ⟨c + 1, insert_internal_empty particles instantiate (fuel + 1) i box child c h⟩
  · refine ⟨c, ?_⟩
    have e : insert particles instantiate (fuel + 1) i
        (child (slot (particle_child_index box (particle_at particles i)))) c =
        some (.External (octant box (slot (particle_child_index box (particle_at particles i))))
          i, c) := by
      rw [h]; rfl
    exact insert_internal_child particles instantiate (fuel + 1) i box child c _ e

theorem split_node_eq (instantiate : Bool) (box : Box α) (c : Int) :
    ∃ child, (split_node instantiate box c).1 = .Internal box child ∧
      ∀ s, child s = .null ∨ child s = .Unused (octant box s) := by
  cases instantiate
  · exact ⟨fun _ => .null, rfl, fun s => Or.inl rfl⟩
  · exact ⟨fun s => .Unused (octant box s), rfl, fun s => Or.inr rfl⟩

theorem well_formed_mono (particles : List (Particle α)) (m m1 : Nat) (h : m ≤ m1) :
    ∀ t : Node α, well_formed particles m t → well_formed particles m1 t := by
  intro t
  induction t with
  | null => intro _; trivial
  | Unused box => intro _; trivial
  | External box j => intro hw; exact ⟨lt_of_lt_of_le hw.1 h, hw.2⟩
  | Internal box child ih =>
    intro hw s
    rcases hw s with h1 | ⟨h1, h2⟩
    · exact Or.inl h1
    · exact Or.inr ⟨h1, ih s h2⟩

theorem well_formed_update (particles : List (Particle α)) (m : Nat) (box : Box α)
    (child : Fin 8 → Node α) (s : Fin 8) (t : Node α)
    (hc : well_formed particles m (.Internal box child)) (hb : has_box (octant box s) t)
    (ht : well_formed particles m t) :
    well_formed particles m (.Internal box (Function.update child s t)) := by
  intro s1
  by_cases hs : s1 = s
  · subst hs
    rw [Function.update_same]
    exact Or.inr ⟨hb, ht⟩
  · rw [Function.update_noteq hs]
    exact hc s1

theorem well_formed_leaves (particles : List (Particle α)) (m : Nat) (box : Box α)
    (child : Fin 8 → Node α) (h : ∀ s, child s = .null ∨ child s = .Unused (octant box s)) :
    well_formed particles m (.Internal box child) := by
  intro s
  rcases h s with h1 | h1
  · exact Or.inl h1
  · right
    rw [h1]
    exact ⟨rfl, trivial⟩

/-- An External node is split, and the incumbent and the new particle are inserted into
the node it has become. -/
theorem insert_external_step (particles : List (Particle α)) (instantiate : Bool)
    (fuel i j : Nat) (box : Box α) (c : Int) (r1 r : Node α × Int)
    (h1 : insert particles instantiate fuel j (split_node instantiate box c).1
      (split_node instantiate box c).2 = some r1)
    (h2 : insert particles instantiate fuel i r1.1 r1.2 = some r) :
    insert particles instantiate (fuel + 1) i (.External box j) c = some r := by
  rw [insert, h1]
  exact h2

/-- Inserting a particle into an External node whose particle is at another position ends:
the two separate after as many splits as it takes to halve the box below the distance of
the two. -/
theorem insert_external_ends (particles : List (Particle α)) (instantiate : Bool) (m j : Nat)
    (hjm : j < m) :
    ∀ (n : Nat) (box : Box α) (c : Int),
      width_le box (2 ^ n * spread (particle_at particles j) (particle_at particles m)) →
      inside box (particle_at particles j) → inside box (particle_at particles m) →
      ∃ (F : Nat) (r : Node α × Int),
        insert particles instantiate F m (.External box j) c = some r ∧
          has_box box r.1 ∧ well_formed particles (m + 1) r.1 := by
  intro n
  induction n with
  | zero =>
    intro box c hw hj hm
    have := spread_lt box _ _ _ hj hm hw
    simp at this
  | succ n ih =>
    intro box c hw hj hm
    obtain ⟨child0, hsplit, hleaf⟩ := split_node_eq instantiate box c
    have wf0 := well_formed_leaves particles (m + 1) box child0 hleaf
    have hoj := inside_octant box _ hj
    have hom := inside_octant box _ hm
    have wf1 := well_formed_update particles (m + 1) box child0 _ _ wf0
      (show has_box _ (.External (octant box
        (slot (particle_child_index box (particle_at particles j)))) j) from rfl)
      ⟨Nat.lt_succ_of_lt hjm, hoj⟩
    by_cases hs : slot (particle_child_index box (particle_at particles m)) =
        slot (particle_child_index box (particle_at particles j))
    · rw [hs] at hom
      have hw2 : width_le (octant box (slot (particle_child_index box (particle_at particles j))))
          (2 ^ n * spread (particle_at particles j) (particle_at particles m)) := by
        have := width_le_octant box (slot (particle_child_index box (particle_at particles j)))
          _ hw
        refine width_le_mono _ _ _ this (le_of_eq ?_)
        rw [pow_succ]; ring
      obtain ⟨c1, e1⟩ := insert_internal_leaf particles instantiate 0 j box child0
        (split_node instantiate box c).2 (hleaf _)
      obtain ⟨F, r, e2, hb2, wf2⟩ := ih _ c1 hw2 hoj hom
      have e3 := insert_internal_child particles instantiate F m box
        (Function.update child0 (slot (particle_child_index box (particle_at particles j)))
          (.External (octant box (slot (particle_child_index box (particle_at particles j))))
            j)) c1 r (by rw [hs, Function.update_same]; exact e2)
      rw [← hsplit] at e1
      exact ⟨F + 2 + 1, _,
        insert_external_step particles instantiate (F + 2) m j box c _ _
          (insert_mono particles instantiate 2 (F + 2) (by omega) _ _ _ _ e1)
          (insert_mono particles instantiate (F + 1) (F + 2) (by omega) _ _ _ _ e3),
        rfl, well_formed_update particles (m + 1) box _ _ _ wf1 (by rw [hs]; exact hb2) wf2⟩
    · obtain ⟨c1, e1⟩ := insert_internal_leaf particles instantiate 0 j box child0
        (split_node instantiate box c).2 (hleaf _)
      obtain ⟨c2, e2⟩ := insert_internal_leaf particles instantiate 0 m box
        (Function.update child0 (slot (particle_child_index box (particle_at particles j)))
          (.External (octant box (slot (particle_child_index box (particle_at particles j))))
            j)) c1 (by rw [Function.update_noteq hs]; exact hleaf _)
      rw [← hsplit] at e1
      exact ⟨3, _, insert_external_step particles instantiate 2 m j box c _ _ e1 e2, rfl,
        well_formed_update particles (m + 1) box _ _ _ wf1 rfl ⟨Nat.lt_succ_self m, hom⟩⟩

end OctreeInsertion

section OctreeEnds
variable {α : Type} [LinearOrderedField α]

/-- Every box is no wider than some power of two times a given positive length. -/
theorem width_le_pow [Archimedean α] (box : Box α) (d : α) (hd : 0 < d) :
    ∃ n : Nat, width_le box (2 ^ n * d) := by
  obtain ⟨n, hn⟩ := pow_unbounded_of_one_lt
    (max (box.xmax - box.xmin) (max (box.ymax - box.ymin) (box.zmax - box.zmin)) / d)
    (one_lt_two : (1 : α) < 2)
  have h := le_of_lt ((div_lt_iff₀ hd).1 hn)
  exact ⟨n, le_trans (le_max_left _ _) h,
    le_trans (le_trans (le_max_left _ _) (le_max_right _ _)) h,
    le_trans (le_trans (le_max_right _ _) (le_max_right _ _)) h⟩

/-- Inserting particle `m` into a tree that holds particles of index below `m`, none at the
position of particle `m`, ends, and keeps the invariants. -/
theorem insert_ends [Archimedean α] (particles : List (Particle α)) (instantiate : Bool)
    (m : Nat)
    (hd : ∀ j, j < m → ¬ same_position (particle_at particles j) (particle_at particles m)) :
    ∀ (t : Node α) (box : Box α) (c : Int), has_box box t → well_formed particles m t →
      inside box (particle_at particles m) →
      ∃ (F : Nat) (r : Node α × Int), insert particles instantiate F m t c = some r ∧
        has_box box r.1 ∧ well_formed particles (m + 1) r.1 := by
  intro t
  induction t with
  | null => intro box c hb; exact absurd hb id
  | Unused b =>
    intro box c hb _ hin
    have e : b = box := hb
    subst e
    exact ⟨1, (.External b m, c), rfl, rfl, Nat.lt_succ_self m, hin⟩
  | External b j =>
    intro box c hb hw hin
    have e : b = box := hb
    subst e
    obtain ⟨hj, hinj⟩ := hw
    obtain ⟨n, hn⟩ := width_le_pow b _ (spread_pos _ _ (hd j hj))
    exact insert_external_ends particles instantiate m j hj n b c hn hinj hin
  | Internal b child ih =>
    intro box c hb hw hin
    have e : b = box := hb
    subst e
    have hom := inside_octant b _ hin
    have hw1 := well_formed_mono particles m (m + 1) (Nat.le_succ m) _ hw
    rcases hw (slot (particle_child_index b (particle_at particles m))) with h0 | ⟨h1, h2⟩
    · exact ⟨1, _, insert_internal_empty particles instantiate 0 m b child c h0, rfl,
        well_formed_update particles (m + 1) b child _ _ hw1 rfl ⟨Nat.lt_succ_self m, hom⟩⟩
    · obtain ⟨F, r, e1, hb1, hw2⟩ := ih _ _ c h1 h2 hom
      exact ⟨F + 1, _, insert_internal_child particles instantiate F m b child c r e1, rfl,
        well_formed_update particles (m + 1) b child _ _ hw1 hb1 hw2⟩

theorem insert_all_ends [Archimedean α] (particles : List (Particle α)) (instantiate : Bool)
    (box : Box α) (hin : ∀ i, i < particles.length → inside box (particle_at particles i))
    (hd : ∀ i j, j < i → i < particles.length →
      ¬ same_position (particle_at particles j) (particle_at particles i)) :
    ∀ (k m : Nat) (t : Node α) (c : Int), m + k ≤ particles.length → has_box box t →
      well_formed particles m t →
      ∃ (F : Nat) (r : Node α × Int),
        insert_all particles instantiate F (List.range' m k) (t, c) = some r := by
  intro k
  induction k with
  | zero => intro m t c _ _ _; exact ⟨0, (t, c), rfl⟩
  | succ k ih =>
    intro m t c hm hb hw
    obtain ⟨F1, r1, e1, hb1, hw1⟩ := insert_ends particles instantiate m
      (fun j hj => hd m j hj (by omega)) t box c hb hw (hin m (by omega))
    obtain ⟨F2, r2, e2⟩ := ih (m + 1) r1.1 r1.2 (by omega) hb1 hw1
    refine ⟨max F1 F2, r2, ?_⟩
    rw [List.range'_succ]
    simp only [insert_all]
    rw [insert_mono particles instantiate F1 (max F1 F2) (le_max_left _ _) m t c r1 e1]
    exact insert_all_mono particles instantiate F2 (max F1 F2) (le_max_right _ _) _ _ r2 e2

theorem particle_at_mem (particles : List (Particle α)) (i : Nat) (hi : i < particles.length) :
    particle_at particles i ∈ particles := by
  unfold particle_at
  rw [List.getD_eq_getElem _ _ hi]
  exact List.getElem_mem hi

/-- For particles at pairwise distinct positions `create` ends. -/
theorem create_ends [Archimedean α] (instantiate : Bool) (particles : List (Particle α))
    (c : Int) (hd : particles.Pairwise fun p q => ¬ same_position p q) :
    ∃ (F : Nat) (r : Node α × Int), create instantiate F particles c = some r := by
  unfold create
  rw [List.range_eq_range']
  refine insert_all_ends particles instantiate (get_limits particles (1 / 10000))
    (fun i hi => get_limits_inside particles _ (by norm_num) _ (particle_at_mem particles i hi))
    ?_ particles.length 0 _ _ (by omega) rfl trivial
  intro i j hji hi
  have hj : j < particles.length := lt_trans hji hi
  unfold particle_at
  rw [List.getD_eq_getElem _ _ hi, List.getD_eq_getElem _ _ hj]
  exact List.pairwise_iff_getElem.1 hd j i hj hi hji

theorem insert_internal_none (particles : List (Particle α)) (instantiate : Bool)
    (fuel i : Nat) (box : Box α) (child : Fin 8 → Node α) (c : Int)
    (h1 : empty_slot (child (slot (particle_child_index box (particle_at particles i)))) =
      false)
    (h2 : insert particles instantiate fuel i
      (child (slot (particle_child_index box (particle_at particles i)))) c = none) :
    insert particles instantiate (fuel + 1) i (.Internal box child) c = none := by
  simp only [insert, h1, h2, Bool.false_eq_true, if_false]

/-- Inserting a particle into an External node that holds a particle with the same key in
every box never returns: the two are passed down together without end. -/
theorem insert_coincident (particles : List (Particle α)) (instantiate : Bool) (i j : Nat)
    (hkey : ∀ box : Box α, particle_child_index box (particle_at particles i) =
      particle_child_index box (particle_at particles j)) :
    ∀ (fuel : Nat) (box : Box α) (c : Int),
      insert particles instantiate fuel i (.External box j) c = none := by
  intro fuel
  induction fuel using Nat.strong_induction_on with
  | _ fuel ih =>
    intro box c
    cases fuel with
    | zero => rfl
    | succ f =>
      rw [insert]
      cases h : insert particles instantiate f j (split_node instantiate box c).1
          (split_node instantiate box c).2 with
      | none => rfl
      | some r1 =>
        obtain ⟨child0, hsplit, hleaf⟩ := split_node_eq instantiate box c
        obtain ⟨c1, e1⟩ := insert_internal_leaf particles instantiate 0 j box child0
          (split_node instantiate box c).2 (hleaf _)
        rw [hsplit] at h
        have h2 := insert_mono particles instantiate f (max f 2) (le_max_left _ _) _ _ _ _ h
        rw [insert_mono particles instantiate 2 (max f 2) (le_max_right _ _) _ _ _ _ e1] at h2
        simp only [Option.some.injEq] at h2
        subst h2
        simp only
        cases f with
        | zero => rfl
        | succ f1 =>
          have hch : Function.update child0
              (slot (particle_child_index box (particle_at particles j)))
              (.External (octant box (slot (particle_child_index box (particle_at particles j))))
                j) (slot (particle_child_index box (particle_at particles i))) =
              .External (octant box (slot (particle_child_index box (particle_at particles j))))
                j := by
            rw [hkey box, Function.update_same]
          apply insert_internal_none
          · rw [hch]; rfl
          · rw [hch]
            exact ih f1 (by omega) _ _

end OctreeEnds

/-- Two particles at the same position: `create` returns for no bound on the recursion. -/
theorem create_coincident (instantiate : Bool) (fuel : Nat) :
    create instantiate fuel sample_coincident 0 = none := by
  have hkey : ∀ box : Box ℚ, particle_child_index box (particle_at sample_coincident 1) =
      particle_child_index box (particle_at sample_coincident 0) := fun _ => rfl
  have hr : List.range sample_coincident.length = [0, 1] := by decide
  unfold create
  rw [hr]
  cases fuel with
  | zero => rfl
  | succ f =>
    have e0 : insert sample_coincident instantiate (f + 1) 0
        (.Unused (get_limits sample_coincident (1 / 10000))) (0 + 1) =
        some (.External (get_limits sample_coincident (1 / 10000)) 0, 0 + 1) := rfl
    simp only [insert_all, e0, insert_coincident sample_coincident instantiate 1 0 hkey]

/-! ## The octree: the count of a build -/

section OctreeCount

variable {α : Type} [LinearOrderedField α]

/-- The key of a particle is one of 0 to 7. -/
theorem particle_child_index_range (box : Box α) (p : Particle α) :
    0 ≤ particle_child_index box p ∧ particle_child_index box p ≤ 7 := by
  unfold particle_child_index _get_child_index
  split <;> split <;> split <;> constructor <;> norm_num

theorem slot_inj (a b : Int) (ha : 0 ≤ a ∧ a ≤ 7) (hb : 0 ≤ b ∧ b ≤ 7) (h : slot a = slot b) :
    a = b := by
  unfold slot at h
  have h2 := congrArg Fin.val h
  simp only [Fin.ofNat, Fin.val_mk] at h2
  omega

/-- The keys of pairwise distinct octants stand for pairwise distinct slots. -/
theorem slots_distinct (particles : List (Particle α)) (box : Box α)
    (hnd : (particles.map (particle_child_index box)).Nodup) (i j : Nat) (hji : j < i)
    (hi : i < particles.length) :
    slot (particle_child_index box (particle_at particles j)) ≠
      slot (particle_child_index box (particle_at particles i)) := by
  intro h
  have hj : j < particles.length := lt_trans hji hi
  have hkey := slot_inj _ _ (particle_child_index_range box _) (particle_child_index_range box _) h
  have hi2 : i < (particles.map (particle_child_index box)).length := by simpa using hi
  have hj2 : j < (particles.map (particle_child_index box)).length := by simpa using hj
  have e : (particles.map (particle_child_index box))[j] =
      (particles.map (particle_child_index box))[i] := by
    simp only [List.getElem_map]
    simp only [particle_at, List.getD_eq_getElem _ _ hi, List.getD_eq_getElem _ _ hj] at hkey
    exact hkey
  have := (hnd.getElem_inj_iff).1 e
  omega

/-- Into a root split once, a particle whose octant no earlier particle has goes as an
External child: a new node with a split that allocates as the table of the specification
says, the Unused node of the slot with the slots of the split level instantiated. -/
theorem insert_split_once (particles : List (Particle α)) (instantiate : Bool) (box : Box α)
    (m : Nat) (t : Node α) (c : Int) (fuel : Nat) (hf : 2 ≤ fuel)
    (hinv : split_once particles instantiate box m t)
    (hnew : ∀ j, j < m → slot (particle_child_index box (particle_at particles j)) ≠
      slot (particle_child_index box (particle_at particles m))) :
    ∃ t1, insert particles instantiate fuel m t c =
        some (t1, c + if instantiate then 0 else 1) ∧
      split_once particles instantiate box (m + 1) t1 := by
  obtain ⟨child, rfl, hch⟩ := hinv
  obtain ⟨f, rfl⟩ : ∃ f, fuel = f + 2 := ⟨fuel - 2, by omega⟩
  have hun : child (slot (particle_child_index box (particle_at particles m))) =
      (if instantiate then
        .Unused (octant box (slot (particle_child_index box (particle_at particles m))))
      else .null) := by
    rcases hch (slot (particle_child_index box (particle_at particles m))) with h | ⟨j, hj, hk, -⟩
    · exact h
    · exact absurd hk (hnew j hj)
  refine ⟨.Internal box (Function.update child
    (slot (particle_child_index box (particle_at particles m)))
    (.External (octant box (slot (particle_child_index box (particle_at particles m)))) m)),
    ?_, ?_⟩
  · cases instantiate
    · simp only [Bool.false_eq_true, if_false] at hun ⊢
      exact insert_internal_empty particles false (f + 1) m box child c hun
    · simp only [if_true, add_zero] at hun ⊢
      have e : insert particles true (f + 1) m
          (child (slot (particle_child_index box (particle_at particles m)))) c =
          some (.External (octant box (slot (particle_child_index box
            (particle_at particles m)))) m, c) := by
        rw [hun]; rfl
      exact insert_internal_child particles true (f + 1) m box child c _ e
  · refine ⟨_, rfl, fun s => ?_⟩
    by_cases hs : s = slot (particle_child_index box (particle_at particles m))
    · right
      refine ⟨m, Nat.lt_succ_self m, hs.symm, ?_⟩
      rw [hs, Function.update_same]
    · rw [Function.update_noteq hs]
      rcases hch s with h | ⟨j, hj, hk, h⟩
      · exact Or.inl h
      · exact Or.inr ⟨j, Nat.lt_succ_of_lt hj, hk, h⟩

theorem insert_all_split_once (particles : List (Particle α)) (instantiate : Bool)
    (box : Box α) (fuel : Nat) (hf : 2 ≤ fuel) :
    ∀ (k m : Nat) (t : Node α) (c : Int), split_once particles instantiate box m t →
      (∀ i j, j < i → i < m + k →
        slot (particle_child_index box (particle_at particles j)) ≠
          slot (particle_child_index box (particle_at particles i))) →
      ∃ t1, insert_all particles instantiate fuel (List.range' m k) (t, c) =
          some (t1, c + if instantiate then 0 else (k : Int)) ∧
        split_once particles instantiate box (m + k) t1 := by
  intro k
  induction k with
  | zero =>
    intro m t c hinv _
    exact ⟨t, by simp [insert_all], hinv⟩
  | succ k ih =>
    intro m t c hinv hd
    obtain ⟨t1, h1, hinv1⟩ := insert_split_once particles instantiate box m t c fuel hf hinv
      (fun j hj => hd m j hj (by omega))
    obtain ⟨t2, h2, hinv2⟩ := ih (m + 1) t1 (c + if instantiate then 0 else 1) hinv1
      (fun i j hji hi => hd i j hji (by omega))
    refine ⟨t2, ?_, ?_⟩
    · rw [List.range'_succ]
      simp only [insert_all, h1]
      rw [h2]
      cases instantiate
      · simp only [Bool.false_eq_true, if_false, Nat.cast_add, Nat.cast_one]
        congr 2
        ring
      · simp
    · have e : m + (k + 1) = m + 1 + k := by omega
      rw [e]
      exact hinv2

/-- For two particles or more in pairwise distinct octants of the root box, `create`
returns a root split once.  With a split that allocates as the table of the specification
says `_count` has grown by one for the root and one for each particle; with the slots of
the split level instantiated it has grown by nine. -/
theorem create_split_once (instantiate : Bool) (fuel : Nat) (hf : 3 ≤ fuel)
    (particles : List (Particle α)) (c : Int) (h2 : 2 ≤ particles.length)
    (hnd : (particles.map (particle_child_index (get_limits particles (1 / 10000)))).Nodup) :
    ∃ t, create instantiate fuel particles c =
        some (t, c + if instantiate then 9 else (particles.length : Int) + 1) ∧
      split_once particles instantiate (get_limits particles (1 / 10000)) particles.length t := by
  obtain ⟨n, hn⟩ : ∃ n, particles.length = n + 2 := ⟨particles.length - 2, by omega⟩
  obtain ⟨f, rfl⟩ : ∃ f, fuel = f + 3 := ⟨fuel - 3, by omega⟩
  have hd := slots_distinct particles _ hnd
  have hfresh : split_once particles instantiate (get_limits particles (1 / 10000)) 0
      (split_node instantiate (get_limits particles (1 / 10000)) (c + 1)).1 := by
    cases instantiate
    · exact ⟨_, rfl, fun s => Or.inl rfl⟩
    · exact ⟨_, rfl, fun s => Or.inl rfl⟩
  obtain ⟨t1, e1, hinv1⟩ := insert_split_once particles instantiate _ 0 _
    (split_node instantiate (get_limits particles (1 / 10000)) (c + 1)).2 (f + 2) (by omega)
    hfresh (fun j hj => absurd hj (Nat.not_lt_zero j))
  obtain ⟨t2, e2, hinv2⟩ := insert_split_once particles instantiate _ 1 t1
    ((split_node instantiate (get_limits particles (1 / 10000)) (c + 1)).2 +
      if instantiate then 0 else 1) (f + 2) (by omega)
    hinv1 (fun j hj => hd 1 j hj (by omega))
  obtain ⟨t3, e3, hinv3⟩ := insert_all_split_once particles instantiate _ (f + 3) (by omega) n 2
    t2 ((split_node instantiate (get_limits particles (1 / 10000)) (c + 1)).2 +
      (if instantiate then 0 else 1) + if instantiate then 0 else 1) hinv2
    (fun i j hji hi => hd i j hji (by omega))
  refine ⟨t3, ?_, ?_⟩
  · unfold create
    rw [hn, List.range_eq_range', List.range'_succ, List.range'_succ]
    have e0 : insert particles instantiate (f + 3) 0
        (.Unused (get_limits particles (1 / 10000))) (c + 1) =
        some (.External (get_limits particles (1 / 10000)) 0, c + 1) := rfl
    have e01 := insert_external_step particles instantiate (f + 2) 1 0 _ _ _ _ e1 e2
    simp only [insert_all, e0, e01, Nat.zero_add, Nat.reduceAdd]
    rw [e3]
    cases instantiate
    · simp only [split_node, Bool.false_eq_true, if_false, Nat.cast_add, Nat.cast_ofNat]
      congr 2
      ring
    · simp only [split_node, if_true, add_zero]
      congr 2
      ring
  · have e : particles.length = 2 + n := by omega
    rw [e]
    exact hinv3

end OctreeCount

theorem test_two_keys :
    test_two.map (particle_child_index (get_limits test_two (1 / 10000))) = [6, 7] := by
  norm_num [test_two, get_limits, axis_min, axis_max, mean, particle_child_index,
    _get_child_index]

theorem test_eight_keys :
    test_eight.map (particle_child_index (get_limits test_eight (1 / 10000))) =
      [0, 1, 2, 4, 3, 5, 6, 7] := by
  norm_num [test_eight, get_limits, axis_min, axis_max, mean, particle_child_index,
    _get_child_index]

/-- The two tests of test-tree.cpp, from `_count = 0`.  With a split that allocates as the
table of the specification says, the two particles give three live nodes and the eight
particles nine; with the slots of the split level instantiated both give nine. -/
theorem create_tests_count :
    (∃ t, create false 3 test_two 0 = some (t, 3)) ∧
    (∃ t, create true 3 test_two 0 = some (t, 9)) ∧
    (∃ t, create false 3 test_eight 0 = some (t, 9)) ∧
    (∃ t, create true 3 test_eight 0 = some (t, 9)) := by
  have h2 : (test_two.map (particle_child_index (get_limits test_two (1 / 10000)))).Nodup := by
    rw [test_two_keys]; decide
  have h8 : (test_eight.map (particle_child_index (get_limits test_eight (1 / 10000)))).Nodup := by
    rw [test_eight_keys]; decide
  refine ⟨?_, ?_, ?_, ?_⟩
  · obtain ⟨t, ht, -⟩ := create_split_once false 3 (by decide) test_two 0 (by decide) h2
    exact ⟨t, ht⟩
  · obtain ⟨t, ht, -⟩ := create_split_once true 3 (by decide) test_two 0 (by decide) h2
    exact ⟨t, ht⟩
  · obtain ⟨t, ht, -⟩ := create_split_once false 3 (by decide) test_eight 0 (by decide) h8
    exact ⟨t, ht⟩
  · obtain ⟨t, ht, -⟩ := create_split_once true 3 (by decide) test_eight 0 (by decide) h8
    exact ⟨t, ht⟩

/-! ## The octree: the properties -/

/-- C12: for all `i`, `j`, `k` in `{0,1}` the child key `_get_child_index(i,j,k) = 4i + 2j + k`
lies in `0..7`, below `N_Children = 8`, so that it is an index into the child slots; the
map from the eight triples to the keys is one to one, and onto `0..7`. -/
theorem get_child_index_bijection :
    (∀ i j k : Int, (i = 0 ∨ i = 1) → (j = 0 ∨ j = 1) → (k = 0 ∨ k = 1) →
      _get_child_index i j k = 4 * i + 2 * j + k ∧
      0 ≤ _get_child_index i j k ∧ _get_child_index i j k < N_Children) ∧
    (∀ i j k i1 j1 k1 : Int, (i = 0 ∨ i = 1) → (j = 0 ∨ j = 1) → (k = 0 ∨ k = 1) →
      (i1 = 0 ∨ i1 = 1) → (j1 = 0 ∨ j1 = 1) → (k1 = 0 ∨ k1 = 1) →
      _get_child_index i j k = _get_child_index i1 j1 k1 → i = i1 ∧ j = j1 ∧ k = k1) ∧
    (∀ n : Int, 0 ≤ n → n < N_Children →
      ∃ i j k : Int, (i = 0 ∨ i = 1) ∧ (j = 0 ∨ j = 1) ∧ (k = 0 ∨ k = 1) ∧
        _get_child_index i j k = n) := by
  refine ⟨?_, ?_, ?_⟩
  · intro i j k hi hj hk
    rcases hi with rfl | rfl <;> rcases hj with rfl | rfl <;> rcases hk with rfl | rfl <;>
      decide
  · intro i j k i1 j1 k1 hi hj hk hi1 hj1 hk1 h
    simp only [_get_child_index] at h
    omega
  · intro n h0 h8
    simp only [N_Children] at h8
    refine ⟨n / 4, n / 2 % 2, n % 2, ?_, ?_, ?_, ?_⟩
    · omega
    · omega
    · omega
    · simp only [_get_child_index]
      omega

/-- C12 at the triple `(1,0,1)`, whose key is 5. -/
theorem get_child_index_bijection_witness :
    _get_child_index 1 0 1 = 4 * 1 + 2 * 0 + 1 ∧
      0 ≤ _get_child_index 1 0 1 ∧ _get_child_index 1 0 1 < N_Children :=
  get_child_index_bijection.1 1 0 1 (Or.inr rfl) (Or.inl rfl) (Or.inr rfl)

end Galaxy
